import Mathlib

/-!
Verification development for the ppmpredictor repository.

The JavaScript sources are shallowly embedded into Lean:
* JS strings are modelled as lists of characters (abbreviation JStr);
* JS numbers that hold integers are modelled as Nat or Int, and the
  floating-point probability arithmetic of the PPM model is modelled with
  exact rationals;
* the pointer-linked suffix trie of the PPM language model is modelled as a
  finite association list from root paths (lists of symbol ids) to counts:
  a trie node is identified with the unique path of symbols from the root,
  the child edge labelled s of node w is the path w ++ [s], and the backoff
  (vine) pointer of a non-root node is the path with its first symbol
  removed, exactly as described in the source comments;
* thrown JS exceptions (failed assertions) are modelled with Option/Except.
-/

/-- JS strings are modelled as lists of characters. -/
abbrev JStr := List Char

namespace PPM

/- A symbol id is a non-negative integer index into the vocabulary
(vocabulary.js assigns ids 0, 1, 2, ...; id 0 is the root sentinel);
symbol ids are written as plain Nat. -/

/-- The root symbol sentinel (vocabulary.js, rootSymbol = 0). -/
def rootSymbol : Nat := 0

/-- A trie node is identified by its path of symbols from the root.
The root node is the empty path. -/
abbrev Path := List Nat

/-- The suffix trie of PPMLanguageModel: a finite association list from
non-root node paths to their occurrence counts (Node.count_).  The root
node is implicit (its count field is never read by the model).  The child,
sibling and backoff pointers of the JS Node are recovered from the paths:
children of w are the stored paths of the form w ++ [s], and the backoff
pointer of a non-root node is its tail (drop the first, oldest symbol). -/
abbrev Trie := List (Path × Nat)

/-- The paths (nodes) stored in a trie. -/
def keysOf (t : Trie) : List Path := t.map Prod.fst

/-- Node.findChildWithSymbol reported as membership: node w has a child
labelled s exactly when the path w ++ [s] is stored. -/
def hasChild (t : Trie) (w : Path) (s : Nat) : Prop := (w ++ [s]) ∈ keysOf t

instance (t : Trie) (w : Path) (s : Nat) : Decidable (hasChild t w s) := by
  unfold hasChild; infer_instance

/-- Increment the count of the node at path w (Node.count_++). -/
def bumpCount (t : Trie) (w : Path) : Trie :=
  t.map (fun e => if e.1 = w then (e.1, e.2 + 1) else e)

/-- PPMLanguageModel.addSymbolToNode_: find or create the child of node w
labelled s.  When the child exists only its count is incremented (single
counting / update exclusion).  When it is created, the source links it
under w and then recursively inserts s under the backoff node of w to set
the backoff pointer of the new node; with path-identified nodes the backoff
of w ++ [s] is w.tail ++ [s], which the recursive call stores.  The first
insertion below the root (w = []) backs off to the root itself and stops.
Returns the updated trie together with the path of the returned node. -/
def addSymbolToNode (t : Trie) (w : Path) (s : Nat) : Trie × Path :=
  if (w ++ [s]) ∈ keysOf t then
    (bumpCount t (w ++ [s]), w ++ [s])
  else
    let t1 : Trie := (w ++ [s], 1) :: t
    match w with
    | [] => (t1, [s])
    | _ :: w' => ((addSymbolToNode t1 w' s).1, w ++ [s])

/-- Context: a caller-owned handle of a current node (head_) and the
context length (order_).  order_ is an Int because the source decrements
it below zero transiently inside addSymbolToContext. -/
structure Ctx where
  head : Path
  order : Int
deriving DecidableEq, Repr

/-- PPMLanguageModel.createContext: head at the root, order 0. -/
def createContext : Ctx := ⟨[], 0⟩

/-- PPMLanguageModel.cloneContext: duplicates the handle, not the trie. -/
def cloneContext (c : Ctx) : Ctx := ⟨c.head, c.order⟩

/-- The backoff pointer: none for the root, otherwise drop the first
symbol of the path (Node.backoff_). -/
def backoffP : Path → Option Path
  | [] => none
  | _ :: w => some w

/-- Weight used for the termination of the backoff loop. -/
def optWeight : Option Path → Nat
  | none => 0
  | some h => h.length + 1

/-- The while loop of PPMLanguageModel.addSymbolToContext: while the head
is non-null, extend along the child edge labelled s if the order allows
and the edge exists, otherwise back off; when the backoff of the root is
passed the context is reset to the root with order 0. -/
def ascLoop (t : Trie) (maxOrder : Nat) (s : Nat) : Option Path → Int → Path × Int
  | none, _ => ([], 0)
  | some h, o =>
    if o < (maxOrder : Int) ∧ (h ++ [s]) ∈ keysOf t then (h ++ [s], o + 1)
    else ascLoop t maxOrder s (backoffP h) (o - 1)
termination_by oh _ => optWeight oh
decreasing_by
  cases h <;> simp [optWeight, backoffP]

/-- PPMLanguageModel.addSymbolToContext.  Symbols at or below the root
sentinel are ignored; an out-of-vocabulary symbol id fails the assertion,
modelled as none.  The trie is read-only here (the function does not
return a trie). -/
def addSymbolToContext (t : Trie) (n maxOrder : Nat) (c : Ctx) (s : Nat) : Option Ctx :=
  if s ≤ rootSymbol then some c
  else if s < n then
    some ⟨(ascLoop t maxOrder s (some c.head) c.order).1,
          (ascLoop t maxOrder s (some c.head) c.order).2⟩
  else none

/-- The while loop at the end of PPMLanguageModel.addSymbolAndUpdate:
follow backoff links until the order is within maxOrder.  The source
would dereference a null pointer if the head reached the root while the
order was still too large; that state is unreachable (order tracks the
path length), and the embedding returns the current state there. -/
def prune (maxOrder : Nat) : Path → Int → Path × Int
  | h, o =>
    if o > (maxOrder : Int) then
      match h with
      | [] => ([], o)
      | _ :: h' => prune maxOrder h' (o - 1)
    else (h, o)

/-- PPMLanguageModel.addSymbolAndUpdate: insert (or count) the symbol
under the context head, advance the context to the resulting node, and
prune the order back to maxOrder.  Invalid symbols behave as in
addSymbolToContext.  The internal source assertion that the inserted node
is findable under the head always holds and is omitted. -/
def addSymbolAndUpdate (t : Trie) (n maxOrder : Nat) (c : Ctx) (s : Nat) :
    Option (Trie × Ctx) :=
  if s ≤ rootSymbol then some (t, c)
  else if s < n then
    some ((addSymbolToNode t c.head s).1,
      ⟨(prune maxOrder (addSymbolToNode t c.head s).2 (c.order + 1)).1,
       (prune maxOrder (addSymbolToNode t c.head s).2 (c.order + 1)).2⟩)
  else none

/-- Training: fold addSymbolAndUpdate over a symbol sequence starting from
the empty model and a fresh context, as Predictor.train does. -/
def trainModel (n maxOrder : Nat) (syms : List Nat) : Option (Trie × Ctx) :=
  syms.foldlM (fun st s => addSymbolAndUpdate st.1 n maxOrder st.2 s) (([] : Trie), createContext)

/-- Kneser-Ney smoothing constant alpha (ppm_language_model.js, knAlpha). -/
def knAlpha : ℚ := 0.49

/-- Kneser-Ney smoothing constant beta (ppm_language_model.js, knBeta). -/
def knBeta : ℚ := 0.77

/-- The children of node w with their counts, recovered from the stored
paths of the form w ++ [s]. -/
def childrenOf (t : Trie) (w : Path) : List (Nat × Nat) :=
  t.filterMap (fun e =>
    match e.1.getLast? with
    | none => none
    | some s => if e.1.dropLast = w then some (s, e.2) else none)

/-- Reading the exclusion mask; a null mask excludes nothing. -/
def maskGet (m : Option (Nat → Bool)) (s : Nat) : Bool :=
  match m with
  | none => false
  | some f => f s

/-- Marking a symbol in the exclusion mask (no-op for a null mask). -/
def maskSet (m : Option (Nat → Bool)) (s : Nat) : Option (Nat → Bool) :=
  m.map (fun f => Function.update f s true)

/-- Node.totalChildrenCounts: total count over children, skipping symbols
marked in the exclusion mask. -/
def totalChildrenCounts (t : Trie) (w : Path) (m : Option (Nat → Bool)) : Nat :=
  (((childrenOf t w).filter (fun c => !(maskGet m c.1))).map Prod.snd).sum

/-- The running state of getProbs: the probability vector, the exclusion
mask (null when exclusion is disabled), the remaining mass and gamma. -/
structure PState where
  probs : Nat → ℚ
  mask : Option (Nat → Bool)
  totalMass : ℚ
  gamma : ℚ

/-- The inner loop body of getProbs over one child: skip masked symbols,
otherwise add gamma * (count - beta) / (total + alpha) to the probability
of the symbol, subtract it from the remaining mass, and mark the symbol. -/
def childStep (cnt : Nat) (st : PState) (c : Nat × Nat) : PState :=
  if maskGet st.mask c.1 then st
  else
    let p := st.gamma * ((c.2 : ℚ) - knBeta) / ((cnt : ℚ) + knAlpha)
    { st with
      probs := Function.update st.probs c.1 (st.probs c.1 + p)
      totalMass := st.totalMass - p
      mask := maskSet st.mask c.1 }

/-- Processing one node of the backoff chain in getProbs: when the node
has unmasked mass, fold over its children, then set gamma to the remaining
mass before backing off. -/
def nodeStep (t : Trie) (w : Path) (st : PState) : PState :=
  let cnt := totalChildrenCounts t w st.mask
  let st1 := if 0 < cnt then (childrenOf t w).foldl (childStep cnt) st else st
  { st1 with gamma := st1.totalMass }

/-- The backoff chain loop of getProbs: process the head node, then its
backoff, down to the root. -/
def chainLoop (t : Trie) : Path → PState → PState
  | [], st => nodeStep t [] st
  | w@(_ :: tl), st => chainLoop t tl (nodeStep t w st)

/-- First adjustment loop of getProbs: spread the remaining mass uniformly
over the unmasked non-root symbols. -/
def adjust1 (n : Nat) (st : PState) : PState :=
  let numUnseen := (((List.range n).filter (fun i => 1 ≤ i && !(maskGet st.mask i)))).length
  let remainingMass := st.totalMass
  (List.range' 1 (n - 1)).foldl
    (fun acc i =>
      if maskGet acc.mask i then acc
      else
        let p := remainingMass / (numUnseen : ℚ)
        { acc with
          probs := Function.update acc.probs i (acc.probs i + p)
          totalMass := acc.totalMass - p })
    st

/-- Second adjustment loop of getProbs: spread the residual mass over all
non-root symbols with a shrinking divisor (exact normalization). -/
def adjust2 (n : Nat) (st : PState) : PState :=
  ((List.range' 1 (n - 1)).foldl
    (fun acc i =>
      let p := acc.1.totalMass / (acc.2 : ℚ)
      ({ acc.1 with
         probs := Function.update acc.1.probs i (acc.1.probs i + p)
         totalMass := acc.1.totalMass - p }, acc.2 - 1))
    (st, n - 1)).1

/-- PPMLanguageModel.getProbs: the probability vector over all n symbols
of the vocabulary given the context.  The final source assertions (the
remaining mass is zero and the vector sums to one) always hold in exact
arithmetic and are proved below rather than modelled. -/
def getProbs (t : Trie) (n : Nat) (useExclusion : Bool) (c : Ctx) : Nat → ℚ :=
  let st0 : PState :=
    { probs := fun _ => 0
      mask := if useExclusion then some (fun _ => false) else none
      totalMass := 1
      gamma := 1 }
  let st1 := chainLoop t c.head st0
  (adjust2 n (adjust1 n st1)).probs

/-- The constructor default of the exclusion flag
(PPMLanguageModel.constructor: this.useExclusion_ = false). -/
def useExclusionDefault : Bool := false

/-- Well-formedness of the trie, established by construction: keys are
distinct, counts are at least one, stored symbols are valid non-root
vocabulary ids, and the node set is closed under the backoff pointer. -/
def WF (t : Trie) (n : Nat) : Prop :=
  (keysOf t).Nodup ∧
  ∀ e ∈ t, 1 ≤ e.2 ∧ (∀ s ∈ e.1, 1 ≤ s ∧ s < n) ∧ e.1 ≠ [] ∧
    (e.1.tail = [] ∨ e.1.tail ∈ keysOf t)

instance (t : Trie) (n : Nat) : Decidable (WF t n) := by
  unfold WF; infer_instance

/-- Validity of a context handle against a trie: the head is the root or a
stored node, the order equals the head path length (hence lies in
[0, maxOrder]). -/
def ValidCtx (t : Trie) (maxOrder : Nat) (c : Ctx) : Prop :=
  (c.head = [] ∨ c.head ∈ keysOf t) ∧ c.order = (c.head.length : Int) ∧
    c.head.length ≤ maxOrder

instance (t : Trie) (maxOrder : Nat) (c : Ctx) : Decidable (ValidCtx t maxOrder c) := by
  unfold ValidCtx; infer_instance

/-! Structural lemmas about the trie operations. -/

theorem keysOf_bumpCount (t : Trie) (w : Path) : keysOf (bumpCount t w) = keysOf t := by
  simp only [keysOf, bumpCount, List.map_map]
  congr 1
  funext e
  by_cases h : e.1 = w <;> simp [h]

theorem addSymbolToNode_snd (t : Trie) (w : Path) (s : Nat) :
    (addSymbolToNode t w s).2 = w ++ [s] := by
  unfold addSymbolToNode
  split
  · rfl
  · cases w <;> simp

theorem keysOf_addSymbolToNode_sub (s : Nat) :
    ∀ (w : Path) (t : Trie), keysOf t ⊆ keysOf (addSymbolToNode t w s).1 := by
  intro w
  induction w with
  | nil =>
    intro t x hx
    unfold addSymbolToNode
    split
    · rwa [keysOf_bumpCount]
    · simp only [keysOf, List.map_cons]
      exact List.mem_cons_of_mem _ hx
  | cons a w' ih =>
    intro t x hx
    unfold addSymbolToNode
    split
    · rwa [keysOf_bumpCount]
    · exact ih _ (by simp only [keysOf, List.map_cons]; exact List.mem_cons_of_mem _ hx)

theorem self_mem_addSymbolToNode (s : Nat) :
    ∀ (w : Path) (t : Trie), (w ++ [s]) ∈ keysOf (addSymbolToNode t w s).1 := by
  intro w
  cases w with
  | nil =>
    intro t
    unfold addSymbolToNode
    split
    · rwa [keysOf_bumpCount]
    · simp [keysOf]
  | cons a w' =>
    intro t
    unfold addSymbolToNode
    split
    · rwa [keysOf_bumpCount]
    · exact keysOf_addSymbolToNode_sub s w' _ (by simp [keysOf])

/-- Entry shape for the induction below: valid count and symbols, with
the backoff target either resolved in keys or equal to a pending path. -/
abbrev EntryOk (n : Nat) (keys : List Path) (pending : Option Path) (e : Path × Nat) : Prop :=
  1 ≤ e.2 ∧ (∀ x ∈ e.1, 1 ≤ x ∧ x < n) ∧ e.1 ≠ [] ∧
    (e.1.tail = [] ∨ e.1.tail ∈ keys ∨ some e.1.tail = pending)

theorem bumpCount_entryOk {t : Trie} {n : Nat} {wkey : Path}
    (hmem : wkey ∈ keysOf t)
    (hent : ∀ e ∈ t, EntryOk n (keysOf t) (some wkey) e) :
    ∀ e ∈ bumpCount t wkey, EntryOk n (keysOf (bumpCount t wkey)) none e := by
  intro e he
  rw [keysOf_bumpCount]
  simp only [bumpCount, List.mem_map] at he
  obtain ⟨e0, he0, rfl⟩ := he
  obtain ⟨h1, h2, h3, h4⟩ := hent e0 he0
  have hfst : (if e0.1 = wkey then (e0.1, e0.2 + 1) else e0).1 = e0.1 := by
    split <;> rfl
  have hsnd : 1 ≤ (if e0.1 = wkey then (e0.1, e0.2 + 1) else e0).2 := by
    split
    · simp
    · exact h1
  simp only [EntryOk, hfst]
  refine ⟨hsnd, h2, h3, ?_⟩
  rcases h4 with h | h | h
  · exact Or.inl h
  · exact Or.inr (Or.inl h)
  · simp only [Option.some_inj] at h
    exact Or.inr (Or.inl (h ▸ hmem))

/-- Main preservation lemma for addSymbolToNode.  The hypothesis allows
entries whose backoff target is exactly the node about to be inserted;
the conclusion has no such pending entries. -/
theorem addSymbolToNode_aux (n : Nat) (s : Nat) (hs : 1 ≤ s ∧ s < n) :
    ∀ (w : Path) (t : Trie),
      (∀ x ∈ w, 1 ≤ x ∧ x < n) →
      (keysOf t).Nodup →
      (∀ e ∈ t, EntryOk n (keysOf t) (some (w ++ [s])) e) →
      (keysOf (addSymbolToNode t w s).1).Nodup ∧
      (∀ e ∈ (addSymbolToNode t w s).1,
        EntryOk n (keysOf (addSymbolToNode t w s).1) none e) := by
  intro w
  induction w with
  | nil =>
    intro t hw hnd hent
    unfold addSymbolToNode
    split
    · rename_i hmem
      rw [keysOf_bumpCount]
      exact ⟨hnd, by rw [← keysOf_bumpCount t (([] : Path) ++ [s])]
                     exact bumpCount_entryOk hmem hent⟩
    · rename_i hmem
      constructor
      · simp only [keysOf, List.map_cons]
        exact List.nodup_cons.mpr ⟨hmem, hnd⟩
      · intro e he
        rcases List.mem_cons.mp he with rfl | he0
        · refine ⟨le_refl 1, ?_, by simp, Or.inl (by simp)⟩
          intro x hx
          simp only [List.nil_append, List.mem_singleton] at hx
          exact hx ▸ hs
        · obtain ⟨h1, h2, h3, h4⟩ := hent e he0
          refine ⟨h1, h2, h3, ?_⟩
          rcases h4 with h | h | h
          · exact Or.inl h
          · exact Or.inr (Or.inl
              (by simp only [keysOf, List.map_cons]; exact List.mem_cons_of_mem _ h))
          · simp only [Option.some_inj] at h
            exact Or.inr (Or.inl
              (by simp only [keysOf, List.map_cons]; exact h ▸ List.mem_cons_self _ _))
  | cons a w' ih =>
    intro t hw hnd hent
    unfold addSymbolToNode
    split
    · rename_i hmem
      rw [keysOf_bumpCount]
      exact ⟨hnd, by rw [← keysOf_bumpCount t ((a :: w') ++ [s])]
                     exact bumpCount_entryOk hmem hent⟩
    · rename_i hmem
      have hw' : ∀ x ∈ w', 1 ≤ x ∧ x < n := fun x hx => hw x (List.mem_cons_of_mem _ hx)
      have hnd1 : (keysOf (((a :: w') ++ [s], 1) :: t)).Nodup := by
        simp only [keysOf, List.map_cons]
        exact List.nodup_cons.mpr ⟨hmem, hnd⟩
      have hent1 : ∀ e ∈ (((a :: w') ++ [s], 1) :: t),
          EntryOk n (keysOf (((a :: w') ++ [s], 1) :: t)) (some (w' ++ [s])) e := by
        intro e he
        rcases List.mem_cons.mp he with rfl | he0
        · refine ⟨le_refl 1, ?_, by simp, ?_⟩
          · intro x hx
            have hx2 : x ∈ (a :: w') ++ [s] := by simpa using hx
            rcases List.mem_append.mp hx2 with hx1 | hx1
            · exact hw x hx1
            · simp only [List.mem_singleton] at hx1
              exact hx1 ▸ hs
          · right; right; simp
        · obtain ⟨h1, h2, h3, h4⟩ := hent e he0
          refine ⟨h1, h2, h3, ?_⟩
          rcases h4 with h | h | h
          · exact Or.inl h
          · right; left
            simp only [keysOf, List.map_cons]
            exact List.mem_cons_of_mem _ h
          · simp only [Option.some_inj] at h
            right; left
            simp only [keysOf, List.map_cons]
            exact h ▸ List.mem_cons_self _ _
      exact ih _ hw' hnd1 hent1

/-- addSymbolToNode preserves trie well-formedness when the base path has
valid symbols. -/
theorem addSymbolToNode_WF {t : Trie} {n : Nat} {w : Path} {s : Nat}
    (hWF : WF t n) (hw : ∀ x ∈ w, 1 ≤ x ∧ x < n) (hs : 1 ≤ s ∧ s < n) :
    WF (addSymbolToNode t w s).1 n := by
  obtain ⟨hnd, hent⟩ := hWF
  have haux := addSymbolToNode_aux n s hs w t hw hnd (fun e he => by
    obtain ⟨h1, h2, h3, h4⟩ := hent e he
    exact ⟨h1, h2, h3, h4.imp_right Or.inl⟩)
  refine ⟨haux.1, fun e he => ?_⟩
  obtain ⟨h1, h2, h3, h4⟩ := haux.2 e he
  refine ⟨h1, h2, h3, ?_⟩
  rcases h4 with h | h | h
  · exact Or.inl h
  · exact Or.inr h
  · exact absurd h (by simp)

/-- The backoff target of any stored node is the root or a stored node. -/
theorem WF_tail_mem {t : Trie} {n : Nat} (h : WF t n) :
    ∀ w ∈ keysOf t, w.tail = [] ∨ w.tail ∈ keysOf t := by
  intro w hw
  obtain ⟨e, he, rfl⟩ := List.mem_map.mp hw
  exact (h.2 e he).2.2.2

/-- The symbols of any stored node are valid non-root symbols. -/
theorem WF_syms_mem {t : Trie} {n : Nat} (h : WF t n) :
    ∀ w ∈ keysOf t, ∀ x ∈ w, 1 ≤ x ∧ x < n := by
  intro w hw
  obtain ⟨e, he, rfl⟩ := List.mem_map.mp hw
  exact (h.2 e he).2.1

/-- One-step characterisation of the context pruning loop: for a context
whose order tracks its path length and exceeds maxOrder by at most one,
the loop performs at most one backoff. -/
theorem prune_spec (maxOrder : Nat) (h : Path) (o : Int)
    (ho : o = (h.length : Int)) (hb : o ≤ (maxOrder : Int) + 1) :
    prune maxOrder h o =
      if o > (maxOrder : Int) then (h.tail, o - 1) else (h, o) := by
  unfold prune
  split
  · rename_i hgt
    cases h with
    | nil => simp at ho; omega
    | cons a h' =>
      simp only [List.tail_cons]
      unfold prune
      have : ¬ (o - 1 > (maxOrder : Int)) := by omega
      simp only [this, if_neg, if_pos, hgt]
      simp [hgt]
  · rename_i hle
    simp [hle]

/-- The backoff loop of addSymbolToContext preserves context validity. -/
theorem ascLoop_valid (t : Trie) (maxOrder : Nat) (s : Nat)
    (hsc : ∀ w ∈ keysOf t, w.tail = [] ∨ w.tail ∈ keysOf t) :
    ∀ (h : Path) (o : Int), o = (h.length : Int) → h.length ≤ maxOrder →
      (h = [] ∨ h ∈ keysOf t) →
      ((ascLoop t maxOrder s (some h) o).1 = [] ∨
        (ascLoop t maxOrder s (some h) o).1 ∈ keysOf t) ∧
      (ascLoop t maxOrder s (some h) o).2 =
        ((ascLoop t maxOrder s (some h) o).1.length : Int) ∧
      (ascLoop t maxOrder s (some h) o).1.length ≤ maxOrder := by
  intro h
  induction h with
  | nil =>
    intro o ho hlen hmem
    rw [ascLoop]
    split
    · rename_i hcond
      simp only []
      refine ⟨Or.inr hcond.2, by simp [ho], ?_⟩
      simp only [List.length_nil] at ho
      simp only [List.nil_append, List.length_singleton]
      omega
    · rw [show backoffP [] = none from rfl, ascLoop]
      exact ⟨Or.inl rfl, by simp, by simp⟩
  | cons a tl ih =>
    intro o ho hlen hmem
    rw [ascLoop]
    split
    · rename_i hcond
      have hlt := hcond.1
      refine ⟨Or.inr hcond.2, ?_, ?_⟩ <;>
        simp only [List.length_append, List.length_singleton, List.length_cons,
          List.length_nil] at ho ⊢ <;>
        omega
    · rw [show backoffP (a :: tl) = some tl from rfl]
      have htl : tl = [] ∨ tl ∈ keysOf t := by
        rcases hmem with h0 | h0
        · exact absurd h0 (by simp)
        · have := hsc _ h0
          simpa using this
      have ho2 : o = (tl.length : Int) + 1 := by
        rw [ho]; simp only [List.length_cons]; push_cast; ring
      have hlen2 : tl.length ≤ maxOrder := by
        simp only [List.length_cons] at hlen; omega
      exact ih (o - 1) (by omega) hlen2 htl

/-- addSymbolAndUpdate preserves trie well-formedness and context
validity for symbol ids below the vocabulary size. -/
theorem addSymbolAndUpdate_preserves {t : Trie} {n maxOrder : Nat} {c : Ctx} {s : Nat}
    {t' : Trie} {c' : Ctx}
    (hWF : WF t n) (hc : ValidCtx t maxOrder c)
    (hstep : addSymbolAndUpdate t n maxOrder c s = some (t', c')) :
    WF t' n ∧ ValidCtx t' maxOrder c' := by
  unfold addSymbolAndUpdate at hstep
  split at hstep
  · exact ⟨by cases hstep; exact hWF, by cases hstep; exact hc⟩
  · rename_i hroot
    split at hstep
    · rename_i hlt
      have hroot0 : ¬ s ≤ 0 := by simpa [rootSymbol] using hroot
      have hs : 1 ≤ s ∧ s < n := ⟨by omega, hlt⟩
      obtain ⟨hmem, hord, hbound⟩ := hc
      have hw : ∀ x ∈ c.head, 1 ≤ x ∧ x < n := by
        rcases hmem with h0 | h0
        · simp [h0]
        · exact WF_syms_mem hWF _ h0
      have hWF' : WF (addSymbolToNode t c.head s).1 n := addSymbolToNode_WF hWF hw hs
      have hmem' : (c.head ++ [s]) ∈ keysOf (addSymbolToNode t c.head s).1 :=
        self_mem_addSymbolToNode s c.head t
      have hsnd : (addSymbolToNode t c.head s).2 = c.head ++ [s] :=
        addSymbolToNode_snd t c.head s
      rw [hsnd] at hstep
      have hlen1 : c.order + 1 = ((c.head ++ [s]).length : Int) := by
        simp [hord]
      have hps := prune_spec maxOrder (c.head ++ [s]) (c.order + 1) hlen1
        (by rw [hord]; omega)
      rw [hps] at hstep
      by_cases hgt : c.order + 1 > (maxOrder : Int)
      · rw [if_pos hgt] at hstep
        simp only [Option.some_inj, Prod.mk.injEq] at hstep
        obtain ⟨rfl, rfl⟩ := hstep
        refine ⟨hWF', ?_, ?_, ?_⟩
        · exact WF_tail_mem hWF' _ hmem'
        · simp only []
          rw [List.length_tail]
          simp [hord]
        · simp only [List.length_tail, List.length_append, List.length_singleton]
          omega
      · rw [if_neg hgt] at hstep
        simp only [Option.some_inj, Prod.mk.injEq] at hstep
        obtain ⟨rfl, rfl⟩ := hstep
        refine ⟨hWF', Or.inr hmem', hlen1, ?_⟩
        simp only [List.length_append, List.length_singleton]
        omega
    · exact absurd hstep (by simp)

/-- Any successfully trained model is well-formed and its running context
is valid. -/
theorem trainModel_WF (n maxOrder : Nat) :
    ∀ (syms : List Nat) (st0 : Trie × Ctx),
      WF st0.1 n → ValidCtx st0.1 maxOrder st0.2 →
      ∀ t c, syms.foldlM (fun st s => addSymbolAndUpdate st.1 n maxOrder st.2 s) st0 =
        some (t, c) → WF t n ∧ ValidCtx t maxOrder c := by
  intro syms
  induction syms with
  | nil =>
    intro st0 hWF hc t c hfold
    simp only [List.foldlM_nil, Option.some_inj] at hfold
    rcases st0 with ⟨t0, c0⟩
    cases hfold
    exact ⟨hWF, hc⟩
  | cons s rest ih =>
    intro st0 hWF hc t c hfold
    rw [List.foldlM_cons] at hfold
    rcases hstep : addSymbolAndUpdate st0.1 n maxOrder st0.2 s with _ | ⟨t1, c1⟩
    · rw [hstep] at hfold; simp at hfold
    · rw [hstep] at hfold
      have hfold2 :
          rest.foldlM (fun st s => addSymbolAndUpdate st.1 n maxOrder st.2 s) (t1, c1) =
            some (t, c) := hfold
      obtain ⟨hWF1, hc1⟩ := addSymbolAndUpdate_preserves hWF hc hstep
      exact ih (t1, c1) hWF1 hc1 t c hfold2

/-- The empty model is well-formed and the fresh context is valid. -/
theorem WF_nil (n : Nat) : WF ([] : Trie) n :=
  ⟨by simp [keysOf], by simp⟩

theorem ValidCtx_create (t : Trie) (maxOrder : Nat) :
    ValidCtx t maxOrder createContext := by
  refine ⟨Or.inl rfl, rfl, by simp [createContext]⟩

/-! Lemmas about getProbs with exclusion disabled. -/

theorem childrenOf_mem (t : Trie) (w : Path) (p : Nat × Nat) :
    p ∈ childrenOf t w ↔ (w ++ [p.1], p.2) ∈ t := by
  simp only [childrenOf, List.mem_filterMap]
  constructor
  · rintro ⟨⟨l, cnt⟩, he, hf⟩
    induction l using List.reverseRecOn with
    | nil => simp at hf
    | append_singleton l' a _ =>
      simp only [List.getLast?_concat, List.dropLast_concat] at hf
      by_cases hw : l' = w
      · rw [if_pos hw] at hf
        simp only [Option.some_inj] at hf
        rw [← hf, ← hw]
        simpa using he
      · rw [if_neg hw] at hf
        exact absurd hf (by simp)
  · intro hmem
    exact ⟨(w ++ [p.1], p.2), hmem, by
      simp [List.getLast?_concat, List.dropLast_concat]⟩

theorem childrenOf_valid {t : Trie} {n : Nat} (hWF : WF t n) {w : Path}
    {p : Nat × Nat} (hp : p ∈ childrenOf t w) :
    1 ≤ p.1 ∧ p.1 < n ∧ 1 ≤ p.2 := by
  have hmem := (childrenOf_mem t w p).mp hp
  obtain ⟨h1, h2, _, _⟩ := hWF.2 _ hmem
  have hsym := h2 p.1 (by simp)
  exact ⟨hsym.1, hsym.2, h1⟩

theorem totalChildrenCounts_none (t : Trie) (w : Path) :
    totalChildrenCounts t w none = ((childrenOf t w).map Prod.snd).sum := by
  simp [totalChildrenCounts, maskGet, List.filter_true]

theorem sum_map_sub_const (cs : List (Nat × Nat)) (b : ℚ) :
    (cs.map (fun c => (c.2 : ℚ) - b)).sum =
      (cs.map (fun c => (c.2 : ℚ))).sum - cs.length * b := by
  induction cs with
  | nil => simp
  | cons c cs ih => simp [ih]; ring

/-- All properties of the child fold with a null mask in one statement. -/
theorem foldl_childStep_props (n cnt : Nat) :
    ∀ (cs : List (Nat × Nat)) (st : PState),
      st.mask = none → 0 ≤ st.gamma →
      (∀ p ∈ cs, 1 ≤ p.1 ∧ p.1 < n ∧ 1 ≤ p.2) →
      (cs.foldl (childStep cnt) st).mask = none ∧
      (cs.foldl (childStep cnt) st).gamma = st.gamma ∧
      (cs.foldl (childStep cnt) st).totalMass =
        st.totalMass -
          st.gamma * ((cs.map (fun c => (c.2 : ℚ) - knBeta)).sum) / ((cnt : ℚ) + knAlpha) ∧
      ((∑ i ∈ Finset.Ico 1 n, (cs.foldl (childStep cnt) st).probs i) +
          (cs.foldl (childStep cnt) st).totalMass =
        (∑ i ∈ Finset.Ico 1 n, st.probs i) + st.totalMass) ∧
      (∀ i, st.probs i ≤ (cs.foldl (childStep cnt) st).probs i) ∧
      (cs.foldl (childStep cnt) st).probs 0 = st.probs 0 := by
  intro cs
  induction cs with
  | nil =>
    intro st hm hg _
    refine ⟨hm, rfl, by simp, by simp, fun i => le_refl _, rfl⟩
  | cons c cs ih =>
    intro st hm hg hcs
    have hc := hcs c (List.mem_cons_self _ _)
    have halpha : (0 : ℚ) < (cnt : ℚ) + knAlpha := by
      have : (0 : ℚ) ≤ (cnt : ℚ) := by positivity
      rw [knAlpha]; norm_num; linarith
    have hbeta : (0 : ℚ) ≤ (c.2 : ℚ) - knBeta := by
      have h1 : (1 : ℚ) ≤ (c.2 : ℚ) := by exact_mod_cast hc.2.2
      rw [knBeta]; linarith
    have hp : (0 : ℚ) ≤ st.gamma * ((c.2 : ℚ) - knBeta) / ((cnt : ℚ) + knAlpha) := by
      positivity
    -- the state after the first child
    have hstep : childStep cnt st c =
        { st with
          probs := Function.update st.probs c.1
            (st.probs c.1 + st.gamma * ((c.2 : ℚ) - knBeta) / ((cnt : ℚ) + knAlpha))
          totalMass := st.totalMass - st.gamma * ((c.2 : ℚ) - knBeta) / ((cnt : ℚ) + knAlpha)
          mask := maskSet st.mask c.1 } := by
      unfold childStep
      rw [hm]
      simp [maskGet]
    have hm1 : (childStep cnt st c).mask = none := by rw [hstep, hm]; simp [maskSet]
    have hg1 : (childStep cnt st c).gamma = st.gamma := by rw [hstep]
    obtain ⟨rm, rg, rt, rs, rmono, rz⟩ :=
      ih (childStep cnt st c) hm1 (by rw [hg1]; exact hg)
        (fun p hp => hcs p (List.mem_cons_of_mem _ hp))
    rw [List.foldl_cons]
    refine ⟨rm, by rw [rg, hg1], ?_, ?_, ?_, ?_⟩
    · rw [rt, hg1, hstep]
      simp only [List.map_cons, List.sum_cons]
      ring
    · rw [rs, hstep]
      simp only []
      have hmem : c.1 ∈ Finset.Ico 1 n := by
        simp only [Finset.mem_Ico]
        exact ⟨hc.1, hc.2.1⟩
      rw [Finset.sum_update_of_mem hmem]
      rw [← Finset.add_sum_erase _ st.probs hmem]
      rw [Finset.erase_eq]
      ring
    · intro i
      refine le_trans ?_ (rmono i)
      rw [hstep]
      simp only []
      by_cases hi : i = c.1
      · rw [hi, Function.update_same]
        linarith
      · rw [Function.update_noteq hi]
    · rw [rz, hstep]
      simp only []
      rw [Function.update_noteq]
      omega

/-- Invariant carried through the backoff chain of getProbs when
exclusion is disabled. -/
def GPInv (n : Nat) (st : PState) : Prop :=
  st.mask = none ∧ st.gamma = st.totalMass ∧ 0 ≤ st.totalMass ∧
    st.probs 0 = 0 ∧ (∀ i, 0 ≤ st.probs i) ∧
    (∑ i ∈ Finset.Ico 1 n, st.probs i) + st.totalMass = 1

theorem nodeStep_inv {t : Trie} {n : Nat} (hWF : WF t n) (w : Path) (st : PState)
    (hinv : GPInv n st) : GPInv n (nodeStep t w st) := by
  obtain ⟨hm, hg, ht, hz, hpos, hsum⟩ := hinv
  have hcnt_eq : totalChildrenCounts t w st.mask = ((childrenOf t w).map Prod.snd).sum := by
    rw [hm, totalChildrenCounts_none]
  set cs := childrenOf t w with hcs
  by_cases hcnt : 0 < ((cs.map Prod.snd).sum)
  · have heq : nodeStep t w st =
        { cs.foldl (childStep ((cs.map Prod.snd).sum)) st with
          gamma := (cs.foldl (childStep ((cs.map Prod.snd).sum)) st).totalMass } := by
      simp only [nodeStep, hcnt_eq, if_pos hcnt]
    have hvalid : ∀ p ∈ cs, 1 ≤ p.1 ∧ p.1 < n ∧ 1 ≤ p.2 :=
      fun p hp => childrenOf_valid hWF hp
    obtain ⟨rm, rg, rt, rs, rmono, rz⟩ :=
      foldl_childStep_props n ((cs.map Prod.snd).sum) cs st hm (by rw [hg]; exact ht) hvalid
    set r := cs.foldl (childStep ((cs.map Prod.snd).sum)) st with hr
    have hcast : ((cs.map (fun c => (c.2 : ℚ))).sum) = (((cs.map Prod.snd).sum : Nat) : ℚ) := by
      rw [Nat.cast_list_sum, List.map_map]
      rfl
    have hS : (cs.map (fun c => (c.2 : ℚ) - knBeta)).sum =
        (((cs.map Prod.snd).sum : Nat) : ℚ) - cs.length * knBeta := by
      rw [sum_map_sub_const, hcast]
    have htm : 0 ≤ r.totalMass := by
      rw [rt, hg, hS]
      set S := (((cs.map Prod.snd).sum : Nat) : ℚ) with hSdef
      have hSpos : (0 : ℚ) ≤ S := by positivity
      have hbpos : (0 : ℚ) ≤ cs.length * knBeta := by
        rw [knBeta]; positivity
      have halpha : (0 : ℚ) < S + knAlpha := by rw [knAlpha]; norm_num; linarith
      have hfrac : (S - cs.length * knBeta) / (S + knAlpha) ≤ 1 := by
        rw [div_le_one halpha]
        rw [knAlpha]
        norm_num
        linarith
      have hkey : st.totalMass * ((S - cs.length * knBeta) / (S + knAlpha)) ≤
          st.totalMass * 1 := mul_le_mul_of_nonneg_left hfrac ht
      rw [mul_div_assoc]
      linarith
    rw [heq]
    refine ⟨rm, rfl, htm, ?_, ?_, ?_⟩
    · show r.probs 0 = 0
      rw [rz]; exact hz
    · intro i
      show 0 ≤ r.probs i
      exact le_trans (hpos i) (rmono i)
    · show (∑ i ∈ Finset.Ico 1 n, r.probs i) + r.totalMass = 1
      rw [rs]
      exact hsum
  · have heq : nodeStep t w st = { st with gamma := st.totalMass } := by
      simp only [nodeStep, hcnt_eq, if_neg hcnt]
    rw [heq]
    exact ⟨hm, rfl, ht, hz, hpos, hsum⟩

theorem chainLoop_inv {t : Trie} {n : Nat} (hWF : WF t n) :
    ∀ (w : Path) (st : PState), GPInv n st → GPInv n (chainLoop t w st) := by
  intro w
  induction w with
  | nil => intro st h; exact nodeStep_inv hWF [] st h
  | cons a tl ih =>
    intro st h
    exact ih _ (nodeStep_inv hWF (a :: tl) st h)

theorem filter_range_one_le (n : Nat) :
    ((List.range n).filter (fun i => decide (1 ≤ i))).length = n - 1 := by
  induction n with
  | zero => simp
  | succ m ih =>
    rw [List.range_succ, List.filter_append, List.length_append, ih]
    by_cases hm : 1 ≤ m <;> simp [hm] <;> omega

theorem adjust1_foldl (rm : ℚ) (nu : Nat) :
    ∀ (l : List Nat) (acc : PState), acc.mask = none → l.Nodup →
      ((l.foldl (fun a i =>
          if maskGet a.mask i then a
          else
            { a with
              probs := Function.update a.probs i (a.probs i + rm / (nu : ℚ))
              totalMass := a.totalMass - rm / (nu : ℚ) }) acc).mask = none ∧
       (l.foldl (fun a i =>
          if maskGet a.mask i then a
          else
            { a with
              probs := Function.update a.probs i (a.probs i + rm / (nu : ℚ))
              totalMass := a.totalMass - rm / (nu : ℚ) }) acc).totalMass =
         acc.totalMass - l.length * (rm / (nu : ℚ)) ∧
       (∀ i, (l.foldl (fun a i =>
          if maskGet a.mask i then a
          else
            { a with
              probs := Function.update a.probs i (a.probs i + rm / (nu : ℚ))
              totalMass := a.totalMass - rm / (nu : ℚ) }) acc).probs i =
         acc.probs i + (if i ∈ l then rm / (nu : ℚ) else 0))) := by
  intro l
  induction l with
  | nil =>
    intro acc hm _
    refine ⟨hm, by simp, fun i => by simp⟩
  | cons j l ih =>
    intro acc hm hnd
    have hj : j ∉ l := (List.nodup_cons.mp hnd).1
    have hnd' : l.Nodup := (List.nodup_cons.mp hnd).2
    rw [List.foldl_cons]
    have hstep : (if maskGet acc.mask j then acc
        else
          { acc with
            probs := Function.update acc.probs j (acc.probs j + rm / (nu : ℚ))
            totalMass := acc.totalMass - rm / (nu : ℚ) }) =
        { acc with
          probs := Function.update acc.probs j (acc.probs j + rm / (nu : ℚ))
          totalMass := acc.totalMass - rm / (nu : ℚ) } := by
      rw [hm]; simp [maskGet]
    rw [hstep]
    obtain ⟨rmk, rtm, rpr⟩ := ih
      { acc with
        probs := Function.update acc.probs j (acc.probs j + rm / (nu : ℚ))
        totalMass := acc.totalMass - rm / (nu : ℚ) } (by exact hm) hnd'
    refine ⟨rmk, ?_, ?_⟩
    · rw [rtm]
      simp only [List.length_cons]
      push_cast
      ring
    · intro i
      rw [rpr i]
      simp only []
      by_cases hi : i = j
      · subst hi
        rw [Function.update_same]
        have : i ∉ l := hj
        simp [this]
      · rw [Function.update_noteq hi]
        by_cases hil : i ∈ l <;> simp [hil, hi]

theorem adjust1_spec (n : Nat) (h2 : 2 ≤ n) (st : PState) (hm : st.mask = none) :
    (adjust1 n st).mask = none ∧
    (adjust1 n st).totalMass = 0 ∧
    (∀ i, (adjust1 n st).probs i =
      st.probs i +
        (if 1 ≤ i ∧ i < n then st.totalMass / (((n - 1 : Nat) : ℚ)) else 0)) := by
  have hnu : (((List.range n).filter (fun i => 1 ≤ i && !(maskGet st.mask i)))).length
      = n - 1 := by
    rw [hm]
    simpa [maskGet] using filter_range_one_le n
  have hdef : adjust1 n st =
      (List.range' 1 (n - 1)).foldl (fun a i =>
        if maskGet a.mask i then a
        else
          { a with
            probs := Function.update a.probs i (a.probs i + st.totalMass / (((n - 1 : Nat)) : ℚ))
            totalMass := a.totalMass - st.totalMass / (((n - 1 : Nat)) : ℚ) }) st := by
    simp only [adjust1, hnu]
  obtain ⟨rmk, rtm, rpr⟩ :=
    adjust1_foldl st.totalMass (n - 1) (List.range' 1 (n - 1)) st hm
      (List.nodup_range' 1 (n - 1))
  rw [hdef]
  refine ⟨rmk, ?_, ?_⟩
  · rw [rtm, List.length_range']
    have hne : (((n - 1 : Nat)) : ℚ) ≠ 0 := Nat.cast_ne_zero.mpr (by omega)
    have h1 : ((n : ℚ) - 1) ≠ 0 := by
      have hn : (2 : ℚ) ≤ (n : ℚ) := by exact_mod_cast h2
      intro hc
      linarith
    have hcancel : (((n - 1 : Nat)) : ℚ) * (st.totalMass / (((n - 1 : Nat)) : ℚ)) =
        st.totalMass := by
      field_simp
    rw [hcancel, sub_self]
  · intro i
    rw [rpr i]
    congr 1
    have hmem : i ∈ List.range' 1 (n - 1) ↔ (1 ≤ i ∧ i < n) := by
      rw [List.mem_range'_1]
      omega
    by_cases hc : 1 ≤ i ∧ i < n
    · rw [if_pos (hmem.mpr hc), if_pos hc]
    · rw [if_neg (fun h => hc (hmem.mp h)), if_neg hc]

theorem adjust2_zero :
    ∀ (l : List Nat) (acc : PState × ℚ), acc.1.totalMass = 0 →
      ((l.foldl (fun a i =>
          ({ a.1 with
             probs := Function.update a.1.probs i (a.1.probs i + a.1.totalMass / a.2)
             totalMass := a.1.totalMass - a.1.totalMass / a.2 }, a.2 - 1)) acc).1.probs =
        acc.1.probs ∧
       (l.foldl (fun a i =>
          ({ a.1 with
             probs := Function.update a.1.probs i (a.1.probs i + a.1.totalMass / a.2)
             totalMass := a.1.totalMass - a.1.totalMass / a.2 }, a.2 - 1)) acc).1.totalMass = 0) := by
  intro l
  induction l with
  | nil => intro acc h0; exact ⟨rfl, h0⟩
  | cons j l ih =>
    intro acc h0
    rw [List.foldl_cons]
    have hp : acc.1.totalMass / acc.2 = 0 := by
      rw [h0, zero_div]
    have hstep : ({ acc.1 with
        probs := Function.update acc.1.probs j (acc.1.probs j + acc.1.totalMass / acc.2)
        totalMass := acc.1.totalMass - acc.1.totalMass / acc.2 }, acc.2 - 1) =
        (acc.1, acc.2 - 1) := by
      rw [hp]
      simp only [add_zero, sub_zero]
      rw [Function.update_eq_self]
    rw [hstep]
    exact ih (acc.1, acc.2 - 1) h0

/-- getProbs returns a vector that is zero at the root symbol,
non-negative everywhere, and sums to exactly one over the non-root
symbols, for a well-formed trie and any context. -/
theorem getProbs_props {t : Trie} {n : Nat} (hWF : WF t n) (h2 : 2 ≤ n) (c : Ctx) :
    getProbs t n false c 0 = 0 ∧ (∀ i, 0 ≤ getProbs t n false c i) ∧
      (∑ i ∈ Finset.Ico 1 n, getProbs t n false c i) = 1 := by
  have hgp : getProbs t n false c =
      (adjust2 n (adjust1 n (chainLoop t c.head
        { probs := fun _ => 0, mask := none, totalMass := 1, gamma := 1 }))).probs := rfl
  have hinv0 : GPInv n { probs := fun _ => 0, mask := none, totalMass := 1, gamma := 1 } := by
    refine ⟨rfl, rfl, by norm_num, rfl, fun i => le_refl 0, by simp⟩
  have hinv1 := chainLoop_inv hWF c.head _ hinv0
  set st1 := chainLoop t c.head
    { probs := fun _ => 0, mask := none, totalMass := 1, gamma := 1 } with hst1
  obtain ⟨hm1, hg1, ht1, hz1, hpos1, hsum1⟩ := hinv1
  obtain ⟨am, atm, aprobs⟩ := adjust1_spec n h2 st1 hm1
  have ha2 := adjust2_zero (List.range' 1 (n - 1)) (adjust1 n st1, (n : ℚ) - 1) atm
  have hprobs2 : (adjust2 n (adjust1 n st1)).probs = (adjust1 n st1).probs := by
    simp only [adjust2]
    exact ha2.1
  rw [hgp, hprobs2]
  have hp0 : (0 : ℚ) ≤ st1.totalMass / (((n - 1 : Nat)) : ℚ) := by
    apply div_nonneg ht1
    positivity
  refine ⟨?_, ?_, ?_⟩
  · rw [aprobs 0]
    simp [hz1]
  · intro i
    rw [aprobs i]
    by_cases hc : 1 ≤ i ∧ i < n
    · rw [if_pos hc]
      have := hpos1 i
      linarith
    · rw [if_neg hc]
      simpa using hpos1 i
  · have hcard : (Finset.Ico 1 n).card = n - 1 := Nat.card_Ico 1 n
    have hne : (((n - 1 : Nat)) : ℚ) ≠ 0 := Nat.cast_ne_zero.mpr (by omega)
    have hsum2 : (∑ i ∈ Finset.Ico 1 n, (adjust1 n st1).probs i) =
        (∑ i ∈ Finset.Ico 1 n, st1.probs i) +
          (n - 1 : Nat) * (st1.totalMass / (((n - 1 : Nat)) : ℚ)) := by
      have : ∀ i ∈ Finset.Ico 1 n, (adjust1 n st1).probs i =
          st1.probs i + st1.totalMass / (((n - 1 : Nat)) : ℚ) := by
        intro i hi
        rw [aprobs i]
        simp only [Finset.mem_Ico] at hi
        rw [if_pos hi]
      rw [Finset.sum_congr rfl this, Finset.sum_add_distrib, Finset.sum_const, hcard]
      simp [nsmul_eq_mul]
    rw [hsum2]
    have h1 : ((n : ℚ) - 1) ≠ 0 := by
      have hn : (2 : ℚ) ≤ (n : ℚ) := by exact_mod_cast h2
      intro hc
      linarith
    have hfin : ((n - 1 : Nat) : ℚ) * (st1.totalMass / (((n - 1 : Nat)) : ℚ)) =
        st1.totalMass := by
      field_simp
    rw [hfin]
    exact hsum1

/-! Characterisation of the addSymbolToContext loop. -/

theorem ascLoop_found (t : Trie) (maxOrder s : Nat) :
    ∀ (k : Nat) (h : Path) (o : Int),
      o ≤ (maxOrder : Int) →
      ¬(o < (maxOrder : Int) ∧ (h ++ [s]) ∈ keysOf t) →
      1 ≤ k → k ≤ h.length →
      (h.drop k ++ [s]) ∈ keysOf t →
      (∀ j, 1 ≤ j → j < k → (h.drop j ++ [s]) ∉ keysOf t) →
      ascLoop t maxOrder s (some h) o = (h.drop k ++ [s], o - k + 1) := by
  intro k
  induction k with
  | zero => intro h o _ _ hk1; omega
  | succ k ih =>
    intro h o hord hfail hk1 hk2 hmem hmin
    rw [ascLoop, if_neg hfail]
    cases h with
    | nil => simp at hk2
    | cons a tl =>
      rw [show backoffP (a :: tl) = some tl from rfl]
      by_cases hk0 : k = 0
      · subst hk0
        rw [ascLoop, if_pos ?_]
        · rw [Prod.mk.injEq]
          constructor
          · rw [List.drop_succ_cons, List.drop_zero]
          · push_cast
            ring
        · refine ⟨by omega, ?_⟩
          rw [List.drop_succ_cons, List.drop_zero] at hmem
          exact hmem
      · have hrec := ih tl (o - 1) (by omega) ?_ (by omega)
          (by simp only [List.length_cons] at hk2; omega)
          (by rw [List.drop_succ_cons] at hmem; exact hmem)
          (fun j hj1 hjk => by
            have := hmin (j + 1) (by omega) (by omega)
            rw [List.drop_succ_cons] at this
            exact this)
        · rw [hrec, List.drop_succ_cons, Prod.mk.injEq]
          exact ⟨rfl, by push_cast; ring⟩
        · intro hcon
          have := hmin 1 (le_refl 1) (by omega)
          rw [List.drop_one, List.tail_cons] at this
          exact this hcon.2

theorem ascLoop_root (t : Trie) (maxOrder s : Nat) :
    ∀ (h : Path) (o : Int),
      o ≤ (maxOrder : Int) →
      ¬(o < (maxOrder : Int) ∧ (h ++ [s]) ∈ keysOf t) →
      (∀ j, 1 ≤ j → j ≤ h.length → (h.drop j ++ [s]) ∉ keysOf t) →
      ascLoop t maxOrder s (some h) o = ([], 0) := by
  intro h
  induction h with
  | nil =>
    intro o _ hfail _
    rw [ascLoop, if_neg hfail, show backoffP [] = none from rfl, ascLoop]
  | cons a tl ih =>
    intro o hord hfail hnone
    rw [ascLoop, if_neg hfail, show backoffP (a :: tl) = some tl from rfl]
    refine ih (o - 1) (by omega) ?_ ?_
    · intro hcon
      have := hnone 1 (le_refl 1) (by simp)
      rw [List.drop_one, List.tail_cons] at this
      exact this hcon.2
    · intro j hj1 hj2
      have := hnone (j + 1) (by omega) (by simp only [List.length_cons]; omega)
      rw [List.drop_succ_cons] at this
      exact this

end PPM

/-! Claim theorems about the PPM language model. -/

/-- C1: For every PPM model built by any sequence of addSymbolAndUpdate
calls with symbol ids in [1, vocabulary size) and every context, the
vector returned by getProbs has every entry non-negative, entry 0 (the
root symbol) exactly 0, and the entries 1 .. vocabSize-1 sum to exactly 1
in the exact-rational model of the floating-point arithmetic, hence to
1.0 within epsilon 1e-9. -/
theorem claim_C1_getProbs_distribution
    (n maxOrder : Nat) (syms : List Nat) (t : PPM.Trie) (c0 : PPM.Ctx)
    (h2 : 2 ≤ n)
    (hsyms : ∀ s ∈ syms, 1 ≤ s ∧ s < n)
    (htrain : PPM.trainModel n maxOrder syms = some (t, c0))
    (c : PPM.Ctx) :
    PPM.getProbs t n false c 0 = 0 ∧
    (∀ i, 0 ≤ PPM.getProbs t n false c i) ∧
    (∑ i ∈ Finset.Ico 1 n, PPM.getProbs t n false c i) = 1 ∧
    |(∑ i ∈ Finset.Ico 1 n, PPM.getProbs t n false c i) - 1| < 1e-9 := by
  have hWF := (PPM.trainModel_WF n maxOrder syms (([] : PPM.Trie), PPM.createContext)
    (PPM.WF_nil n) (PPM.ValidCtx_create [] maxOrder) t c0 htrain).1
  obtain ⟨hz, hpos, hsum⟩ := PPM.getProbs_props hWF h2 c
  refine ⟨hz, hpos, hsum, ?_⟩
  rw [hsum]
  norm_num

theorem claim_C1_witness :
    PPM.getProbs [([2,1],1),([1,2,1],1),([2],1),([1,2],1),([1],2)] 3 false ⟨[1], 1⟩ 0 = 0 ∧
    (∀ i, 0 ≤ PPM.getProbs [([2,1],1),([1,2,1],1),([2],1),([1,2],1),([1],2)] 3 false ⟨[1], 1⟩ i) ∧
    (∑ i ∈ Finset.Ico 1 3,
      PPM.getProbs [([2,1],1),([1,2,1],1),([2],1),([1,2],1),([1],2)] 3 false ⟨[1], 1⟩ i) = 1 ∧
    |(∑ i ∈ Finset.Ico 1 3,
      PPM.getProbs [([2,1],1),([1,2,1],1),([2],1),([1,2],1),([1],2)] 3 false ⟨[1], 1⟩ i) - 1|
      < 1e-9 :=
  claim_C1_getProbs_distribution 3 2 [1, 2, 1]
    [([2,1],1),([1,2,1],1),([2],1),([1,2],1),([1],2)] ⟨[2,1], 2⟩
    (by norm_num) (by decide) (by decide) ⟨[1], 1⟩

/-- C2: addSymbolToContext never modifies the trie (in this embedding it
does not even return one), ignores symbol ids at or below the root
sentinel, and otherwise updates the context exactly as follows for a
context whose order does not exceed maxOrder: if the order is strictly
below maxOrder and the head has a child labelled with the symbol, the
head moves to that child and the order increases by one; otherwise the
loop repeatedly decrements the order and follows the backoff link until
such a child edge exists (head moves to that child, net order change
-k+1 after k backoffs), and if the backoff of the root is passed the head
becomes the root and the order becomes 0. -/
theorem claim_C2_addSymbolToContext
    (t : PPM.Trie) (n maxOrder : Nat) (c : PPM.Ctx) (s : Nat)
    (hord : c.order ≤ (maxOrder : Int)) :
    (s ≤ PPM.rootSymbol → PPM.addSymbolToContext t n maxOrder c s = some c) ∧
    (1 ≤ s → s < n → c.order < (maxOrder : Int) → (c.head ++ [s]) ∈ PPM.keysOf t →
      PPM.addSymbolToContext t n maxOrder c s = some ⟨c.head ++ [s], c.order + 1⟩) ∧
    (1 ≤ s → s < n →
      ¬(c.order < (maxOrder : Int) ∧ (c.head ++ [s]) ∈ PPM.keysOf t) →
      ∀ k, 1 ≤ k → k ≤ c.head.length →
        (c.head.drop k ++ [s]) ∈ PPM.keysOf t →
        (∀ j, 1 ≤ j → j < k → (c.head.drop j ++ [s]) ∉ PPM.keysOf t) →
        PPM.addSymbolToContext t n maxOrder c s =
          some ⟨c.head.drop k ++ [s], c.order - k + 1⟩) ∧
    (1 ≤ s → s < n →
      ¬(c.order < (maxOrder : Int) ∧ (c.head ++ [s]) ∈ PPM.keysOf t) →
      (∀ j, 1 ≤ j → j ≤ c.head.length → (c.head.drop j ++ [s]) ∉ PPM.keysOf t) →
      PPM.addSymbolToContext t n maxOrder c s = some ⟨[], 0⟩) := by
  refine ⟨?_, ?_, ?_, ?_⟩
  · intro hs
    unfold PPM.addSymbolToContext
    rw [if_pos hs]
  · intro hs1 hsn hlt hmem
    unfold PPM.addSymbolToContext
    rw [if_neg (by simp [PPM.rootSymbol]; omega), if_pos hsn]
    rw [PPM.ascLoop, if_pos ⟨hlt, hmem⟩]
  · intro hs1 hsn hfail k hk1 hk2 hmem hmin
    unfold PPM.addSymbolToContext
    rw [if_neg (by simp [PPM.rootSymbol]; omega), if_pos hsn]
    rw [PPM.ascLoop_found t maxOrder s k c.head c.order hord hfail hk1 hk2 hmem hmin]
  · intro hs1 hsn hfail hnone
    unfold PPM.addSymbolToContext
    rw [if_neg (by simp [PPM.rootSymbol]; omega), if_pos hsn]
    rw [PPM.ascLoop_root t maxOrder s c.head c.order hord hfail hnone]

theorem claim_C2_witness :
    PPM.addSymbolToContext [([2,1],1),([1,2,1],1),([2],1),([1,2],1),([1],2)] 3 2
      ⟨[2, 1], 2⟩ 1 = some ⟨[1], 1⟩ := by
  have h := (claim_C2_addSymbolToContext
    [([2,1],1),([1,2,1],1),([2],1),([1,2],1),([1],2)] 3 2 ⟨[2, 1], 2⟩ 1
    (by norm_num)).2.2.1
    (by norm_num) (by norm_num) (by decide) 2 (by norm_num) (by norm_num)
    (by decide)
    (fun j hj1 hj2 => by
      have hj : j = 1 := by omega
      subst hj
      decide)
  simpa using h

/-- C10: context handles are valid: the head is the root or a stored
node of the trie and the order equals the head path length, hence lies in
[0, maxOrder].  Validity holds for createContext and cloneContext and is
preserved by addSymbolToContext and addSymbolAndUpdate for every symbol
id below the vocabulary size (addSymbolAndUpdate also preserves trie
well-formedness). -/
theorem claim_C10_context_invariant :
    (∀ (t : PPM.Trie) (maxOrder : Nat), PPM.ValidCtx t maxOrder PPM.createContext) ∧
    (∀ (t : PPM.Trie) (maxOrder : Nat) (c : PPM.Ctx),
      PPM.ValidCtx t maxOrder c → PPM.ValidCtx t maxOrder (PPM.cloneContext c)) ∧
    (∀ (t : PPM.Trie) (n maxOrder : Nat) (c : PPM.Ctx) (s : Nat) (c' : PPM.Ctx),
      PPM.WF t n → PPM.ValidCtx t maxOrder c → s < n →
      PPM.addSymbolToContext t n maxOrder c s = some c' →
      PPM.ValidCtx t maxOrder c') ∧
    (∀ (t : PPM.Trie) (n maxOrder : Nat) (c : PPM.Ctx) (s : Nat)
        (t' : PPM.Trie) (c' : PPM.Ctx),
      PPM.WF t n → PPM.ValidCtx t maxOrder c → s < n →
      PPM.addSymbolAndUpdate t n maxOrder c s = some (t', c') →
      PPM.WF t' n ∧ PPM.ValidCtx t' maxOrder c') ∧
    (∀ (t : PPM.Trie) (maxOrder : Nat) (c : PPM.Ctx), PPM.ValidCtx t maxOrder c →
      (0 ≤ c.order ∧ c.order ≤ (maxOrder : Int)) ∧
      (c.head = [] ∨ c.head ∈ PPM.keysOf t)) := by
  refine ⟨?_, ?_, ?_, ?_, ?_⟩
  · intro t maxOrder
    exact PPM.ValidCtx_create t maxOrder
  · intro t maxOrder c hc
    exact hc
  · intro t n maxOrder c s c' hWF hc hsn hstep
    unfold PPM.addSymbolToContext at hstep
    by_cases hroot : s ≤ PPM.rootSymbol
    · rw [if_pos hroot] at hstep
      cases hstep
      exact hc
    · rw [if_neg hroot, if_pos hsn] at hstep
      obtain ⟨hmem, hordc, hbound⟩ := hc
      have := PPM.ascLoop_valid t maxOrder s (PPM.WF_tail_mem hWF) c.head c.order
        hordc hbound hmem
      simp only [Option.some_inj] at hstep
      rw [← hstep]
      exact ⟨this.1, this.2.1, this.2.2⟩
  · intro t n maxOrder c s t' c' hWF hc hsn hstep
    exact PPM.addSymbolAndUpdate_preserves hWF hc hstep
  · intro t maxOrder c hc
    obtain ⟨hmem, hordc, hbound⟩ := hc
    refine ⟨⟨by rw [hordc]; positivity, by rw [hordc]; exact_mod_cast hbound⟩, hmem⟩

theorem claim_C10_witness :
    PPM.ValidCtx [([1], 1)] 2 PPM.createContext ∧
    (PPM.WF [([1,1],1),([2,1,1],1),([2,1],1),([1,2,1],1),([2],1),([1,2],1),([1],3)] 3 ∧
      PPM.ValidCtx [([1,1],1),([2,1,1],1),([2,1],1),([1,2,1],1),([2],1),([1,2],1),([1],3)] 2
        ⟨[1, 1], 2⟩) :=
  ⟨claim_C10_context_invariant.1 [([1], 1)] 2,
   claim_C10_context_invariant.2.2.2.1
     [([2,1],1),([1,2,1],1),([2],1),([1,2],1),([1],2)] 3 2 ⟨[2, 1], 2⟩ 1
     [([1,1],1),([2,1,1],1),([2,1],1),([1,2,1],1),([2],1),([1,2],1),([1],3)] ⟨[1, 1], 2⟩
     (by decide) (by decide) (by norm_num) (by decide)⟩

namespace Pred

/-! Embedding of the Predictor (src/predictor.js).  JS strings stay
lists of characters; Map objects become insertion-ordered association
lists; thrown errors become Except.error. -/

/-- The optional configuration object passed to the Predictor
constructor; a missing JS property is none.  The keyboard adjacency map
is not consulted by any embedded claim and is left out. -/
structure InputConfig where
  maxOrder : Option Nat := none
  errorTolerant : Option Bool := none
  maxEditDistance : Option Nat := none
  minSimilarity : Option ℚ := none
  keyboardAware : Option Bool := none
  caseSensitive : Option Bool := none
  maxPredictions : Option Nat := none
  adaptive : Option Bool := none
  lexicon : Option (List JStr) := none
  ppmAlpha : Option ℚ := none
  ppmBeta : Option ℚ := none
  ppmUseExclusion : Option Bool := none
  ppmUpdateExclusion : Option Bool := none
  ppmMaxNodes : Option Nat := none

/-- The resolved configuration stored as this.config. -/
structure Config where
  maxOrder : Nat
  errorTolerant : Bool
  maxEditDistance : Nat
  minSimilarity : ℚ
  keyboardAware : Bool
  caseSensitive : Bool
  maxPredictions : Nat
  adaptive : Bool
  lexicon : List JStr
  ppmAlpha : ℚ
  ppmBeta : ℚ
  ppmUseExclusion : Bool
  ppmUpdateExclusion : Bool
  ppmMaxNodes : Nat

/-- The default-resolution block of the Predictor constructor.  Fields
read with the JS pattern (config.x !== undefined ? config.x : d) become
getD; fields read with (config.x || d) treat the falsy value 0 as
missing. -/
def mkConfig (c : InputConfig) : Config where
  maxOrder := match c.maxOrder with
    | some v => if v = 0 then 5 else v
    | none => 5
  errorTolerant := c.errorTolerant.getD false
  maxEditDistance := match c.maxEditDistance with
    | some v => if v = 0 then 2 else v
    | none => 2
  minSimilarity := match c.minSimilarity with
    | some v => if v = 0 then 0.5 else v
    | none => 0.5
  keyboardAware := c.keyboardAware.getD false
  caseSensitive := c.caseSensitive.getD false
  maxPredictions := match c.maxPredictions with
    | some v => if v = 0 then 10 else v
    | none => 10
  adaptive := c.adaptive.getD false
  lexicon := c.lexicon.getD []
  ppmAlpha := c.ppmAlpha.getD 0.49
  ppmBeta := c.ppmBeta.getD 0.77
  ppmUseExclusion := c.ppmUseExclusion.getD true
  ppmUpdateExclusion := c.ppmUpdateExclusion.getD true
  ppmMaxNodes := c.ppmMaxNodes.getD 0

/-- An empty configuration object: new Predictor({}). -/
def emptyInput : InputConfig := {}

/-- The PPM parameter record built by Predictor._getPPMOptions. -/
structure PPMOptions where
  alpha : ℚ
  beta : ℚ
  useExclusion : Bool
  updateExclusion : Bool
  maxNodes : Nat

/-- Predictor._getPPMOptions: copies the ppm* fields of the config. -/
def getPPMOptions (cfg : Config) : PPMOptions where
  alpha := cfg.ppmAlpha
  beta := cfg.ppmBeta
  useExclusion := cfg.ppmUseExclusion
  updateExclusion := cfg.ppmUpdateExclusion
  maxNodes := cfg.ppmMaxNodes

/-! Corpus management (useCorpora / removeCorpus). -/

/-- The per-corpus bookkeeping observed by the management calls. -/
structure CorpusEntry where
  enabled : Bool
  description : JStr
deriving DecidableEq, Repr

/-- The corpus-related state of a Predictor: the name-to-corpus mapping
(insertion ordered), the active-corpus name list, and the name of the
corpus that this.model points at. -/
structure PredCorpora where
  corpora : List (JStr × CorpusEntry)
  activeCorpora : List JStr
  modelKey : JStr
deriving DecidableEq, Repr

/-- Predictor.removeCorpus.  Removing the default corpus throws before
anything is touched; an unknown name throws before anything is touched;
otherwise the corpus is deleted and filtered out of the active list.
An Except.error result leaves the caller with the unchanged input state,
matching the source where both throws precede every mutation. -/
def removeCorpus (st : PredCorpora) (key : JStr) : Except JStr PredCorpora :=
  if key = ("default".toList) then
    Except.error ("Cannot remove the default corpus".toList)
  else if key ∈ st.corpora.map Prod.fst then
    Except.ok
      { st with
        corpora := st.corpora.filter (fun e => e.1 ≠ key)
        activeCorpora := st.activeCorpora.filter (fun k => k ≠ key) }
  else Except.error ("Corpus does not exist".toList)

/-- Predictor.useCorpora on an already-wrapped key list.  All keys are
validated first (throwing on the first unknown name, before any flag is
modified); then every corpus is disabled, the named ones are enabled,
the active list is replaced, and the model pointer is updated. -/
def useCorpora (st : PredCorpora) (keys : List JStr) : Except JStr PredCorpora :=
  if ∀ k ∈ keys, k ∈ st.corpora.map Prod.fst then
    Except.ok
      { corpora := st.corpora.map (fun e => (e.1, { e.2 with enabled := decide (e.1 ∈ keys) }))
        activeCorpora := keys
        modelKey :=
          if ("default".toList) ∈ keys then ("default".toList)
          else
            match keys with
            | [] => st.modelKey
            | k :: _ => k }
  else Except.error ("Corpus does not exist".toList)

/-- Predictor.useCorpora with a single string argument (the source wraps
it into a one-element array). -/
def useCorporaSingle (st : PredCorpora) (key : JStr) : Except JStr PredCorpora :=
  useCorpora st [key]

/-! Word tokenization and bigram learning. -/

/-- String.prototype.toLowerCase for the ASCII letters (the only case
mapping exercised by the embedded claims). -/
def toLowerChar (c : Char) : Char :=
  if 65 ≤ c.toNat ∧ c.toNat ≤ 90 then Char.ofNat (c.toNat + 32) else c

/-- Lowercasing a JS string. -/
def lowerJ (w : JStr) : JStr := w.map toLowerChar

/-- word-tokenizer.js tokenize: trim, split on whitespace runs, drop
empty tokens.  The accumulator collects the current word reversed. -/
def tokenizeAux : JStr → JStr → List JStr
  | [], cur => if cur = [] then [] else [cur.reverse]
  | ch :: rest, cur =>
    if ch.isWhitespace then
      if cur = [] then tokenizeAux rest []
      else cur.reverse :: tokenizeAux rest []
    else tokenizeAux rest (ch :: cur)

def tokenize (text : JStr) : List JStr := tokenizeAux text []

/-- The bigram table: Map from "word1 SPACE word2" keys to counts, in
insertion order.  The running total (_totalBigrams) is bookkeeping that
no embedded claim observes and is not modelled. -/
abbrev BigramTable := List (JStr × Nat)

/-- Map.set after Map.get: add inc to the count of key, appending a new
entry (at the end, as a JS Map does) when the key is new. -/
def addCount (tbl : BigramTable) (key : JStr) (inc : Nat) : BigramTable :=
  if key ∈ tbl.map Prod.fst then
    tbl.map (fun e => if e.1 = key then (e.1, e.2 + inc) else e)
  else tbl ++ [(key, inc)]

/-- Predictor._learnBigramsFromText: tokenize, normalize case, and count
every consecutive word pair under the key word1 ++ " " ++ word2,
skipping pairs with an empty side. -/
def learnBigramsFromText (cs : Bool) (tbl : BigramTable) (text : JStr) : BigramTable :=
  let words := tokenize text
  let normalizedWords := words.map (fun w => if cs then w else lowerJ w)
  (normalizedWords.zip normalizedWords.tail).foldl
    (fun acc p =>
      if p.1 = [] ∨ p.2 = [] then acc
      else addCount acc (p.1 ++ ' ' :: p.2) 1)
    tbl

/-- String.prototype.split with a one-character separator: empty pieces
are kept, exactly as in JS. -/
def splitOnChar (sep : Char) : JStr → List JStr
  | [] => [[]]
  | ch :: rest =>
    if ch = sep then [] :: splitOnChar sep rest
    else
      match splitOnChar sep rest with
      | [] => [[ch]]
      | p :: ps => (ch :: p) :: ps

/-- Array.prototype.join with a one-character separator. -/
def joinChar (sep : Char) : List JStr → JStr
  | [] => []
  | [l] => l
  | l :: ls => l ++ sep :: joinChar sep ls

/-- The first component of a bigram key, per key.split(' '). -/
def firstComp (k : JStr) : JStr := (splitOnChar ' ' k).getD 0 []

/-- The second component of a bigram key, per key.split(' '). -/
def secondComp (k : JStr) : JStr := (splitOnChar ' ' k).getD 1 []

/-- Sorting relation on predictions: probability descending
((a, b) => b.probability - a.probability). -/
def probDesc : (JStr × ℚ) → (JStr × ℚ) → Prop := fun a b => b.2 ≤ a.2

instance : DecidableRel probDesc := fun a b => by
  unfold probDesc; infer_instance

instance : IsTotal (JStr × ℚ) probDesc := ⟨fun a b => le_total b.2 a.2⟩

instance : IsTrans (JStr × ℚ) probDesc :=
  ⟨fun _ _ _ h1 h2 => le_trans h2 h1⟩

/-- Predictor.predictNextWord: normalize the query, aggregate the counts
of every table key whose first component is the normalized word, divide
by the total of the matching counts, sort by probability descending
(the stable insertionSort models the stable JS Array sort) and keep the
top maxPredictions. -/
def predictNextWord (cs : Bool) (tbl : BigramTable) (w : JStr) (maxPredictions : Nat) :
    List (JStr × ℚ) :=
  if w = [] then []
  else
    let normalized := if cs then w else lowerJ w
    let acc := tbl.foldl
      (fun (a : List (JStr × Nat) × Nat) e =>
        if firstComp e.1 = normalized then (addCount a.1 (secondComp e.1) e.2, a.2 + e.2)
        else a)
      ([], 0)
    let predictions := acc.1.map (fun p => (p.1, (p.2 : ℚ) / (acc.2 : ℚ)))
    (predictions.insertionSort probDesc).take maxPredictions

/-! Bigram serialization. -/

def digitChar (d : Nat) : Char := Char.ofNat (48 + d)

/-- Decimal digits of a number, least significant first. -/
def natToRevDigits (n : Nat) : List Char :=
  if h : n < 10 then [digitChar n]
  else digitChar (n % 10) :: natToRevDigits (n / 10)
termination_by n
decreasing_by
  exact Nat.div_lt_self (by omega) (by norm_num)

/-- Number.prototype.toString for a non-negative integer count. -/
def natToChars (n : Nat) : JStr := (natToRevDigits n).reverse

def isDigitChar (c : Char) : Bool := 48 ≤ c.toNat && c.toNat ≤ 57

def digitsToNat (l : List Nat) : Nat := l.foldl (fun a d => a * 10 + d) 0

/-- parseInt(s, 10) on the strings reaching it here: parse the maximal
leading digit run, none when the first character is not a digit.  (A
leading minus sign yields none; parseInt would yield a negative count,
which the caller skips exactly like the none case.) -/
def parseIntLead (s : JStr) : Option Nat :=
  let ds := s.takeWhile isDigitChar
  if ds = [] then none else some (digitsToNat (ds.map (fun c => c.toNat - 48)))

/-- String.prototype.trim (both ends, JS whitespace). -/
def trimJ (s : JStr) : JStr :=
  ((s.dropWhile Char.isWhitespace).reverse.dropWhile Char.isWhitespace).reverse

/-- Predictor.exportBigrams: one "key count" line per entry, joined by
newlines, in table order. -/
def exportBigrams (tbl : BigramTable) : JStr :=
  joinChar '\n' (tbl.map (fun e => e.1 ++ ' ' :: natToChars e.2))

/-- Processing one line of importBigrams. -/
def importLine (acc : BigramTable) (line : JStr) : BigramTable :=
  let trimmed := trimJ line
  if trimmed = [] then acc
  else
    let parts := splitOnChar ' ' trimmed
    if parts.length < 3 then acc
    else
      match parseIntLead ((parts.getLast?).getD []) with
      | none => acc
      | some cnt =>
        if cnt = 0 then acc
        else addCount acc (joinChar ' ' parts.dropLast) cnt

/-- Predictor.importBigrams: split on newlines and add every well-formed
"word1 ... count" record to the existing table (empty input is the JS
falsy early return). -/
def importBigrams (tbl : BigramTable) (text : JStr) : BigramTable :=
  if text = [] then tbl
  else (splitOnChar '\n' text).foldl importLine tbl

/-! Multi-corpus character prediction merging. -/

/-- One accumulator cell of _predictFromMultipleCorpora: the summed
probability and the number of corpora that contributed. -/
abbrev MergeAcc := List (JStr × (ℚ × Nat))

/-- Map.set after get-or-init: add a probability observation for a
character. -/
def mergeAdd (acc : MergeAcc) (ch : JStr) (p : ℚ) : MergeAcc :=
  if ch ∈ acc.map Prod.fst then
    acc.map (fun e => if e.1 = ch then (e.1, (e.2.1 + p, e.2.2 + 1)) else e)
  else acc ++ [(ch, (p, 1))]

/-- The inner loop of _predictFromMultipleCorpora over one corpus: for
every non-root symbol id with strictly positive probability, record the
observation under the character this.vocab.symbols_[i]. -/
def accumulateCorpus (symbols : List JStr) (acc : MergeAcc) (probs : Nat → ℚ) : MergeAcc :=
  (List.range' 1 (symbols.length - 1)).foldl
    (fun a i => if 0 < probs i then mergeAdd a (symbols.getD i []) (probs i) else a)
    acc

/-- Predictor._predictFromMultipleCorpora, parameterised by the per-
corpus probability vectors returned by getProbs (the context plumbing
that produces them is orthogonal to the merge): accumulate, average per
contributing corpus, sort by probability descending, truncate. -/
def predictFromMultipleCorpora (symbols : List JStr) (corpora : List (Nat → ℚ))
    (maxPredictions : Nat) : List (JStr × ℚ) :=
  let merged := corpora.foldl (accumulateCorpus symbols) []
  let predictions := merged.map (fun e => (e.1, e.2.1 / (e.2.2 : ℚ)))
  (predictions.insertionSort probDesc).take maxPredictions

end Pred

/-! Claim theorems about the Predictor corpus management and defaults. -/

/-- C8: removeCorpus("default") always fails with an error for every
predictor state, and useCorpora with any name that is not in the corpus
mapping always fails with an error; in this embedding an Except.error
result carries no successor state, and in the source both throws happen
before any mutation, so the corpus mapping, every enabled flag and the
active-corpus set are left unchanged; the error is raised, not
swallowed. -/
theorem claim_C8_corpus_management_failures :
    (∀ st : Pred.PredCorpora,
      Pred.removeCorpus st ("default".toList) =
        Except.error ("Cannot remove the default corpus".toList)) ∧
    (∀ (st : Pred.PredCorpora) (keys : List JStr) (k : JStr),
      k ∈ keys → k ∉ st.corpora.map Prod.fst →
      Pred.useCorpora st keys = Except.error ("Corpus does not exist".toList)) ∧
    (∀ (st : Pred.PredCorpora) (k : JStr),
      k ∉ st.corpora.map Prod.fst →
      Pred.useCorporaSingle st k = Except.error ("Corpus does not exist".toList)) := by
  have huse : ∀ (st : Pred.PredCorpora) (keys : List JStr) (k : JStr),
      k ∈ keys → k ∉ st.corpora.map Prod.fst →
      Pred.useCorpora st keys = Except.error ("Corpus does not exist".toList) := by
    intro st keys k hk hnk
    unfold Pred.useCorpora
    rw [if_neg]
    intro hall
    exact hnk (hall k hk)
  refine ⟨?_, huse, ?_⟩
  · intro st
    unfold Pred.removeCorpus
    rw [if_pos rfl]
  · intro st k hnk
    exact huse st [k] k (List.mem_singleton.mpr rfl) hnk

theorem claim_C8_witness :
    Pred.removeCorpus
      ⟨[(("default".toList), ⟨true, []⟩)], [("default".toList)], ("default".toList)⟩
      ("default".toList) = Except.error ("Cannot remove the default corpus".toList) ∧
    Pred.useCorpora
      ⟨[(("default".toList), ⟨true, []⟩)], [("default".toList)], ("default".toList)⟩
      [("missing".toList)] = Except.error ("Corpus does not exist".toList) :=
  ⟨claim_C8_corpus_management_failures.1 _,
   claim_C8_corpus_management_failures.2.1 _ [("missing".toList)] ("missing".toList)
     (List.mem_singleton.mpr rfl) (by decide)⟩

/-- C9 counterexample: a Predictor constructed with an empty
configuration does NOT have both exclusion flags disabled; its config
defaults resolve ppmUseExclusion and ppmUpdateExclusion to true. -/
theorem claim_C9_counterexample :
    ¬ ((Pred.mkConfig Pred.emptyInput).ppmUseExclusion = false ∧
       (Pred.mkConfig Pred.emptyInput).ppmUpdateExclusion = false) := by
  decide

/-- C9 (amended): inference-time exclusion is off by default in the PPM
model itself (the constructor initialises useExclusion_ to false), but a
Predictor constructed with an empty configuration resolves both
ppmUseExclusion and ppmUpdateExclusion to true and passes them on via
_getPPMOptions; each flag is configurable to either value. -/
theorem claim_C9_exclusion_defaults :
    PPM.useExclusionDefault = false ∧
    (Pred.mkConfig Pred.emptyInput).ppmUseExclusion = true ∧
    (Pred.mkConfig Pred.emptyInput).ppmUpdateExclusion = true ∧
    (Pred.getPPMOptions (Pred.mkConfig Pred.emptyInput)).useExclusion = true ∧
    (Pred.getPPMOptions (Pred.mkConfig Pred.emptyInput)).updateExclusion = true ∧
    (∀ b, (Pred.mkConfig { Pred.emptyInput with ppmUseExclusion := some b }).ppmUseExclusion = b) ∧
    (∀ b, (Pred.mkConfig
      { Pred.emptyInput with ppmUpdateExclusion := some b }).ppmUpdateExclusion = b) :=
  ⟨rfl, rfl, rfl, rfl, rfl, fun _ => rfl, fun _ => rfl⟩

namespace Pred

/-! String utility lemmas used by the serialization proofs. -/

theorem splitOnChar_cons (sep c : Char) (rest : JStr) :
    splitOnChar sep (c :: rest) =
      if c = sep then [] :: splitOnChar sep rest
      else
        match splitOnChar sep rest with
        | [] => [[c]]
        | p :: ps => (c :: p) :: ps := rfl

theorem splitOnChar_ne_nil (sep : Char) : ∀ l : JStr, splitOnChar sep l ≠ [] := by
  intro l
  induction l with
  | nil => simp [splitOnChar]
  | cons c rest ih =>
    rw [splitOnChar_cons]
    by_cases hc : c = sep
    · simp [hc]
    · rw [if_neg hc]
      cases hsp : splitOnChar sep rest with
      | nil => exact absurd hsp ih
      | cons p ps => simp

theorem splitOnChar_append_sep (sep : Char) (l₂ : JStr) :
    ∀ l₁ : JStr, splitOnChar sep (l₁ ++ sep :: l₂) =
      splitOnChar sep l₁ ++ splitOnChar sep l₂ := by
  intro l₁
  induction l₁ with
  | nil =>
    show splitOnChar sep (sep :: l₂) = _
    rw [splitOnChar_cons, if_pos rfl]
    rfl
  | cons c l ih =>
    show splitOnChar sep (c :: (l ++ sep :: l₂)) = _
    rw [splitOnChar_cons, splitOnChar_cons]
    by_cases hc : c = sep
    · rw [if_pos hc, if_pos hc, ih]
      simp
    · rw [if_neg hc, if_neg hc, ih]
      cases hsp : splitOnChar sep l with
      | nil => exact absurd hsp (splitOnChar_ne_nil sep l)
      | cons p ps => simp

theorem splitOnChar_of_not_mem (sep : Char) :
    ∀ l : JStr, sep ∉ l → splitOnChar sep l = [l] := by
  intro l
  induction l with
  | nil => intro _; rfl
  | cons c rest ih =>
    intro hmem
    rw [splitOnChar_cons]
    have hc : ¬ c = sep := fun h => hmem (h ▸ List.mem_cons_self _ _)
    rw [if_neg hc, ih (fun h => hmem (List.mem_cons_of_mem _ h))]

theorem joinChar_cons_cons (sep : Char) (c : Char) (p : JStr) (ps : List JStr) :
    joinChar sep ((c :: p) :: ps) = c :: joinChar sep (p :: ps) := by
  cases ps <;> simp [joinChar]

theorem joinChar_splitOnChar (sep : Char) :
    ∀ l : JStr, joinChar sep (splitOnChar sep l) = l := by
  intro l
  induction l with
  | nil => rfl
  | cons c rest ih =>
    rw [splitOnChar_cons]
    by_cases hc : c = sep
    · rw [if_pos hc]
      cases hsp : splitOnChar sep rest with
      | nil => exact absurd hsp (splitOnChar_ne_nil sep rest)
      | cons p ps =>
        rw [hsp] at ih
        show joinChar sep ([] :: p :: ps) = c :: rest
        simp only [joinChar, List.nil_append, hc]
        rw [ih]
    · rw [if_neg hc]
      cases hsp : splitOnChar sep rest with
      | nil => exact absurd hsp (splitOnChar_ne_nil sep rest)
      | cons p ps =>
        rw [hsp] at ih
        rw [joinChar_cons_cons, ih]

theorem length_splitOnChar (sep : Char) :
    ∀ l : JStr, (splitOnChar sep l).length = l.count sep + 1 := by
  intro l
  induction l with
  | nil => rfl
  | cons c rest ih =>
    rw [splitOnChar_cons]
    by_cases hc : c = sep
    · rw [if_pos hc]
      simp only [List.length_cons, ih, List.count_cons]
      simp [hc]
    · rw [if_neg hc]
      cases hsp : splitOnChar sep rest with
      | nil => exact absurd hsp (splitOnChar_ne_nil sep rest)
      | cons p ps =>
        rw [hsp] at ih
        simp only [List.length_cons] at ih ⊢
        rw [ih]
        simp only [List.count_cons]
        simp [hc]

theorem mem_joinChar_of_mem {sep : Char} {ps : List JStr} {piece : JStr} {c : Char}
    (hp : piece ∈ ps) (hc : c ∈ piece) : c ∈ joinChar sep ps := by
  induction ps with
  | nil => simp at hp
  | cons q qs ih =>
    rcases List.mem_cons.mp hp with rfl | hp2
    · cases qs with
      | nil => simpa [joinChar] using hc
      | cons r rs => exact List.mem_append.mpr (Or.inl hc)
    · cases qs with
      | nil => simp at hp2
      | cons r rs =>
        exact List.mem_append.mpr (Or.inr (List.mem_cons_of_mem _ (ih hp2)))

theorem mem_of_mem_splitOnChar (sep : Char) {l piece : JStr} {c : Char}
    (hp : piece ∈ splitOnChar sep l) (hc : c ∈ piece) : c ∈ l := by
  have hmem := @mem_joinChar_of_mem sep _ _ _ hp hc
  rwa [joinChar_splitOnChar] at hmem

theorem sep_not_mem_splitOnChar (sep : Char) :
    ∀ l : JStr, ∀ piece ∈ splitOnChar sep l, sep ∉ piece := by
  intro l
  induction l with
  | nil =>
    intro piece hp
    simp only [splitOnChar, List.mem_singleton] at hp
    simp [hp]
  | cons c rest ih =>
    intro piece hp
    rw [splitOnChar_cons] at hp
    by_cases hc : c = sep
    · rw [if_pos hc] at hp
      rcases List.mem_cons.mp hp with rfl | hp2
      · simp
      · exact ih piece hp2
    · rw [if_neg hc] at hp
      cases hsp : splitOnChar sep rest with
      | nil => exact absurd hsp (splitOnChar_ne_nil sep rest)
      | cons p ps =>
        rw [hsp] at hp
        rcases List.mem_cons.mp hp with rfl | hp2
        · intro hmem
          rcases List.mem_cons.mp hmem with h | h
          · exact hc h.symm
          · exact ih p (hsp ▸ List.mem_cons_self _ _) h
        · exact ih piece (hsp ▸ List.mem_cons_of_mem _ hp2)

theorem mem_joinChar_cases {sep : Char} {ps : List JStr} {c : Char}
    (hc : c ∈ joinChar sep ps) : c = sep ∨ ∃ piece ∈ ps, c ∈ piece := by
  induction ps with
  | nil => simp [joinChar] at hc
  | cons q qs ih =>
    cases qs with
    | nil =>
      simp only [joinChar] at hc
      exact Or.inr ⟨q, List.mem_singleton.mpr rfl, hc⟩
    | cons r rs =>
      simp only [joinChar] at hc
      rcases List.mem_append.mp hc with h | h
      · exact Or.inr ⟨q, List.mem_cons_self _ _, h⟩
      · rcases List.mem_cons.mp h with rfl | h2
        · exact Or.inl rfl
        · rcases ih h2 with h3 | ⟨piece, hp, hcp⟩
          · exact Or.inl h3
          · exact Or.inr ⟨piece, List.mem_cons_of_mem _ hp, hcp⟩

theorem head?_append_of_ne_nil {α : Type} (l₂ : List α) :
    ∀ l₁ : List α, l₁ ≠ [] → (l₁ ++ l₂).head? = l₁.head? := by
  intro l₁ h
  cases l₁ with
  | nil => exact absurd rfl h
  | cons a l => rfl

theorem dropWhile_head_not (p : Char → Bool) :
    ∀ (l : JStr) (c : Char), (l.dropWhile p).head? = some c → p c = false := by
  intro l
  induction l with
  | nil => intro c h; simp at h
  | cons a rest ih =>
    intro c h
    rw [List.dropWhile_cons] at h
    by_cases hp : p a
    · rw [if_pos hp] at h
      exact ih c h
    · rw [if_neg hp] at h
      simp only [List.head?_cons, Option.some_inj] at h
      rw [← h]
      exact Bool.not_eq_true _ |>.mp hp

theorem dropWhile_eq_self_of_head (p : Char → Bool) (l : JStr)
    (h : ∀ c, l.head? = some c → p c = false) : l.dropWhile p = l := by
  cases l with
  | nil => rfl
  | cons a rest =>
    rw [List.dropWhile_cons, if_neg]
    rw [h a rfl]
    simp

theorem trimJ_eq_self (l : JStr)
    (hh : ∀ c, l.head? = some c → c.isWhitespace = false)
    (hl : ∀ c, l.getLast? = some c → c.isWhitespace = false) : trimJ l = l := by
  unfold trimJ
  rw [dropWhile_eq_self_of_head _ l hh]
  rw [dropWhile_eq_self_of_head _ l.reverse (fun c hc => hl c (by rwa [List.head?_reverse] at hc))]
  exact List.reverse_reverse l

end Pred

namespace Pred

/-! Decimal serialization lemmas. -/

theorem digitChar_props : ∀ d : Nat, d < 10 →
    isDigitChar (digitChar d) = true ∧ (digitChar d).toNat - 48 = d ∧
    (digitChar d).isWhitespace = false ∧ digitChar d ≠ ' ' ∧ digitChar d ≠ '\n' := by
  intro d h
  interval_cases d <;> exact ⟨by decide, by decide, by decide, by decide, by decide⟩

theorem natToRevDigits_props (n : Nat) :
    natToRevDigits n ≠ [] ∧
    ∀ c ∈ natToRevDigits n, isDigitChar c = true ∧
      c.isWhitespace = false ∧ c ≠ ' ' ∧ c ≠ '\n' := by
  induction n using Nat.strong_induction_on with
  | _ n ih =>
    rw [natToRevDigits]
    split
    · rename_i h10
      refine ⟨by simp, ?_⟩
      intro c hc
      simp only [List.mem_singleton] at hc
      obtain ⟨h1, _, h3, h4, h5⟩ := digitChar_props n h10
      exact ⟨hc ▸ h1, hc ▸ h3, hc ▸ h4, hc ▸ h5⟩
    · rename_i h10
      have hdiv : n / 10 < n := Nat.div_lt_self (by omega) (by norm_num)
      obtain ⟨_, hall⟩ := ih (n / 10) hdiv
      refine ⟨by simp, ?_⟩
      intro c hc
      rcases List.mem_cons.mp hc with rfl | hc2
      · obtain ⟨h1, _, h3, h4, h5⟩ := digitChar_props (n % 10) (Nat.mod_lt _ (by norm_num))
        exact ⟨h1, h3, h4, h5⟩
      · exact hall c hc2

theorem natToChars_props (n : Nat) :
    natToChars n ≠ [] ∧
    ∀ c ∈ natToChars n, isDigitChar c = true ∧
      c.isWhitespace = false ∧ c ≠ ' ' ∧ c ≠ '\n' := by
  obtain ⟨h1, h2⟩ := natToRevDigits_props n
  refine ⟨by unfold natToChars; simpa [List.reverse_eq_nil_iff] using h1, ?_⟩
  intro c hc
  exact h2 c (List.mem_reverse.mp hc)

theorem digitsToNat_append (l : List Nat) (d : Nat) :
    digitsToNat (l ++ [d]) = digitsToNat l * 10 + d := by
  unfold digitsToNat
  rw [List.foldl_append]
  rfl

theorem digitsToNat_natToChars (n : Nat) :
    digitsToNat ((natToChars n).map (fun c => c.toNat - 48)) = n := by
  unfold natToChars
  induction n using Nat.strong_induction_on with
  | _ n ih =>
    rw [natToRevDigits]
    split
    · rename_i h10
      simp only [List.reverse_singleton, List.map_cons, List.map_nil]
      rw [(digitChar_props n h10).2.1]
      simp [digitsToNat]
    · rename_i h10
      have hdiv : n / 10 < n := Nat.div_lt_self (by omega) (by norm_num)
      rw [List.reverse_cons, List.map_append]
      simp only [List.map_cons, List.map_nil]
      rw [(digitChar_props (n % 10) (Nat.mod_lt _ (by norm_num))).2.1]
      rw [digitsToNat_append, ih (n / 10) hdiv]
      omega

theorem takeWhile_eq_self_of_all (p : Char → Bool) :
    ∀ l : JStr, (∀ c ∈ l, p c = true) → l.takeWhile p = l := by
  intro l
  induction l with
  | nil => intro _; rfl
  | cons c rest ih =>
    intro hall
    rw [List.takeWhile_cons, if_pos (hall c (List.mem_cons_self _ _))]
    rw [ih (fun c hc => hall c (List.mem_cons_of_mem _ hc))]

theorem parseIntLead_natToChars (n : Nat) : parseIntLead (natToChars n) = some n := by
  unfold parseIntLead
  rw [takeWhile_eq_self_of_all _ _ (fun c hc => ((natToChars_props n).2 c hc).1)]
  rw [if_neg (natToChars_props n).1]
  rw [digitsToNat_natToChars]

/-! Well-formedness of bigram tables. -/

/-- The invariant maintained by the bigram table of a predictor: keys
are distinct, contain a space and no newline, start with a
non-whitespace character, and counts are positive. -/
def BigramWF (tbl : BigramTable) : Prop :=
  (tbl.map Prod.fst).Nodup ∧
  ∀ e ∈ tbl, 1 ≤ e.2 ∧ (' ') ∈ e.1 ∧ ('\n') ∉ e.1 ∧
    (∀ c, e.1.head? = some c → c.isWhitespace = false)

theorem addCount_keys (tbl : BigramTable) (key : JStr) (inc : Nat) :
    (addCount tbl key inc).map Prod.fst =
      if key ∈ tbl.map Prod.fst then tbl.map Prod.fst else tbl.map Prod.fst ++ [key] := by
  unfold addCount
  split
  · rw [List.map_map]
    congr 1
    funext e
    by_cases hc : e.1 = key <;> simp [hc]
  · simp

theorem addCount_not_mem (tbl : BigramTable) (key : JStr) (inc : Nat)
    (h : key ∉ tbl.map Prod.fst) : addCount tbl key inc = tbl ++ [(key, inc)] := by
  unfold addCount
  rw [if_neg h]

theorem addCount_WF {tbl : BigramTable} {key : JStr} {inc : Nat}
    (hWF : BigramWF tbl) (hinc : 1 ≤ inc) (hsp : (' ') ∈ key) (hnl : ('\n') ∉ key)
    (hhd : ∀ c, key.head? = some c → c.isWhitespace = false) :
    BigramWF (addCount tbl key inc) := by
  obtain ⟨hnd, hent⟩ := hWF
  constructor
  · rw [addCount_keys]
    split
    · exact hnd
    · rename_i h
      exact (List.perm_append_singleton _ _).nodup_iff.mpr (List.nodup_cons.mpr ⟨h, hnd⟩)
  · intro e he
    unfold addCount at he
    split at he
    · simp only [List.mem_map] at he
      obtain ⟨e0, he0, rfl⟩ := he
      obtain ⟨h1, h2, h3, h4⟩ := hent e0 he0
      by_cases hc : e0.1 = key <;> simp only [hc, if_pos, if_neg, not_false_iff]
      · exact ⟨by omega, hc ▸ h2, hc ▸ h3, hc ▸ h4⟩
      · exact ⟨h1, h2, h3, h4⟩
    · rcases List.mem_append.mp he with he0 | he0
      · exact hent e he0
      · simp only [List.mem_singleton] at he0
        subst he0
        exact ⟨hinc, hsp, hnl, hhd⟩

end Pred

namespace Pred

theorem mem_of_head? {α : Type} {l : List α} {c : α} (h : l.head? = some c) : c ∈ l := by
  cases l with
  | nil => simp at h
  | cons a rest =>
    simp only [List.head?_cons, Option.some_inj] at h
    exact h ▸ List.mem_cons_self _ _

theorem getLast?_append_right {α : Type} {l₂ : List α} (h : l₂ ≠ []) (l₁ : List α) :
    (l₁ ++ l₂).getLast? = l₂.getLast? := by
  rw [← List.head?_reverse, ← List.head?_reverse]
  rw [List.reverse_append]
  exact head?_append_of_ne_nil _ _ (by simpa [List.reverse_eq_nil_iff] using h)

theorem mem_of_getLast? {α : Type} {l : List α} {c : α} (h : l.getLast? = some c) : c ∈ l := by
  rw [← List.head?_reverse] at h
  exact List.mem_reverse.mp (mem_of_head? h)

/-- Importing the exact line exported for an entry adds exactly that
entry count under that key. -/
theorem importLine_export (acc : BigramTable) (key : JStr) (cnt : Nat)
    (hc : 1 ≤ cnt) (hsp : (' ') ∈ key) (hnl : ('\n') ∉ key)
    (hhd : ∀ c, key.head? = some c → c.isWhitespace = false) :
    importLine acc (key ++ ' ' :: natToChars cnt) = addCount acc key cnt := by
  have hkey_ne : key ≠ [] := fun h => by simp [h] at hsp
  have hdig := natToChars_props cnt
  have hline_ne : key ++ ' ' :: natToChars cnt ≠ [] := by
    cases key with
    | nil => exact absurd rfl hkey_ne
    | cons a l => simp
  have hhead : (key ++ ' ' :: natToChars cnt).head? = key.head? :=
    head?_append_of_ne_nil _ key hkey_ne
  have hlast : (key ++ ' ' :: natToChars cnt).getLast? = (natToChars cnt).getLast? := by
    rw [getLast?_append_right (by simp) key]
    have : (' ' :: natToChars cnt) = [' '] ++ natToChars cnt := rfl
    rw [this, getLast?_append_right hdig.1]
  have htrim : trimJ (key ++ ' ' :: natToChars cnt) = key ++ ' ' :: natToChars cnt := by
    apply trimJ_eq_self
    · intro c hcc
      rw [hhead] at hcc
      exact hhd c hcc
    · intro c hcc
      rw [hlast] at hcc
      exact (hdig.2 c (mem_of_getLast? hcc)).2.1
  have hparts : splitOnChar ' ' (key ++ ' ' :: natToChars cnt) =
      splitOnChar ' ' key ++ [natToChars cnt] := by
    rw [splitOnChar_append_sep]
    rw [splitOnChar_of_not_mem ' ' (natToChars cnt)
      (fun h => ((hdig.2 _ h).2.2.1) rfl)]
  have hlen : (splitOnChar ' ' key).length = key.count ' ' + 1 := length_splitOnChar ' ' key
  have hcount : 0 < key.count ' ' := List.count_pos_iff_mem.mpr hsp
  unfold importLine
  rw [htrim, if_neg hline_ne, hparts]
  rw [if_neg (by
    rw [List.length_append, hlen]
    simp only [List.length_singleton]
    omega)]
  rw [getLast?_append_right (by simp) (splitOnChar ' ' key)]
  simp only [List.getLast?_singleton, Option.getD_some]
  rw [parseIntLead_natToChars]
  show (if cnt = 0 then acc
    else addCount acc
      (joinChar ' ' ((splitOnChar ' ' key ++ [natToChars cnt]).dropLast)) cnt) =
    addCount acc key cnt
  rw [if_neg (by omega)]
  rw [List.dropLast_concat]
  rw [joinChar_splitOnChar]

/-- Splitting the newline-joined lines recovers the lines when no line
contains a newline. -/
theorem split_join_lines :
    ∀ lines : List JStr, (∀ l ∈ lines, ('\n') ∉ l) → lines ≠ [] →
      splitOnChar '\n' (joinChar '\n' lines) = lines := by
  intro lines
  induction lines with
  | nil => intro _ h; exact absurd rfl h
  | cons l rest ih =>
    intro hall _
    cases rest with
    | nil =>
      show splitOnChar '\n' l = [l]
      exact splitOnChar_of_not_mem '\n' l (hall l (List.mem_cons_self _ _))
    | cons l2 rest2 =>
      show splitOnChar '\n' (l ++ '\n' :: joinChar '\n' (l2 :: rest2)) = _
      rw [splitOnChar_append_sep]
      rw [splitOnChar_of_not_mem '\n' l (hall l (List.mem_cons_self _ _))]
      rw [ih (fun x hx => hall x (List.mem_cons_of_mem _ hx)) (by simp)]
      rfl

/-- Folding importLine over the exported lines of a well-formed table
appends the table to the accumulator. -/
theorem fold_import_lines :
    ∀ (tbl : BigramTable) (acc : BigramTable),
      (∀ e ∈ tbl, 1 ≤ e.2 ∧ (' ') ∈ e.1 ∧ ('\n') ∉ e.1 ∧
        (∀ c, e.1.head? = some c → c.isWhitespace = false)) →
      (tbl.map Prod.fst).Nodup →
      (∀ k ∈ tbl.map Prod.fst, k ∉ acc.map Prod.fst) →
      ((tbl.map (fun e => e.1 ++ ' ' :: natToChars e.2)).foldl importLine acc) = acc ++ tbl := by
  intro tbl
  induction tbl with
  | nil => intro acc _ _ _; simp
  | cons e rest ih =>
    intro acc hent hnd hdisj
    simp only [List.map_cons, List.foldl_cons]
    obtain ⟨h1, h2, h3, h4⟩ := hent e (List.mem_cons_self _ _)
    rw [importLine_export acc e.1 e.2 h1 h2 h3 h4]
    rw [addCount_not_mem _ _ _ (hdisj e.1 (by simp))]
    have hrec := ih (acc ++ [(e.1, e.2)])
      (fun x hx => hent x (List.mem_cons_of_mem _ hx))
      (by simp only [List.map_cons] at hnd; exact (List.nodup_cons.mp hnd).2)
      (by
        intro k hk
        simp only [List.map_append, List.map_cons, List.map_nil, List.mem_append,
          List.mem_singleton]
        rintro (hk2 | hk2)
        · exact hdisj k (List.mem_cons_of_mem _ hk) hk2
        · simp only [List.map_cons] at hnd
          exact (List.nodup_cons.mp hnd).1 (hk2 ▸ hk))
    rw [hrec]
    simp

/-- Round trip of export followed by import into an empty table. -/
theorem import_export {tbl : BigramTable} (hWF : BigramWF tbl) :
    importBigrams [] (exportBigrams tbl) = tbl := by
  obtain ⟨hnd, hent⟩ := hWF
  cases htbl : tbl with
  | nil => rfl
  | cons e rest =>
    subst htbl
    have hek := hent e (List.mem_cons_self _ _)
    have he_ne : e.1 ≠ [] := fun h => by simp [h] at hek
    have hline_ne : e.1 ++ ' ' :: natToChars e.2 ≠ [] := by
      cases hh : e.1 with
      | nil => exact absurd hh he_ne
      | cons a l => simp
    have htext_ne : exportBigrams (e :: rest) ≠ [] := by
      unfold exportBigrams
      simp only [List.map_cons]
      cases hr : rest.map (fun e => e.1 ++ ' ' :: natToChars e.2) with
      | nil => simpa [joinChar] using hline_ne
      | cons l2 ls =>
        simp only [joinChar]
        cases hh : e.1 with
        | nil => exact absurd hh he_ne
        | cons a l => simp
    unfold importBigrams
    rw [if_neg htext_ne]
    unfold exportBigrams
    rw [split_join_lines _ ?_ (by simp)]
    · have := fold_import_lines (e :: rest) [] hent hnd (by simp)
      simpa using this
    · intro l hl
      simp only [List.mem_map] at hl
      obtain ⟨e0, he0, rfl⟩ := hl
      obtain ⟨_, _, h3, _⟩ := hent e0 he0
      intro hmem
      rcases List.mem_append.mp hmem with h | h
      · exact h3 h
      · rcases List.mem_cons.mp h with h | h
        · exact absurd h.symm (by decide)
        · exact ((natToChars_props e0.2).2 _ h).2.2.2 rfl

end Pred

namespace Pred

/-! Tokenizer and case-folding lemmas. -/

theorem ofNat_letter_not_ws : ∀ m : Nat, 65 ≤ m → m ≤ 90 →
    (Char.ofNat (m + 32)).isWhitespace = false := by
  intro m h1 h2
  interval_cases m <;> decide

theorem toLowerChar_ws {c : Char} (h : (toLowerChar c).isWhitespace = true) :
    c.isWhitespace = true := by
  unfold toLowerChar at h
  split at h
  · rename_i hc
    rw [ofNat_letter_not_ws c.toNat hc.1 hc.2] at h
    exact absurd h (by simp)
  · exact h

theorem lowerJ_not_ws {w : JStr} (hw : ∀ c ∈ w, c.isWhitespace = false) :
    ∀ c ∈ lowerJ w, c.isWhitespace = false := by
  intro c hc
  obtain ⟨c0, hc0, rfl⟩ := List.mem_map.mp hc
  by_contra hcon
  have : (toLowerChar c0).isWhitespace = true := by
    cases h : (toLowerChar c0).isWhitespace
    · exact absurd h hcon
    · rfl
  exact absurd (toLowerChar_ws this) (by rw [hw c0 hc0]; simp)

theorem tokenizeAux_props :
    ∀ (text cur : JStr), (∀ c ∈ cur, c.isWhitespace = false) →
      ∀ w ∈ tokenizeAux text cur, w ≠ [] ∧ ∀ c ∈ w, c.isWhitespace = false := by
  intro text
  induction text with
  | nil =>
    intro cur hcur w hw
    unfold tokenizeAux at hw
    split at hw
    · simp at hw
    · rename_i hne
      simp only [List.mem_singleton] at hw
      subst hw
      refine ⟨by simpa [List.reverse_eq_nil_iff] using hne, ?_⟩
      intro c hc
      exact hcur c (List.mem_reverse.mp hc)
  | cons ch rest ih =>
    intro cur hcur w hw
    unfold tokenizeAux at hw
    by_cases hws : ch.isWhitespace
    · rw [if_pos hws] at hw
      split at hw
      · exact ih [] (by simp) w hw
      · rename_i hne
        rcases List.mem_cons.mp hw with rfl | hw2
        · refine ⟨by simpa [List.reverse_eq_nil_iff] using hne, ?_⟩
          intro c hc
          exact hcur c (List.mem_reverse.mp hc)
        · exact ih [] (by simp) w hw2
    · rw [if_neg hws] at hw
      refine ih (ch :: cur) ?_ w hw
      intro c hc
      rcases List.mem_cons.mp hc with rfl | hc2
      · exact Bool.not_eq_true _ |>.mp hws
      · exact hcur c hc2

theorem tokenize_props (text : JStr) :
    ∀ w ∈ tokenize text, w ≠ [] ∧ ∀ c ∈ w, c.isWhitespace = false :=
  tokenizeAux_props text [] (by simp)

/-! Learning preserves bigram-table well-formedness. -/

theorem fold_pairs_WF :
    ∀ (pairs : List (JStr × JStr)) (tbl : BigramTable),
      BigramWF tbl →
      (∀ p ∈ pairs,
        (∀ c ∈ p.1, c.isWhitespace = false) ∧ (∀ c ∈ p.2, c.isWhitespace = false)) →
      BigramWF (pairs.foldl
        (fun acc p => if p.1 = [] ∨ p.2 = [] then acc else addCount acc (p.1 ++ ' ' :: p.2) 1)
        tbl) := by
  intro pairs
  induction pairs with
  | nil => intro tbl h _; exact h
  | cons p rest ih =>
    intro tbl hWF hall
    rw [List.foldl_cons]
    refine ih _ ?_ (fun q hq => hall q (List.mem_cons_of_mem _ hq))
    by_cases hz : p.1 = [] ∨ p.2 = []
    · rw [if_pos hz]; exact hWF
    · rw [if_neg hz]
      push_neg at hz
      obtain ⟨hp1, hp2⟩ := hall p (List.mem_cons_self _ _)
      refine addCount_WF hWF (le_refl 1) ?_ ?_ ?_
      · exact List.mem_append.mpr (Or.inr (List.mem_cons_self _ _))
      · intro hmem
        rcases List.mem_append.mp hmem with h | h
        · exact absurd (hp1 _ h) (by decide)
        · rcases List.mem_cons.mp h with h | h
          · exact absurd h.symm (by decide)
          · exact absurd (hp2 _ h) (by decide)
      · intro c hc
        rw [head?_append_of_ne_nil _ p.1 hz.1] at hc
        exact hp1 c (mem_of_head? hc)

theorem learnBigramsFromText_WF (cs : Bool) {tbl : BigramTable} (text : JStr)
    (hWF : BigramWF tbl) : BigramWF (learnBigramsFromText cs tbl text) := by
  unfold learnBigramsFromText
  refine fold_pairs_WF _ tbl hWF ?_
  intro p hp
  obtain ⟨hp1, hp2⟩ := List.mem_zip hp
  have hmem : ∀ w, w ∈ (tokenize text).map (fun w => if cs then w else lowerJ w) →
      ∀ c ∈ w, c.isWhitespace = false := by
    intro w hw c hc
    obtain ⟨w0, hw0, rfl⟩ := List.mem_map.mp hw
    have hprops := (tokenize_props text w0 hw0).2
    by_cases hcs : cs
    · rw [if_pos hcs] at hc
      exact hprops c hc
    · rw [if_neg hcs] at hc
      exact lowerJ_not_ws hprops c hc
  have htail : ∀ (l : List JStr) (x : JStr), x ∈ l.tail → x ∈ l := by
    intro l x hx
    cases l with
    | nil => simp at hx
    | cons a r => exact List.mem_cons_of_mem _ hx
  exact ⟨hmem _ hp1, hmem _ (htail _ _ hp2)⟩

end Pred

namespace Pred

/-! Importing preserves bigram-table well-formedness. -/

theorem trimJ_subset {l : JStr} {c : Char} (hc : c ∈ trimJ l) : c ∈ l := by
  unfold trimJ at hc
  rw [List.mem_reverse] at hc
  have h1 := (List.dropWhile_sublist (p := Char.isWhitespace)
    (l := (l.dropWhile Char.isWhitespace).reverse)).mem hc
  rw [List.mem_reverse] at h1
  exact (List.dropWhile_sublist _).mem h1

/-- The trimmed string decomposes the whitespace-lead-dropped string as
a front part followed by the dropped trailing whitespace. -/
theorem trimJ_decomp (l : JStr) :
    l.dropWhile Char.isWhitespace =
      trimJ l ++ ((l.dropWhile Char.isWhitespace).reverse.takeWhile Char.isWhitespace).reverse := by
  unfold trimJ
  have h := List.takeWhile_append_dropWhile (p := Char.isWhitespace)
    (l := (l.dropWhile Char.isWhitespace).reverse)
  have h2 := congrArg List.reverse h
  rw [List.reverse_append, List.reverse_reverse] at h2
  exact h2.symm

theorem trimJ_head_not_ws {l : JStr} {c : Char} (hc : (trimJ l).head? = some c) :
    c.isWhitespace = false := by
  have hne : trimJ l ≠ [] := by
    intro h
    rw [h] at hc
    simp at hc
  have hdec := trimJ_decomp l
  have hhd : (l.dropWhile Char.isWhitespace).head? = (trimJ l).head? := by
    rw [hdec]
    exact head?_append_of_ne_nil _ _ hne
  exact dropWhile_head_not _ l c (by rw [hhd]; exact hc)

theorem joinChar_head_of_ne_nil (sep : Char) (p0 : JStr) (rest : List JStr)
    (h : p0 ≠ []) : (joinChar sep (p0 :: rest)).head? = p0.head? := by
  cases rest with
  | nil => rfl
  | cons q qs => exact head?_append_of_ne_nil _ p0 h

theorem joinChar_sep_mem (sep : Char) (p0 q : JStr) (rest : List JStr) :
    sep ∈ joinChar sep (p0 :: q :: rest) := by
  exact List.mem_append.mpr (Or.inr (List.mem_cons_self _ _))

theorem importLine_WF {acc : BigramTable} {line : JStr}
    (hWF : BigramWF acc) (hline : ('\n') ∉ line) :
    BigramWF (importLine acc line) := by
  unfold importLine
  by_cases htr : trimJ line = []
  · rw [if_pos htr]; exact hWF
  · rw [if_neg htr]
    by_cases hlen : (splitOnChar ' ' (trimJ line)).length < 3
    · rw [if_pos hlen]; exact hWF
    · rw [if_neg hlen]
      cases hparse : parseIntLead (((splitOnChar ' ' (trimJ line)).getLast?).getD []) with
      | none => exact hWF
      | some cnt =>
        show BigramWF
          (if cnt = 0 then acc
           else addCount acc (joinChar ' ' (splitOnChar ' ' (trimJ line)).dropLast) cnt)
        by_cases hz : cnt = 0
        · rw [if_pos hz]; exact hWF
        · rw [if_neg hz]
          -- structure of the pieces
          have hne := splitOnChar_ne_nil ' ' (trimJ line)
          obtain ⟨p0, qs, hps⟩ : ∃ p0 qs, splitOnChar ' ' (trimJ line) = p0 :: qs := by
            cases hx : splitOnChar ' ' (trimJ line) with
            | nil => exact absurd hx hne
            | cons a b => exact ⟨a, b, rfl⟩
          have hqs_len : 2 ≤ qs.length := by
            have := hlen
            rw [hps] at this
            simp only [List.length_cons] at this
            omega
          obtain ⟨q1, qs1, hqs⟩ : ∃ q1 qs1, qs = q1 :: qs1 := by
            cases hx : qs with
            | nil => rw [hx] at hqs_len; simp at hqs_len
            | cons a b => exact ⟨a, b, rfl⟩
          -- the head piece is non-empty because the trimmed line starts
          -- with a non-whitespace character
          have hjoin : joinChar ' ' (p0 :: qs) = trimJ line := by
            rw [← hps]; exact joinChar_splitOnChar ' ' (trimJ line)
          have hp0_ne : p0 ≠ [] := by
            intro h0
            subst h0
            rw [hqs] at hjoin
            have : (trimJ line).head? = some ' ' := by
              rw [← hjoin]
              rfl
            have := trimJ_head_not_ws this
            exact absurd this (by decide)
          -- dropLast keeps the head piece and at least one more piece
          have hdl : (splitOnChar ' ' (trimJ line)).dropLast = p0 :: qs.dropLast := by
            rw [hps]
            cases hqs2 : qs with
            | nil => rw [hqs2] at hqs_len; simp at hqs_len
            | cons a b => simp
          have hq_dl : 1 ≤ qs.dropLast.length := by
            rw [List.length_dropLast]
            omega
          obtain ⟨r1, rs1, hrs⟩ : ∃ r1 rs1, qs.dropLast = r1 :: rs1 := by
            cases hx : qs.dropLast with
            | nil => rw [hx] at hq_dl; simp at hq_dl
            | cons a b => exact ⟨a, b, rfl⟩
          refine addCount_WF hWF (by omega) ?_ ?_ ?_
          · rw [hdl, hrs]
            exact joinChar_sep_mem ' ' p0 r1 rs1
          · rw [hdl]
            intro hmem
            rcases mem_joinChar_cases hmem with h | ⟨piece, hpc, hcp⟩
            · exact absurd h (by decide)
            · have hpc2 : piece ∈ splitOnChar ' ' (trimJ line) := by
                rw [hps]
                rcases List.mem_cons.mp hpc with rfl | h2
                · exact List.mem_cons_self _ _
                · exact List.mem_cons_of_mem _ ((List.dropLast_sublist qs).mem h2)
              have : ('\n') ∈ trimJ line := mem_of_mem_splitOnChar ' ' hpc2 hcp
              exact hline (trimJ_subset this)
          · intro c hc
            rw [hdl, joinChar_head_of_ne_nil ' ' p0 _ hp0_ne] at hc
            have hhead : (trimJ line).head? = p0.head? := by
              rw [← hjoin, joinChar_head_of_ne_nil ' ' p0 _ hp0_ne]
            exact trimJ_head_not_ws (by rw [hhead]; exact hc)

theorem importBigrams_WF {tbl : BigramTable} (text : JStr)
    (hWF : BigramWF tbl) : BigramWF (importBigrams tbl text) := by
  unfold importBigrams
  by_cases hz : text = []
  · rw [if_pos hz]; exact hWF
  · rw [if_neg hz]
    have hlines := sep_not_mem_splitOnChar '\n' text
    revert hWF
    generalize hsp : splitOnChar '\n' text = lines
    rw [hsp] at hlines
    clear hsp hz
    induction lines generalizing tbl with
    | nil => intro h; exact h
    | cons l rest ih =>
      intro hWF
      rw [List.foldl_cons]
      exact ih (fun x hx => hlines x (List.mem_cons_of_mem _ hx))
        (importLine_WF hWF (hlines l (List.mem_cons_self _ _)))

/-- A bigram table reachable by any sequence of training texts (inl) and
imports (inr) from a fresh predictor. -/
def buildTable (cs : Bool) (ops : List (JStr ⊕ JStr)) : BigramTable :=
  ops.foldl
    (fun tbl op =>
      match op with
      | Sum.inl text => learnBigramsFromText cs tbl text
      | Sum.inr text => importBigrams tbl text)
    []

theorem buildTable_WF (cs : Bool) (ops : List (JStr ⊕ JStr)) :
    BigramWF (buildTable cs ops) := by
  unfold buildTable
  have hgen : ∀ (l : List (JStr ⊕ JStr)) (tbl : BigramTable), BigramWF tbl →
      BigramWF (l.foldl
        (fun tbl op =>
          match op with
          | Sum.inl text => learnBigramsFromText cs tbl text
          | Sum.inr text => importBigrams tbl text)
        tbl) := by
    intro l
    induction l with
    | nil => intro tbl h; exact h
    | cons op rest ih =>
      intro tbl hWF
      rw [List.foldl_cons]
      refine ih _ ?_
      cases op with
      | inl text => exact learnBigramsFromText_WF cs text hWF
      | inr text => exact importBigrams_WF text hWF
  exact hgen ops [] ⟨by simp, by simp⟩

end Pred

/-- C7: importing the exact text produced by exportBigrams into a fresh
predictor with an empty bigram table reproduces the source bigram table
exactly, and therefore predictNextWord returns identical ranked
predictions (same words, same probabilities, same order) for every query
word and limit; this holds for every table reachable by training and
importing from a fresh predictor. -/
theorem claim_C7_bigram_roundtrip (cs : Bool) (ops : List (JStr ⊕ JStr)) :
    Pred.importBigrams [] (Pred.exportBigrams (Pred.buildTable cs ops)) =
      Pred.buildTable cs ops ∧
    ∀ (cs2 : Bool) (w : JStr) (limit : Nat),
      Pred.predictNextWord cs2
        (Pred.importBigrams [] (Pred.exportBigrams (Pred.buildTable cs ops))) w limit =
      Pred.predictNextWord cs2 (Pred.buildTable cs ops) w limit := by
  have h := Pred.import_export (Pred.buildTable_WF cs ops)
  exact ⟨h, fun cs2 w limit => by rw [h]⟩

namespace Pred

/-! Characterisation of predictNextWord: counting vocabulary for the
aggregation over matching bigram keys, and lemmas about the addCount
accumulator. -/

/-- The successor words recorded for a normalized query word: the second
components of the table keys whose first component equals the query, in
table order, with multiplicity. -/
def succList (normalized : JStr) (tbl : BigramTable) : List JStr :=
  (tbl.filter (fun e => firstComp e.1 = normalized)).map (fun e => secondComp e.1)

/-- Total count over all keys whose first component equals the query. -/
def matchTotal (normalized : JStr) (tbl : BigramTable) : Nat :=
  ((tbl.filter (fun e => firstComp e.1 = normalized)).map (fun e => e.2)).sum

/-- The count aggregated for one successor word over the matching keys. -/
def succCount (normalized s : JStr) (tbl : BigramTable) : Nat :=
  (((tbl.filter (fun e => firstComp e.1 = normalized)).filter
      (fun e => secondComp e.1 = s)).map (fun e => e.2)).sum

/-- The total value stored under a key of an association list (the value
of the unique entry when the keys are nodup, 0 when the key is absent). -/
def countOf (l : List (JStr × Nat)) (s : JStr) : Nat :=
  ((l.filter (fun e => e.1 = s)).map (fun e => e.2)).sum

theorem filter_key_nil (l : List (JStr × Nat)) (k : JStr)
    (h : k ∉ l.map Prod.fst) : l.filter (fun e => e.1 = k) = [] := by
  induction l with
  | nil => rfl
  | cons e rest ih =>
    simp only [List.map_cons, List.mem_cons] at h
    push_neg at h
    rw [List.filter_cons, if_neg (by simpa using fun hx => h.1 hx.symm)]
    exact ih h.2

theorem countOf_of_not_mem (l : List (JStr × Nat)) (s : JStr)
    (h : s ∉ l.map Prod.fst) : countOf l s = 0 := by
  unfold countOf
  rw [filter_key_nil l s h]
  rfl

theorem unique_entry (l : List (JStr × Nat)) (k : JStr)
    (hnd : (l.map Prod.fst).Nodup) (hk : k ∈ l.map Prod.fst) :
    ∃ b, l.filter (fun e => e.1 = k) = [(k, b)] := by
  induction l with
  | nil => simp at hk
  | cons e rest ih =>
    rw [List.map_cons, List.nodup_cons] at hnd
    rw [List.filter_cons]
    by_cases he : e.1 = k
    · refine ⟨e.2, ?_⟩
      rw [if_pos (by simpa using he)]
      rw [filter_key_nil rest k (by rw [← he]; exact hnd.1)]
      have hE : e = (k, e.2) := by
        rw [← he]
      rw [hE]
    · rw [if_neg (by simpa using he)]
      rw [List.map_cons, List.mem_cons] at hk
      rcases hk with rfl | hk2
      · exact absurd rfl he
      · exact ih hnd.2 hk2

theorem countOf_of_mem {l : List (JStr × Nat)} {s : JStr} {c : Nat}
    (hnd : (l.map Prod.fst).Nodup) (h : (s, c) ∈ l) : countOf l s = c := by
  have hk : s ∈ l.map Prod.fst := List.mem_map.mpr ⟨(s, c), h, rfl⟩
  obtain ⟨b, hb⟩ := unique_entry l s hnd hk
  have hcb : c = b := by
    have hmem : (s, c) ∈ l.filter (fun e => e.1 = s) :=
      List.mem_filter.mpr ⟨h, by simp⟩
    rw [hb] at hmem
    simp at hmem
    exact hmem
  unfold countOf
  rw [hb, hcb]
  simp

theorem map_bump_of_not_mem (l : List (JStr × Nat)) (k : JStr) (inc : Nat)
    (h : k ∉ l.map Prod.fst) :
    l.map (fun e => if e.1 = k then (e.1, e.2 + inc) else e) = l := by
  induction l with
  | nil => rfl
  | cons e rest ih =>
    simp only [List.map_cons, List.mem_cons] at h
    push_neg at h
    rw [List.map_cons, if_neg (fun hx => h.1 hx.symm), ih h.2]

theorem countOf_addCount (l : List (JStr × Nat)) (k s : JStr) (inc : Nat)
    (hnd : (l.map Prod.fst).Nodup) :
    countOf (addCount l k inc) s = countOf l s + (if s = k then inc else 0) := by
  unfold addCount
  by_cases hk : k ∈ l.map Prod.fst
  · rw [if_pos hk]
    have hcomm : (l.map (fun e => if e.1 = k then (e.1, e.2 + inc) else e)).filter
        (fun e => e.1 = s) =
        (l.filter (fun e => e.1 = s)).map
          (fun e => if e.1 = k then (e.1, e.2 + inc) else e) := by
      rw [List.filter_map]
      congr 1
      apply List.filter_congr
      intro e he
      by_cases he2 : e.1 = k <;> simp [he2]
    unfold countOf
    rw [hcomm]
    by_cases hs : s = k
    · subst hs
      obtain ⟨b, hb⟩ := unique_entry l s hnd hk
      rw [hb]
      simp
    · have hid : (l.filter (fun e => e.1 = s)).map
          (fun e => if e.1 = k then (e.1, e.2 + inc) else e) =
          l.filter (fun e => e.1 = s) := by
        have hpt : ∀ e ∈ l.filter (fun e => e.1 = s),
            (if e.1 = k then (e.1, e.2 + inc) else e) = e := by
          intro e he
          have h2 := (List.mem_filter.mp he).2
          simp only [decide_eq_true_eq] at h2
          rw [if_neg (by rw [h2]; exact hs)]
        calc (l.filter (fun e => e.1 = s)).map
              (fun e => if e.1 = k then (e.1, e.2 + inc) else e)
            = (l.filter (fun e => e.1 = s)).map id := List.map_congr_left hpt
          _ = l.filter (fun e => e.1 = s) := List.map_id _
      rw [hid]
      simp [hs]
  · rw [if_neg hk]
    unfold countOf
    rw [List.filter_append, List.map_append, List.sum_append]
    by_cases hs : s = k
    · subst hs
      simp
    · have hks : ¬k = s := fun hx => hs hx.symm
      have : ([(k, inc)].filter (fun e => e.1 = s)) = [] := by
        simp [hks]
      rw [this]
      simp [hs]

theorem addCount_mem_keys (l : List (JStr × Nat)) (k s : JStr) (inc : Nat) :
    (s ∈ (addCount l k inc).map Prod.fst) ↔ (s ∈ l.map Prod.fst ∨ s = k) := by
  rw [addCount_keys]
  split
  · rename_i h
    constructor
    · exact Or.inl
    · rintro (h2 | rfl)
      · exact h2
      · exact h
  · simp [List.mem_append]

theorem addCount_values_sum (l : List (JStr × Nat)) (k : JStr) (inc : Nat)
    (hnd : (l.map Prod.fst).Nodup) :
    ((addCount l k inc).map (fun e => e.2)).sum = (l.map (fun e => e.2)).sum + inc := by
  unfold addCount
  by_cases hk : k ∈ l.map Prod.fst
  · rw [if_pos hk]
    induction l with
    | nil => simp at hk
    | cons e rest ih =>
      rw [List.map_cons, List.nodup_cons] at hnd
      rw [List.map_cons, List.mem_cons] at hk
      by_cases he : e.1 = k
      · have hrest : rest.map (fun e => if e.1 = k then (e.1, e.2 + inc) else e) = rest :=
          map_bump_of_not_mem rest k inc (by rw [← he]; exact hnd.1)
        rw [List.map_cons, if_pos he, hrest]
        simp
        omega
      · rcases hk with hk1 | hk2
        · exact absurd hk1.symm he
        · rw [List.map_cons, if_neg he]
          simp only [List.map_cons, List.sum_cons]
          rw [ih hnd.2 hk2]
          omega
  · rw [if_neg hk]
    simp

theorem addCount_length_le (l : List (JStr × Nat)) (k : JStr) (inc : Nat) :
    (addCount l k inc).length ≤ l.length + 1 := by
  unfold addCount
  split
  · simp
  · simp

end Pred

namespace Pred

/-- The accumulator loop of predictNextWord, with an explicit initial
accumulator so the fold can be characterised by induction. -/
def pnwFold (normalized : JStr) (l : BigramTable) (a : List (JStr × Nat) × Nat) :
    List (JStr × Nat) × Nat :=
  l.foldl
    (fun (a : List (JStr × Nat) × Nat) e =>
      if firstComp e.1 = normalized then (addCount a.1 (secondComp e.1) e.2, a.2 + e.2)
      else a)
    a

theorem pnwFold_nil (normalized : JStr) (a : List (JStr × Nat) × Nat) :
    pnwFold normalized [] a = a := rfl

theorem pnwFold_cons (normalized : JStr) (e : JStr × Nat) (rest : BigramTable)
    (a : List (JStr × Nat) × Nat) :
    pnwFold normalized (e :: rest) a =
      pnwFold normalized rest
        (if firstComp e.1 = normalized then (addCount a.1 (secondComp e.1) e.2, a.2 + e.2)
         else a) := rfl

theorem pnwFold_cons2 (normalized : JStr) (e : JStr × Nat) (rest : BigramTable)
    (a : List (JStr × Nat)) (t : Nat) :
    pnwFold normalized (e :: rest) (a, t) =
      pnwFold normalized rest
        (if firstComp e.1 = normalized then (addCount a (secondComp e.1) e.2, t + e.2)
         else (a, t)) := rfl

theorem succList_cons (normalized : JStr) (e : JStr × Nat) (rest : BigramTable) :
    succList normalized (e :: rest) =
      if firstComp e.1 = normalized then secondComp e.1 :: succList normalized rest
      else succList normalized rest := by
  unfold succList
  rw [List.filter_cons]
  by_cases h : firstComp e.1 = normalized
  · rw [if_pos (by simpa using h), if_pos h]
    rfl
  · rw [if_neg (by simpa using h), if_neg h]

theorem matchTotal_cons (normalized : JStr) (e : JStr × Nat) (rest : BigramTable) :
    matchTotal normalized (e :: rest) =
      (if firstComp e.1 = normalized then e.2 else 0) + matchTotal normalized rest := by
  unfold matchTotal
  rw [List.filter_cons]
  by_cases h : firstComp e.1 = normalized
  · rw [if_pos (by simpa using h), if_pos h]
    simp
  · rw [if_neg (by simpa using h), if_neg h]
    simp

theorem succCount_cons (normalized s : JStr) (e : JStr × Nat) (rest : BigramTable) :
    succCount normalized s (e :: rest) =
      (if firstComp e.1 = normalized ∧ secondComp e.1 = s then e.2 else 0) +
        succCount normalized s rest := by
  unfold succCount
  rw [List.filter_cons]
  by_cases h1 : firstComp e.1 = normalized
  · rw [if_pos (by simpa using h1), List.filter_cons]
    by_cases h2 : secondComp e.1 = s
    · rw [if_pos (by simpa using h2), if_pos ⟨h1, h2⟩]
      simp
    · rw [if_neg (by simpa using h2), if_neg (fun hx => h2 hx.2)]
      simp
  · rw [if_neg (by simpa using h1), if_neg (fun hx => h1 hx.1)]
    simp

/-- Full characterisation of the predictNextWord accumulator loop:
nodup successor keys, key membership, per-successor aggregated counts,
the running total, the sum of the stored counts, and a length bound. -/
theorem pnwFold_inv (normalized : JStr) (l : BigramTable) :
    ∀ (a : List (JStr × Nat)) (t : Nat), (a.map Prod.fst).Nodup →
    ((pnwFold normalized l (a, t)).1.map Prod.fst).Nodup ∧
    (∀ s, s ∈ (pnwFold normalized l (a, t)).1.map Prod.fst ↔
       (s ∈ a.map Prod.fst ∨ s ∈ succList normalized l)) ∧
    (∀ s, countOf (pnwFold normalized l (a, t)).1 s =
       countOf a s + succCount normalized s l) ∧
    (pnwFold normalized l (a, t)).2 = t + matchTotal normalized l ∧
    ((pnwFold normalized l (a, t)).1.map (fun e => e.2)).sum =
      (a.map (fun e => e.2)).sum + matchTotal normalized l ∧
    (pnwFold normalized l (a, t)).1.length ≤
      a.length + (l.filter (fun e => firstComp e.1 = normalized)).length := by
  induction l with
  | nil =>
    intro a t hnd
    rw [pnwFold_nil]
    refine ⟨hnd, ?_, ?_, ?_, ?_, ?_⟩
    · intro s
      simp [succList]
    · intro s
      simp [succCount, countOf]
    · simp [matchTotal]
    · simp [matchTotal]
    · simp
  | cons e rest ih =>
    intro a t hnd
    rw [pnwFold_cons2]
    by_cases hm : firstComp e.1 = normalized
    · rw [if_pos hm]
      have hnd2 : ((addCount a (secondComp e.1) e.2).map Prod.fst).Nodup := by
        rw [addCount_keys]
        split
        · exact hnd
        · rename_i h
          exact (List.perm_append_singleton _ _).nodup_iff.mpr
            (List.nodup_cons.mpr ⟨h, hnd⟩)
      obtain ⟨i1, i2, i3, i4, i5, i6⟩ := ih (addCount a (secondComp e.1) e.2) (t + e.2) hnd2
      refine ⟨i1, ?_, ?_, ?_, ?_, ?_⟩
      · intro s
        rw [i2 s, addCount_mem_keys, succList_cons, if_pos hm]
        simp only [List.mem_cons]
        tauto
      · intro s
        rw [i3 s, countOf_addCount a (secondComp e.1) s e.2 hnd, succCount_cons]
        by_cases hks : s = secondComp e.1
        · rw [if_pos hks, if_pos ⟨hm, hks.symm⟩]
          omega
        · rw [if_neg hks, if_neg (fun hx => hks hx.2.symm)]
          omega
      · rw [i4, matchTotal_cons, if_pos hm]
        omega
      · rw [i5, addCount_values_sum a (secondComp e.1) e.2 hnd, matchTotal_cons, if_pos hm]
        omega
      · have hf : ((e :: rest).filter (fun e => firstComp e.1 = normalized)).length =
            (rest.filter (fun e => firstComp e.1 = normalized)).length + 1 := by
          rw [List.filter_cons, if_pos (by simpa using hm)]
          simp
        have h2 := addCount_length_le a (secondComp e.1) e.2
        omega
    · rw [if_neg hm]
      obtain ⟨i1, i2, i3, i4, i5, i6⟩ := ih a t hnd
      refine ⟨i1, ?_, ?_, ?_, ?_, ?_⟩
      · intro s
        rw [i2 s, succList_cons, if_neg hm]
      · intro s
        rw [i3 s, succCount_cons, if_neg (fun hx => hm hx.1)]
        omega
      · rw [i4, matchTotal_cons, if_neg hm]
        omega
      · rw [i5, matchTotal_cons, if_neg hm]
        omega
      · have hf : ((e :: rest).filter (fun e => firstComp e.1 = normalized)).length =
            (rest.filter (fun e => firstComp e.1 = normalized)).length := by
          rw [List.filter_cons, if_neg (by simpa using hm)]
        omega

/-- The accumulator computed by predictNextWord for a normalized query. -/
def pnwAcc (normalized : JStr) (tbl : BigramTable) : List (JStr × Nat) × Nat :=
  pnwFold normalized tbl ([], 0)

theorem predictNextWord_eq (cs : Bool) (tbl : BigramTable) (w : JStr) (m : Nat) :
    predictNextWord cs tbl w m =
      if w = [] then []
      else
        (((pnwAcc (if cs then w else lowerJ w) tbl).1.map
            (fun p => (p.1, (p.2 : ℚ) /
              ((pnwAcc (if cs then w else lowerJ w) tbl).2 : ℚ)))).insertionSort
                probDesc).take m := rfl

def helloWord : JStr := ['h', 'e', 'l', 'l', 'o']

def worldWord : JStr := ['w', 'o', 'r', 'l', 'd']

def thereWord : JStr := ['t', 'h', 'e', 'r', 'e']

def friendWord : JStr := ['f', 'r', 'i', 'e', 'n', 'd']

/-- The bigram table after training once on each of "hello world",
"hello there", "hello friend" and a second time on "hello world". -/
def helloTable : BigramTable :=
  learnBigramsFromText false
    (learnBigramsFromText false
      (learnBigramsFromText false
        (learnBigramsFromText false [] (helloWord ++ ' ' :: worldWord))
        (helloWord ++ ' ' :: thereWord))
      (helloWord ++ ' ' :: friendWord))
    (helloWord ++ ' ' :: worldWord)

end Pred
namespace Pred

theorem sum_snd_map_div (l : List (JStr × Nat)) (T : ℚ) :
    ((l.map (fun p => (p.1, (p.2 : ℚ) / T))).map (fun p => p.2)).sum =
      (((l.map (fun e => e.2)).sum : ℕ) : ℚ) / T := by
  induction l with
  | nil => simp
  | cons e rest ih =>
    simp only [List.map_cons, List.sum_cons, ih]
    push_cast
    ring

end Pred

/-- C6: predictNextWord normalizes the query per the caseSensitive
setting, aggregates the counts of bigram keys whose first component
equals the normalized word, assigns each successor the matching count
divided by the total matching count, sorts by probability descending
and truncates to the limit; the returned probabilities sum to 1 when a
match exists and the limit is large enough; and after training once on
each of "hello world", "hello there", "hello friend" and a second time
on "hello world", predictNextWord "hello" yields world with probability
1/2 and there and friend with 1/4 each. -/
theorem claim_C6_predictNextWord (cs : Bool) (tbl : Pred.BigramTable) (w : JStr)
    (limit : Nat) (hWF : Pred.BigramWF tbl) (hw : w ≠ []) :
    (∀ p ∈ Pred.predictNextWord cs tbl w limit,
       p.1 ∈ Pred.succList (if cs then w else Pred.lowerJ w) tbl ∧
       p.2 = (Pred.succCount (if cs then w else Pred.lowerJ w) p.1 tbl : ℚ) /
         (Pred.matchTotal (if cs then w else Pred.lowerJ w) tbl : ℚ)) ∧
    List.Sorted Pred.probDesc (Pred.predictNextWord cs tbl w limit) ∧
    (Pred.predictNextWord cs tbl w limit).length ≤ limit ∧
    (Pred.succList (if cs then w else Pred.lowerJ w) tbl = [] →
       Pred.predictNextWord cs tbl w limit = []) ∧
    (Pred.succList (if cs then w else Pred.lowerJ w) tbl ≠ [] → tbl.length ≤ limit →
       ((Pred.predictNextWord cs tbl w limit).map (fun p => p.2)).sum = 1) ∧
    Pred.predictNextWord false Pred.helloTable Pred.helloWord 10 =
      [(Pred.worldWord, 1/2), (Pred.thereWord, 1/4), (Pred.friendWord, 1/4)] := by
  have hpe := Pred.predictNextWord_eq cs tbl w limit
  rw [if_neg hw] at hpe
  rw [show ∀ t : Pred.BigramTable, Pred.pnwAcc (if cs then w else Pred.lowerJ w) t =
      Pred.pnwFold (if cs then w else Pred.lowerJ w) t ([], 0) from fun _ => rfl] at hpe
  obtain ⟨i1, i2, i3, i4, i5, i6⟩ :=
    Pred.pnwFold_inv (if cs then w else Pred.lowerJ w) tbl [] 0 (by simp)
  have hmem : ∀ s,
      s ∈ (Pred.pnwFold (if cs then w else Pred.lowerJ w) tbl ([], 0)).1.map Prod.fst ↔
      s ∈ Pred.succList (if cs then w else Pred.lowerJ w) tbl := by
    intro s
    have h := i2 s
    simpa using h
  have hcnt : ∀ s,
      Pred.countOf (Pred.pnwFold (if cs then w else Pred.lowerJ w) tbl ([], 0)).1 s =
      Pred.succCount (if cs then w else Pred.lowerJ w) s tbl := by
    intro s
    have h := i3 s
    simpa [Pred.countOf] using h
  have hT : (Pred.pnwFold (if cs then w else Pred.lowerJ w) tbl ([], 0)).2 =
      Pred.matchTotal (if cs then w else Pred.lowerJ w) tbl := by
    simpa using i4
  have hsum : ((Pred.pnwFold (if cs then w else Pred.lowerJ w) tbl ([], 0)).1.map
      (fun e => e.2)).sum = Pred.matchTotal (if cs then w else Pred.lowerJ w) tbl := by
    simpa using i5
  have hlen : (Pred.pnwFold (if cs then w else Pred.lowerJ w) tbl ([], 0)).1.length ≤
      (tbl.filter (fun e => Pred.firstComp e.1 = (if cs then w else Pred.lowerJ w))).length := by
    simpa using i6
  refine ⟨?_, ?_, ?_, ?_, ?_, ?_⟩
  · -- entry characterisation
    intro p hp
    rw [hpe] at hp
    have hp1 := List.take_subset _ _ hp
    have hp2 := (List.perm_insertionSort Pred.probDesc _).mem_iff.mp hp1
    obtain ⟨q, hq, rfl⟩ := List.mem_map.mp hp2
    have hkey : q.1 ∈ (Pred.pnwFold (if cs then w else Pred.lowerJ w) tbl ([], 0)).1.map
        Prod.fst := List.mem_map.mpr ⟨q, hq, rfl⟩
    refine ⟨(hmem q.1).mp hkey, ?_⟩
    have hq2 : (q.1, q.2) ∈ (Pred.pnwFold (if cs then w else Pred.lowerJ w) tbl ([], 0)).1 := by
      have hE : (q.1, q.2) = q := rfl
      rw [hE]
      exact hq
    have hc := Pred.countOf_of_mem i1 hq2
    rw [hcnt q.1] at hc
    show (q.2 : ℚ) / ((Pred.pnwFold (if cs then w else Pred.lowerJ w) tbl ([], 0)).2 : ℚ) = _
    rw [← hc, hT]
  · -- sorted
    rw [hpe]
    exact List.Pairwise.sublist (List.take_sublist _ _)
      (List.sorted_insertionSort Pred.probDesc _)
  · -- length bound
    rw [hpe]
    exact List.length_take_le _ _
  · -- no match: empty result
    intro h0
    have hA : (Pred.pnwFold (if cs then w else Pred.lowerJ w) tbl ([], 0)).1 = [] := by
      cases hA2 : (Pred.pnwFold (if cs then w else Pred.lowerJ w) tbl ([], 0)).1 with
      | nil => rfl
      | cons x xs =>
        have hx : x.1 ∈ (Pred.pnwFold (if cs then w else Pred.lowerJ w) tbl ([], 0)).1.map
            Prod.fst := by
          rw [hA2]
          simp
        have h3 := (hmem x.1).mp hx
        rw [h0] at h3
        simp at h3
    rw [hpe, hA]
    simp
  · -- probabilities sum to 1
    intro hne hlim
    have hfil : tbl.filter (fun e => Pred.firstComp e.1 = (if cs then w else Pred.lowerJ w)) ≠ [] := by
      intro h
      apply hne
      unfold Pred.succList
      rw [h]
      rfl
    obtain ⟨e0, he0⟩ := List.exists_mem_of_ne_nil _ hfil
    have he0t : e0 ∈ tbl := List.mem_of_mem_filter he0
    have h1le : 1 ≤ e0.2 := (hWF.2 e0 he0t).1
    have hTpos : 1 ≤ Pred.matchTotal (if cs then w else Pred.lowerJ w) tbl := by
      unfold Pred.matchTotal
      have hm2 : e0.2 ∈ (tbl.filter
          (fun e => Pred.firstComp e.1 = (if cs then w else Pred.lowerJ w))).map
            (fun e => e.2) := List.mem_map.mpr ⟨e0, he0, rfl⟩
      have := List.single_le_sum (fun (x : Nat) _ => Nat.zero_le x) e0.2 hm2
      omega
    have hlen2 : ((((Pred.pnwFold (if cs then w else Pred.lowerJ w) tbl ([], 0)).1.map
        (fun p => (p.1, (p.2 : ℚ) /
          ((Pred.pnwFold (if cs then w else Pred.lowerJ w) tbl ([], 0)).2 : ℚ)))).insertionSort
            Pred.probDesc)).length ≤ limit := by
      rw [(List.perm_insertionSort _ _).length_eq, List.length_map]
      have h3 : (tbl.filter
          (fun e => Pred.firstComp e.1 = (if cs then w else Pred.lowerJ w))).length ≤
          tbl.length := List.length_filter_le _ _
      omega
    rw [hpe, List.take_of_length_le hlen2]
    rw [List.Perm.sum_eq ((List.perm_insertionSort Pred.probDesc _).map (fun p => p.2))]
    rw [Pred.sum_snd_map_div]
    rw [hsum, hT]
    have hTne : ((Pred.matchTotal (if cs then w else Pred.lowerJ w) tbl : ℕ) : ℚ) ≠ 0 := by
      have h0 : (0 : ℚ) < ((Pred.matchTotal (if cs then w else Pred.lowerJ w) tbl : ℕ) : ℚ) := by
        exact_mod_cast hTpos
      linarith
    exact div_self hTne
  · -- hello scenario
    have hacc : Pred.pnwFold (Pred.lowerJ Pred.helloWord) Pred.helloTable ([], 0) =
        ([(Pred.worldWord, 2), (Pred.thereWord, 1), (Pred.friendWord, 1)], 4) := by
      decide
    have hpe2 := Pred.predictNextWord_eq false Pred.helloTable Pred.helloWord 10
    rw [if_neg (by decide)] at hpe2
    simp only [Bool.false_eq_true, if_false] at hpe2
    rw [show Pred.pnwAcc (Pred.lowerJ Pred.helloWord) Pred.helloTable =
        Pred.pnwFold (Pred.lowerJ Pred.helloWord) Pred.helloTable ([], 0) from rfl, hacc] at hpe2
    rw [hpe2]
    norm_num [List.insertionSort, List.orderedInsert, Pred.probDesc]

theorem claim_C6_witness :
    Pred.predictNextWord false Pred.helloTable Pred.helloWord 10 =
      [(Pred.worldWord, 1/2), (Pred.thereWord, 1/4), (Pred.friendWord, 1/4)] :=
  (claim_C6_predictNextWord false Pred.helloTable Pred.helloWord 10
    (Pred.learnBigramsFromText_WF false _ (Pred.learnBigramsFromText_WF false _
      (Pred.learnBigramsFromText_WF false _ (Pred.learnBigramsFromText_WF false _
        ⟨List.nodup_nil, fun e he => absurd he (List.not_mem_nil e)⟩))))
    (by decide)).2.2.2.2.2

namespace Pred

/-! Characterisation of the multi-corpus merge. -/

/-- The (probability-sum, contributor-count) cell stored under a
character in the merge accumulator (the unique entry when the keys are
nodup, (0, 0) when the character is absent). -/
def mergeVal (a : MergeAcc) (ch : JStr) : ℚ × Nat :=
  (((a.filter (fun e => e.1 = ch)).map (fun e => e.2.1)).sum,
   ((a.filter (fun e => e.1 = ch)).map (fun e => e.2.2)).sum)

theorem assoc_filter_nil {β : Type} (l : List (JStr × β)) (k : JStr)
    (h : k ∉ l.map Prod.fst) : l.filter (fun e => e.1 = k) = [] := by
  induction l with
  | nil => rfl
  | cons e rest ih =>
    simp only [List.map_cons, List.mem_cons] at h
    push_neg at h
    rw [List.filter_cons, if_neg (by simpa using fun hx => h.1 hx.symm)]
    exact ih h.2

theorem assoc_unique_entry {β : Type} (l : List (JStr × β)) (k : JStr)
    (hnd : (l.map Prod.fst).Nodup) (hk : k ∈ l.map Prod.fst) :
    ∃ b, l.filter (fun e => e.1 = k) = [(k, b)] := by
  induction l with
  | nil => simp at hk
  | cons e rest ih =>
    rw [List.map_cons, List.nodup_cons] at hnd
    rw [List.filter_cons]
    by_cases he : e.1 = k
    · refine ⟨e.2, ?_⟩
      rw [if_pos (by simpa using he)]
      rw [assoc_filter_nil rest k (by rw [← he]; exact hnd.1)]
      have hE : e = (k, e.2) := by
        rw [← he]
      rw [hE]
    · rw [if_neg (by simpa using he)]
      rw [List.map_cons, List.mem_cons] at hk
      rcases hk with rfl | hk2
      · exact absurd rfl he
      · exact ih hnd.2 hk2

theorem mergeVal_of_not_mem (a : MergeAcc) (ch : JStr)
    (h : ch ∉ a.map Prod.fst) : mergeVal a ch = (0, 0) := by
  unfold mergeVal
  rw [assoc_filter_nil a ch h]
  rfl

theorem mergeVal_of_mem {a : MergeAcc} {ch : JStr} {q : ℚ} {c : Nat}
    (hnd : (a.map Prod.fst).Nodup) (h : (ch, (q, c)) ∈ a) : mergeVal a ch = (q, c) := by
  have hk : ch ∈ a.map Prod.fst := List.mem_map.mpr ⟨(ch, (q, c)), h, rfl⟩
  obtain ⟨b, hb⟩ := assoc_unique_entry a ch hnd hk
  have hcb : (q, c) = b := by
    have hmem : (ch, (q, c)) ∈ a.filter (fun e => e.1 = ch) :=
      List.mem_filter.mpr ⟨h, by simp⟩
    rw [hb] at hmem
    simp at hmem
    exact hmem
  unfold mergeVal
  rw [hb, ← hcb]
  simp

theorem mergeAdd_keys (a : MergeAcc) (ch : JStr) (p : ℚ) :
    (mergeAdd a ch p).map Prod.fst =
      if ch ∈ a.map Prod.fst then a.map Prod.fst else a.map Prod.fst ++ [ch] := by
  unfold mergeAdd
  split
  · rw [List.map_map]
    congr 1
    funext e
    by_cases hc : e.1 = ch <;> simp [hc]
  · simp

theorem mergeAdd_mem_keys (a : MergeAcc) (ch x : JStr) (p : ℚ) :
    (x ∈ (mergeAdd a ch p).map Prod.fst) ↔ (x ∈ a.map Prod.fst ∨ x = ch) := by
  rw [mergeAdd_keys]
  split
  · rename_i h
    constructor
    · exact Or.inl
    · rintro (h2 | rfl)
      · exact h2
      · exact h
  · simp [List.mem_append]

theorem mergeAdd_nodup {a : MergeAcc} (ch : JStr) (p : ℚ)
    (hnd : (a.map Prod.fst).Nodup) : ((mergeAdd a ch p).map Prod.fst).Nodup := by
  rw [mergeAdd_keys]
  split
  · exact hnd
  · rename_i h
    exact (List.perm_append_singleton _ _).nodup_iff.mpr (List.nodup_cons.mpr ⟨h, hnd⟩)

theorem mergeVal_mergeAdd (a : MergeAcc) (ch x : JStr) (p : ℚ)
    (hnd : (a.map Prod.fst).Nodup) :
    mergeVal (mergeAdd a ch p) x =
      if x = ch then ((mergeVal a x).1 + p, (mergeVal a x).2 + 1) else mergeVal a x := by
  unfold mergeAdd
  by_cases hk : ch ∈ a.map Prod.fst
  · rw [if_pos hk]
    have hcomm : (a.map (fun e => if e.1 = ch then (e.1, (e.2.1 + p, e.2.2 + 1)) else e)).filter
        (fun e => e.1 = x) =
        (a.filter (fun e => e.1 = x)).map
          (fun e => if e.1 = ch then (e.1, (e.2.1 + p, e.2.2 + 1)) else e) := by
      rw [List.filter_map]
      congr 1
      apply List.filter_congr
      intro e he
      by_cases he2 : e.1 = ch <;> simp [he2]
    unfold mergeVal
    rw [hcomm]
    by_cases hx : x = ch
    · subst hx
      obtain ⟨b, hb⟩ := assoc_unique_entry a x hnd hk
      rw [hb, if_pos rfl]
      simp
    · rw [if_neg hx]
      have hid : (a.filter (fun e => e.1 = x)).map
          (fun e => if e.1 = ch then (e.1, (e.2.1 + p, e.2.2 + 1)) else e) =
          a.filter (fun e => e.1 = x) := by
        have hpt : ∀ e ∈ a.filter (fun e => e.1 = x),
            (if e.1 = ch then (e.1, (e.2.1 + p, e.2.2 + 1)) else e) = e := by
          intro e he
          have h2 := (List.mem_filter.mp he).2
          simp only [decide_eq_true_eq] at h2
          rw [if_neg (by rw [h2]; exact hx)]
        calc (a.filter (fun e => e.1 = x)).map
              (fun e => if e.1 = ch then (e.1, (e.2.1 + p, e.2.2 + 1)) else e)
            = (a.filter (fun e => e.1 = x)).map id := List.map_congr_left hpt
          _ = a.filter (fun e => e.1 = x) := List.map_id _
      rw [hid]
  · rw [if_neg hk]
    unfold mergeVal
    simp only [List.filter_append, List.map_append, List.sum_append]
    by_cases hx : x = ch
    · rw [if_pos hx, hx, assoc_filter_nil a ch hk]
      simp
    · rw [if_neg hx]
      have hks : ¬ch = x := fun h2 => hx h2.symm
      simp [hks]

theorem mergeAdd_length_le (a : MergeAcc) (ch : JStr) (p : ℚ) :
    (mergeAdd a ch p).length ≤ a.length + 1 := by
  unfold mergeAdd
  split
  · simp
  · simp

end Pred

namespace Pred

theorem symbols_char_inj {symbols : List JStr} (hsym : symbols.Nodup)
    {i j : Nat} (hi : i < symbols.length) (hj : j < symbols.length)
    (h : symbols.getD i [] = symbols.getD j []) : i = j := by
  rw [List.getD_eq_getElem symbols [] hi, List.getD_eq_getElem symbols [] hj] at h
  exact (List.Nodup.getElem_inj_iff hsym).mp h

/-- The per-corpus accumulation loop over an explicit list of symbol
ids, so the range fold can be characterised by induction. -/
def mcInner (symbols : List JStr) (v : Nat → ℚ) (L : List Nat) (a : MergeAcc) : MergeAcc :=
  L.foldl (fun a i => if 0 < v i then mergeAdd a (symbols.getD i []) (v i) else a) a

theorem mcInner_nil (symbols : List JStr) (v : Nat → ℚ) (a : MergeAcc) :
    mcInner symbols v [] a = a := rfl

theorem mcInner_cons (symbols : List JStr) (v : Nat → ℚ) (i : Nat) (L : List Nat)
    (a : MergeAcc) :
    mcInner symbols v (i :: L) a =
      mcInner symbols v L (if 0 < v i then mergeAdd a (symbols.getD i []) (v i) else a) := rfl

theorem accumulateCorpus_eq (symbols : List JStr) (a : MergeAcc) (v : Nat → ℚ) :
    accumulateCorpus symbols a v = mcInner symbols v (List.range' 1 (symbols.length - 1)) a := rfl

/-- Characterisation of one corpus pass: keys gained are exactly the
characters of in-range symbol ids with strictly positive probability;
each such character gains its probability once and its contributor
count once; characters of other ids are untouched. -/
theorem mcInner_inv (symbols : List JStr) (hsym : symbols.Nodup) (v : Nat → ℚ) :
    ∀ (L : List Nat), (∀ i ∈ L, 1 ≤ i ∧ i < symbols.length) → L.Nodup →
    ∀ (a : MergeAcc), (a.map Prod.fst).Nodup →
    ((mcInner symbols v L a).map Prod.fst).Nodup ∧
    (∀ x, x ∈ (mcInner symbols v L a).map Prod.fst ↔
       (x ∈ a.map Prod.fst ∨ ∃ i, i ∈ L ∧ 0 < v i ∧ x = symbols.getD i [])) ∧
    (∀ x, (∀ i, i ∈ L → x ≠ symbols.getD i []) →
       mergeVal (mcInner symbols v L a) x = mergeVal a x) ∧
    (∀ j, j ∈ L →
       mergeVal (mcInner symbols v L a) (symbols.getD j []) =
         (if 0 < v j
          then ((mergeVal a (symbols.getD j [])).1 + v j,
                (mergeVal a (symbols.getD j [])).2 + 1)
          else mergeVal a (symbols.getD j []))) ∧
    (mcInner symbols v L a).length ≤ a.length + L.length := by
  intro L
  induction L with
  | nil =>
    intro _ _ a hnd
    rw [mcInner_nil]
    refine ⟨hnd, ?_, ?_, ?_, ?_⟩
    · intro x
      simp
    · intro x _
      rfl
    · intro j hj
      simp at hj
    · simp
  | cons i L2 ih =>
    intro hb hnd a hand
    have hbi := hb i (List.mem_cons_self _ _)
    have hb2 : ∀ k ∈ L2, 1 ≤ k ∧ k < symbols.length :=
      fun k hk => hb k (List.mem_cons_of_mem _ hk)
    rw [List.nodup_cons] at hnd
    have hdist : ∀ k, k ∈ L2 → symbols.getD i [] ≠ symbols.getD k [] := by
      intro k hk hcontra
      have hik := symbols_char_inj hsym hbi.2 (hb2 k hk).2 hcontra
      exact hnd.1 (by rw [hik]; exact hk)
    rw [mcInner_cons]
    by_cases hv : 0 < v i
    · rw [if_pos hv]
      have hand2 : ((mergeAdd a (symbols.getD i []) (v i)).map Prod.fst).Nodup :=
        mergeAdd_nodup _ _ hand
      obtain ⟨j1, j2, j3, j4, j5⟩ := ih hb2 hnd.2 (mergeAdd a (symbols.getD i []) (v i)) hand2
      refine ⟨j1, ?_, ?_, ?_, ?_⟩
      · intro x
        rw [j2 x, mergeAdd_mem_keys]
        constructor
        · rintro ((h | h) | ⟨k, hk, hvk, hx⟩)
          · exact Or.inl h
          · exact Or.inr ⟨i, List.mem_cons_self _ _, hv, h⟩
          · exact Or.inr ⟨k, List.mem_cons_of_mem _ hk, hvk, hx⟩
        · rintro (h | ⟨k, hk, hvk, hx⟩)
          · exact Or.inl (Or.inl h)
          · rcases List.mem_cons.mp hk with rfl | hk2
            · exact Or.inl (Or.inr hx)
            · exact Or.inr ⟨k, hk2, hvk, hx⟩
      · intro x hx
        rw [j3 x (fun k hk => hx k (List.mem_cons_of_mem _ hk))]
        rw [mergeVal_mergeAdd a _ x _ hand, if_neg (hx i (List.mem_cons_self _ _))]
      · intro j hj
        rcases List.mem_cons.mp hj with rfl | hj2
        · rw [j3 _ (fun k hk hcon => hdist k hk hcon)]
          rw [mergeVal_mergeAdd a _ _ _ hand, if_pos rfl, if_pos hv]
        · rw [j4 j hj2]
          have hne : symbols.getD j [] ≠ symbols.getD i [] := by
            intro hcon
            have hji := symbols_char_inj hsym (hb2 j hj2).2 hbi.2 hcon
            exact hnd.1 (by rw [← hji]; exact hj2)
          rw [mergeVal_mergeAdd a _ _ _ hand, if_neg hne]
      · have h1 := mergeAdd_length_le a (symbols.getD i []) (v i)
        simp only [List.length_cons]
        omega
    · rw [if_neg hv]
      obtain ⟨j1, j2, j3, j4, j5⟩ := ih hb2 hnd.2 a hand
      refine ⟨j1, ?_, ?_, ?_, ?_⟩
      · intro x
        rw [j2 x]
        constructor
        · rintro (h | ⟨k, hk, hvk, hx⟩)
          · exact Or.inl h
          · exact Or.inr ⟨k, List.mem_cons_of_mem _ hk, hvk, hx⟩
        · rintro (h | ⟨k, hk, hvk, hx⟩)
          · exact Or.inl h
          · rcases List.mem_cons.mp hk with rfl | hk2
            · exact absurd hvk hv
            · exact Or.inr ⟨k, hk2, hvk, hx⟩
      · intro x hx
        exact j3 x (fun k hk => hx k (List.mem_cons_of_mem _ hk))
      · intro j hj
        rcases List.mem_cons.mp hj with rfl | hj2
        · rw [if_neg hv]
          exact j3 _ (fun k hk hcon => hdist k hk hcon)
        · exact j4 j hj2
      · simp only [List.length_cons]
        omega

end Pred

namespace Pred

/-- Characterisation of the full merge over all active corpora: a
character appears iff some corpus gave its symbol positive probability,
and its cell is (sum of the positive probabilities, number of
contributing corpora) — corpora where the probability is 0 contribute
nothing, not a zero term. -/
theorem mcOuter_inv (symbols : List JStr) (hsym : symbols.Nodup) :
    ∀ (corpora : List (Nat → ℚ)) (a : MergeAcc), (a.map Prod.fst).Nodup →
    (((corpora.foldl (accumulateCorpus symbols) a).map Prod.fst).Nodup) ∧
    (∀ x, x ∈ (corpora.foldl (accumulateCorpus symbols) a).map Prod.fst ↔
       (x ∈ a.map Prod.fst ∨ ∃ i, 1 ≤ i ∧ i < symbols.length ∧ x = symbols.getD i [] ∧
          ∃ v ∈ corpora, 0 < v i)) ∧
    (∀ i, 1 ≤ i → i < symbols.length →
       mergeVal (corpora.foldl (accumulateCorpus symbols) a) (symbols.getD i []) =
         ((mergeVal a (symbols.getD i [])).1 +
            ((corpora.filter (fun v => 0 < v i)).map (fun v => v i)).sum,
          (mergeVal a (symbols.getD i [])).2 +
            (corpora.filter (fun v => 0 < v i)).length)) := by
  have hmemL : ∀ i, i ∈ List.range' 1 (symbols.length - 1) ↔
      (1 ≤ i ∧ i < symbols.length) := by
    intro i
    rw [List.mem_range'_1]
    omega
  intro corpora
  induction corpora with
  | nil =>
    intro a hnd
    refine ⟨hnd, ?_, ?_⟩
    · intro x
      simp
    · intro i h1 h2
      simp
  | cons v rest ih =>
    intro a hand
    have hLb : ∀ i ∈ List.range' 1 (symbols.length - 1), 1 ≤ i ∧ i < symbols.length :=
      fun i hi => (hmemL i).mp hi
    have hLnd : (List.range' 1 (symbols.length - 1)).Nodup := List.nodup_range' 1 _
    obtain ⟨k1, k2, k3, k4, k5⟩ := mcInner_inv symbols hsym v _ hLb hLnd a hand
    rw [List.foldl_cons, accumulateCorpus_eq]
    obtain ⟨o1, o2, o3⟩ := ih (mcInner symbols v (List.range' 1 (symbols.length - 1)) a) k1
    refine ⟨o1, ?_, ?_⟩
    · intro x
      rw [o2 x, k2 x]
      constructor
      · rintro ((h | ⟨i, hiL, hvi, hx⟩) | ⟨i, h1, h2, hx, u, hu, hvu⟩)
        · exact Or.inl h
        · exact Or.inr ⟨i, ((hmemL i).mp hiL).1, ((hmemL i).mp hiL).2, hx,
            v, List.mem_cons_self _ _, hvi⟩
        · exact Or.inr ⟨i, h1, h2, hx, u, List.mem_cons_of_mem _ hu, hvu⟩
      · rintro (h | ⟨i, h1, h2, hx, u, hu, hvu⟩)
        · exact Or.inl (Or.inl h)
        · rcases List.mem_cons.mp hu with rfl | hu2
          · exact Or.inl (Or.inr ⟨i, (hmemL i).mpr ⟨h1, h2⟩, hvu, hx⟩)
          · exact Or.inr ⟨i, h1, h2, hx, u, hu2, hvu⟩
    · intro i h1 h2
      rw [o3 i h1 h2, k4 i ((hmemL i).mpr ⟨h1, h2⟩)]
      by_cases hvi : 0 < v i
      · rw [if_pos hvi, List.filter_cons, if_pos (by simpa using hvi)]
        simp only [List.map_cons, List.sum_cons, List.length_cons, Prod.mk.injEq]
        exact ⟨add_assoc _ _ _, by rw [add_assoc, Nat.add_comm 1]⟩
      · rw [if_neg hvi, List.filter_cons, if_neg (by simpa using hvi)]

end Pred

namespace Pred

theorem predictFromMultipleCorpora_eq (symbols : List JStr) (corpora : List (Nat → ℚ))
    (maxP : Nat) :
    predictFromMultipleCorpora symbols corpora maxP =
      (((corpora.foldl (accumulateCorpus symbols) []).map
          (fun e => (e.1, e.2.1 / (e.2.2 : ℚ)))).insertionSort probDesc).take maxP := rfl

def mcSymbols : List JStr := [[], ['a'], ['b']]

def mcV1 : Nat → ℚ := fun i => if i = 1 then 1/2 else if i = 2 then 1/2 else 0

def mcV2 : Nat → ℚ := fun i => if i = 1 then 1 else 0

end Pred

/-- C5: with several active corpora, every returned entry is the
character of some in-range symbol id whose probability was strictly
positive in at least one corpus, and its probability is the sum of its
probabilities over exactly the contributing corpora (those where it got
a probability strictly greater than 0 — a corpus giving 0 adds neither
to the sum nor to the divisor) divided by the number of contributing
corpora; the list is sorted by probability descending and truncated to
maxPredictions, and when maxPredictions is large enough every
character with a contributing corpus appears. -/
theorem claim_C5_multi_corpus_average (symbols : List JStr) (corpora : List (Nat → ℚ))
    (maxP : Nat) (hsym : symbols.Nodup) :
    (∀ p ∈ Pred.predictFromMultipleCorpora symbols corpora maxP,
       ∃ i, 1 ≤ i ∧ i < symbols.length ∧ p.1 = symbols.getD i [] ∧
         (corpora.filter (fun v => 0 < v i)) ≠ [] ∧
         p.2 = ((corpora.filter (fun v => 0 < v i)).map (fun v => v i)).sum /
           ((corpora.filter (fun v => 0 < v i)).length : ℚ)) ∧
    List.Sorted Pred.probDesc (Pred.predictFromMultipleCorpora symbols corpora maxP) ∧
    (Pred.predictFromMultipleCorpora symbols corpora maxP).length ≤ maxP ∧
    (symbols.length - 1 ≤ maxP →
       ∀ i, 1 ≤ i → i < symbols.length → (∃ v ∈ corpora, 0 < v i) →
         ∃ p ∈ Pred.predictFromMultipleCorpora symbols corpora maxP,
           p.1 = symbols.getD i []) := by
  obtain ⟨o1, o2, o3⟩ := Pred.mcOuter_inv symbols hsym corpora [] (by simp)
  have ho2 : ∀ x, x ∈ (corpora.foldl (Pred.accumulateCorpus symbols) []).map Prod.fst ↔
      ∃ i, 1 ≤ i ∧ i < symbols.length ∧ x = symbols.getD i [] ∧ ∃ v ∈ corpora, 0 < v i := by
    intro x
    rw [o2 x]
    simp
  have ho3 : ∀ i, 1 ≤ i → i < symbols.length →
      Pred.mergeVal (corpora.foldl (Pred.accumulateCorpus symbols) []) (symbols.getD i []) =
        (((corpora.filter (fun v => 0 < v i)).map (fun v => v i)).sum,
         (corpora.filter (fun v => 0 < v i)).length) := by
    intro i h1 h2
    have h := o3 i h1 h2
    simpa [Pred.mergeVal] using h
  have hpe := Pred.predictFromMultipleCorpora_eq symbols corpora maxP
  refine ⟨?_, ?_, ?_, ?_⟩
  · intro p hp
    rw [hpe] at hp
    have hp1 := List.take_subset _ _ hp
    have hp2 := (List.perm_insertionSort Pred.probDesc _).mem_iff.mp hp1
    obtain ⟨e, he, rfl⟩ := List.mem_map.mp hp2
    have hkey : e.1 ∈ (corpora.foldl (Pred.accumulateCorpus symbols) []).map Prod.fst :=
      List.mem_map.mpr ⟨e, he, rfl⟩
    obtain ⟨i, h1, h2, hx, hv⟩ := (ho2 e.1).mp hkey
    have hfil : (corpora.filter (fun v => 0 < v i)) ≠ [] := by
      obtain ⟨v, hvm, hvp⟩ := hv
      exact List.ne_nil_of_mem (List.mem_filter.mpr ⟨hvm, by simpa using hvp⟩)
    refine ⟨i, h1, h2, hx, hfil, ?_⟩
    have he2 : (e.1, (e.2.1, e.2.2)) ∈ corpora.foldl (Pred.accumulateCorpus symbols) [] := by
      have hE : (e.1, (e.2.1, e.2.2)) = e := rfl
      rw [hE]
      exact he
    have hval := Pred.mergeVal_of_mem o1 he2
    rw [hx, ho3 i h1 h2] at hval
    have hc1 : e.2.1 = ((corpora.filter (fun v => 0 < v i)).map (fun v => v i)).sum :=
      (congrArg Prod.fst hval).symm
    have hc2 : e.2.2 = (corpora.filter (fun v => 0 < v i)).length :=
      (congrArg Prod.snd hval).symm
    show e.2.1 / (e.2.2 : ℚ) = _
    rw [hc1, hc2]
  · rw [hpe]
    exact List.Pairwise.sublist (List.take_sublist _ _)
      (List.sorted_insertionSort Pred.probDesc _)
  · rw [hpe]
    exact List.length_take_le _ _
  · intro hbig i h1 h2 hv
    have hsub : (corpora.foldl (Pred.accumulateCorpus symbols) []).map Prod.fst ⊆
        (List.range' 1 (symbols.length - 1)).map (fun j => symbols.getD j []) := by
      intro x hx
      obtain ⟨j, hj1, hj2, hxj, _⟩ := (ho2 x).mp hx
      exact List.mem_map.mpr ⟨j, by rw [List.mem_range'_1]; omega, hxj.symm⟩
    have hlen1 := (List.Nodup.subperm o1 hsub).length_le
    rw [List.length_map, List.length_map, List.length_range'] at hlen1
    have hlenM : (corpora.foldl (Pred.accumulateCorpus symbols) []).length ≤ maxP := by
      omega
    have htake : ((((corpora.foldl (Pred.accumulateCorpus symbols) []).map
        (fun e => (e.1, e.2.1 / (e.2.2 : ℚ)))).insertionSort Pred.probDesc)).length ≤ maxP := by
      rw [(List.perm_insertionSort _ _).length_eq, List.length_map]
      exact hlenM
    have hkey : symbols.getD i [] ∈
        (corpora.foldl (Pred.accumulateCorpus symbols) []).map Prod.fst :=
      (ho2 _).mpr ⟨i, h1, h2, rfl, hv⟩
    obtain ⟨e, he, hei⟩ := List.mem_map.mp hkey
    refine ⟨(e.1, e.2.1 / (e.2.2 : ℚ)), ?_, ?_⟩
    · rw [hpe, List.take_of_length_le htake]
      exact (List.perm_insertionSort Pred.probDesc _).mem_iff.mpr
        (List.mem_map.mpr ⟨e, he, rfl⟩)
    · exact hei

theorem claim_C5_witness :
    Pred.mcSymbols.Nodup ∧
    (Pred.predictFromMultipleCorpora Pred.mcSymbols [Pred.mcV1, Pred.mcV2] 10).length ≤ 10 :=
  ⟨by decide, (claim_C5_multi_corpus_average Pred.mcSymbols [Pred.mcV1, Pred.mcV2] 10
    (by decide)).2.2.1⟩

/-! ### PrefixTrie (lexicon prefix completion)

Shallow embedding of the PrefixTrie class: a node is a word marker plus
an insertion-ordered children map with unique character keys; JS
localeCompare on single characters is modelled as code-point order. -/

namespace PT

inductive TrieNode where
  | mk : Bool → List (Char × TrieNode) → TrieNode

def TrieNode.isWord : TrieNode → Bool
  | .mk b _ => b

def TrieNode.children : TrieNode → List (Char × TrieNode)
  | .mk _ cs => cs

/-- PrefixTrie.insert: walk the word, creating missing children (Map.set
appends a new key at the end) and mark the final node as a word. -/
def insertW : JStr → TrieNode → TrieNode
  | [], n => .mk true n.children
  | c :: w, n =>
    if c ∈ n.children.map Prod.fst then
      .mk n.isWord (n.children.map (fun e => if e.1 = c then (e.1, insertW w e.2) else e))
    else
      .mk n.isWord (n.children ++ [(c, insertW w (.mk false []))])

/-- The word w is marked in the (sub)trie n. -/
def IsWordIn : JStr → TrieNode → Prop
  | [], n => n.isWord = true
  | c :: w, n => ∃ t, (c, t) ∈ n.children ∧ IsWordIn w t

/-- Well-formedness: at every node the children keys are distinct (a JS
Map cannot hold a key twice). -/
inductive TrieWF : TrieNode → Prop where
  | mk : ∀ (b : Bool) (cs : List (Char × TrieNode)),
      (cs.map Prod.fst).Nodup → (∀ e ∈ cs, TrieWF e.2) → TrieWF (.mk b cs)

theorem TrieWF.nodupKeys {n : TrieNode} (h : TrieWF n) :
    (n.children.map Prod.fst).Nodup := by
  cases h
  exact (by assumption)

theorem TrieWF.childWF {n : TrieNode} (h : TrieWF n) :
    ∀ e ∈ n.children, TrieWF e.2 := by
  cases h
  exact (by assumption)

/-- The prefix-descent loop at the start of collect. -/
def descend : JStr → TrieNode → Option TrieNode
  | [], n => some n
  | c :: p, n =>
    match n.children.find? (fun e => e.1 = c) with
    | none => none
    | some e => descend p e.2

/-- The descending sort comparator b[0].localeCompare(a[0]) : entry a
precedes entry b when b.1 ≤ a.1. -/
def childDesc : (Char × TrieNode) → (Char × TrieNode) → Prop := fun a b => b.1 ≤ a.1

instance : DecidableRel childDesc := fun a b => by
  unfold childDesc
  infer_instance

instance : IsTotal (Char × TrieNode) childDesc := ⟨fun a b => le_total b.1 a.1⟩

instance : IsTrans (Char × TrieNode) childDesc := ⟨fun _ _ _ h1 h2 => le_trans h2 h1⟩

theorem children_sum_lt (b : Bool) (cs : List (Char × TrieNode)) :
    (cs.map (fun e => sizeOf e.2)).sum < sizeOf (TrieNode.mk b cs) := by
  have h : (cs.map (fun e => sizeOf e.2)).sum < sizeOf cs := by
    induction cs with
    | nil => simp
    | cons e l ih =>
      cases e with
      | mk c t =>
        simp only [List.map_cons, List.sum_cons, List.cons.sizeOf_spec, Prod.mk.sizeOf_spec]
        omega
  simp only [TrieNode.mk.sizeOf_spec]
  omega

theorem children_stack_sum (n : TrieNode) (p : JStr) :
    (((n.children.insertionSort childDesc).reverse).map
        ((fun e : TrieNode × JStr => sizeOf e.1) ∘
          (fun e : Char × TrieNode => (e.2, p ++ [e.1])))).sum < sizeOf n := by
  have hperm : List.Perm ((n.children.insertionSort childDesc).reverse) n.children :=
    (List.reverse_perm _).trans (List.perm_insertionSort _ _)
  rw [(hperm.map ((fun e : TrieNode × JStr => sizeOf e.1) ∘
    (fun e : Char × TrieNode => (e.2, p ++ [e.1])))).sum_eq]
  have h2 := children_sum_lt n.isWord n.children
  have h3 : TrieNode.mk n.isWord n.children = n := by
    cases n
    rfl
  rw [h3] at h2
  have h4 : (n.children.map ((fun e : TrieNode × JStr => sizeOf e.1) ∘
      (fun e : Char × TrieNode => (e.2, p ++ [e.1])))).sum
      = (n.children.map (fun e => sizeOf e.2)).sum := rfl
  rw [h4]
  exact h2

/-- The DFS loop of collect, stack top at the head: JS pushes the
children in descending key order one by one, leaving them in ascending
order on top of the remaining stack; a word is appended when its node
is popped, and the loop stops when the limit is reached or the stack is
exhausted. -/
def collectLoop (limit : Nat) : List (TrieNode × JStr) → List JStr → List JStr
  | [], results => results
  | (n, p) :: rest, results =>
    if results.length < limit then
      collectLoop limit
        ((((n.children.insertionSort childDesc).reverse).map
            (fun e => (e.2, p ++ [e.1]))) ++ rest)
        (if n.isWord then results ++ [p] else results)
    else results
termination_by st _ => (st.map (fun e => sizeOf e.1)).sum
decreasing_by
  simp only [List.map_append, List.sum_append, List.map_cons, List.sum_cons, List.map_map]
  have h := children_stack_sum n p
  omega

/-- The whole depth-first word list of a stack, unlimited. -/
def dfsAll : List (TrieNode × JStr) → List JStr
  | [] => []
  | (n, p) :: rest =>
    (if n.isWord then [p] else []) ++
      dfsAll ((((n.children.insertionSort childDesc).reverse).map
        (fun e => (e.2, p ++ [e.1]))) ++ rest)
termination_by st => (st.map (fun e => sizeOf e.1)).sum
decreasing_by
  simp only [List.map_append, List.sum_append, List.map_cons, List.sum_cons, List.map_map]
  have h := children_stack_sum n p
  omega

/-- PrefixTrie.collect. -/
def collect (t : TrieNode) (pfx : JStr) (limit : Nat) : List JStr :=
  match descend pfx t with
  | none => []
  | some n => collectLoop limit [(n, pfx)] []

/-- A trie built by inserting the given words into a fresh PrefixTrie. -/
def buildTrie (ws : List JStr) : TrieNode :=
  ws.foldl (fun t w => insertW w t) (.mk false [])

/-- Strict lexicographic order on words by code points. -/
def wordLt (a b : JStr) : Prop := List.Lex (fun x y : Char => x < y) a b

end PT

namespace PT

theorem trieNode_sizeOf_pos (n : TrieNode) : 1 ≤ sizeOf n := by
  cases n with
  | mk b cs =>
    simp only [TrieNode.mk.sizeOf_spec]
    omega

theorem stack_nil_of_weight_zero {st : List (TrieNode × JStr)}
    (h : (st.map (fun e => sizeOf e.1)).sum = 0) : st = [] := by
  cases st with
  | nil => rfl
  | cons e rest =>
    simp only [List.map_cons, List.sum_cons] at h
    have := trieNode_sizeOf_pos e.1
    omega

theorem dfsAll_nil : dfsAll [] = [] := by
  rw [dfsAll]

theorem dfsAll_cons (n : TrieNode) (p : JStr) (rest : List (TrieNode × JStr)) :
    dfsAll ((n, p) :: rest) =
      (if n.isWord then [p] else []) ++
        dfsAll ((((n.children.insertionSort childDesc).reverse).map
          (fun e => (e.2, p ++ [e.1]))) ++ rest) := by
  rw [dfsAll]

theorem collectLoop_nil (limit : Nat) (res : List JStr) :
    collectLoop limit [] res = res := by
  rw [collectLoop]

theorem collectLoop_cons (limit : Nat) (n : TrieNode) (p : JStr)
    (rest : List (TrieNode × JStr)) (res : List JStr) :
    collectLoop limit ((n, p) :: rest) res =
      if res.length < limit then
        collectLoop limit ((((n.children.insertionSort childDesc).reverse).map
          (fun e => (e.2, p ++ [e.1]))) ++ rest)
          (if n.isWord then res ++ [p] else res)
      else res := by
  rw [collectLoop]

theorem dfsAll_append : ∀ (N : Nat) (s1 s2 : List (TrieNode × JStr)),
    (s1.map (fun e => sizeOf e.1)).sum ≤ N →
    dfsAll (s1 ++ s2) = dfsAll s1 ++ dfsAll s2 := by
  intro N
  induction N with
  | zero =>
    intro s1 s2 h
    have h0 : s1 = [] := stack_nil_of_weight_zero (Nat.le_zero.mp h)
    subst h0
    rw [dfsAll_nil]
    simp
  | succ N ih =>
    intro s1 s2 h
    cases s1 with
    | nil =>
      rw [dfsAll_nil]
      simp
    | cons en rest =>
      obtain ⟨n, p⟩ := en
      rw [List.cons_append, dfsAll_cons, dfsAll_cons, List.append_assoc]
      congr 1
      rw [← List.append_assoc]
      apply ih
      simp only [List.map_cons, List.sum_cons] at h
      simp only [List.map_append, List.sum_append, List.map_map]
      have hc := children_stack_sum n p
      omega

theorem dfsAll_cons_eq (en : TrieNode × JStr) (st : List (TrieNode × JStr)) :
    dfsAll (en :: st) = dfsAll [en] ++ dfsAll st := by
  have h := dfsAll_append ((([en] : List (TrieNode × JStr)).map
    (fun e => sizeOf e.1)).sum) [en] st le_rfl
  simpa using h

theorem mem_dfsAll_stack (st : List (TrieNode × JStr)) (w : JStr) :
    w ∈ dfsAll st ↔ ∃ en, en ∈ st ∧ w ∈ dfsAll [en] := by
  induction st with
  | nil =>
    rw [dfsAll_nil]
    simp
  | cons en rest ih =>
    rw [dfsAll_cons_eq, List.mem_append, ih]
    constructor
    · rintro (h | ⟨e2, he2, hw⟩)
      · exact ⟨en, List.mem_cons_self _ _, h⟩
      · exact ⟨e2, List.mem_cons_of_mem _ he2, hw⟩
    · rintro ⟨e2, he2, hw⟩
      rcases List.mem_cons.mp he2 with rfl | h2
      · exact Or.inl hw
      · exact Or.inr ⟨e2, h2, hw⟩

/-- The limited DFS returns exactly the first (limit − collected) words
of the unlimited traversal. -/
theorem collectLoop_dfs : ∀ (N limit : Nat) (st : List (TrieNode × JStr)) (res : List JStr),
    (st.map (fun e => sizeOf e.1)).sum ≤ N →
    collectLoop limit st res = res ++ (dfsAll st).take (limit - res.length) := by
  intro N
  induction N with
  | zero =>
    intro limit st res h
    have h0 : st = [] := stack_nil_of_weight_zero (Nat.le_zero.mp h)
    subst h0
    rw [collectLoop_nil, dfsAll_nil]
    simp
  | succ N ih =>
    intro limit st res h
    cases st with
    | nil =>
      rw [collectLoop_nil, dfsAll_nil]
      simp
    | cons en rest =>
      obtain ⟨n, p⟩ := en
      rw [collectLoop_cons, dfsAll_cons]
      by_cases hl : res.length < limit
      · rw [if_pos hl]
        have hbound : (((((n.children.insertionSort childDesc).reverse).map
            (fun e => (e.2, p ++ [e.1]))) ++ rest).map (fun e => sizeOf e.1)).sum ≤ N := by
          simp only [List.map_cons, List.sum_cons] at h
          simp only [List.map_append, List.sum_append, List.map_map]
          have hc := children_stack_sum n p
          omega
        rw [ih limit _ _ hbound]
        by_cases hw : n.isWord = true
        · rw [if_pos hw, if_pos hw, List.append_assoc]
          congr 1
          have hL : (res ++ [p]).length = res.length + 1 := by
            simp
          rw [hL]
          have hlim : limit - res.length = (limit - (res.length + 1)) + 1 := by
            omega
          rw [hlim]
          rfl
        · rw [if_neg hw, if_neg hw]
          simp
      · rw [if_neg hl]
        have h0 : limit - res.length = 0 := by omega
        rw [h0]
        simp

end PT

namespace PT

theorem wordLt_append_cons (p : JStr) (c : Char) (s : JStr) : wordLt p (p ++ c :: s) := by
  induction p with
  | nil => exact List.Lex.nil
  | cons a q ih => exact List.Lex.cons ih

theorem wordLt_append_lt (p : JStr) {c1 c2 : Char} (h : c1 < c2) (s1 s2 : JStr) :
    wordLt (p ++ c1 :: s1) (p ++ c2 :: s2) := by
  induction p with
  | nil => exact List.Lex.rel h
  | cons a q ih => exact List.Lex.cons ih

theorem IsWordIn_empty (u : JStr) : ¬ IsWordIn u (.mk false []) := by
  cases u with
  | nil =>
    intro h
    simp [IsWordIn, TrieNode.isWord] at h
  | cons c w =>
    rintro ⟨t, ht, _⟩
    simp [TrieNode.children] at ht

theorem insert_child_mem_ne (cs : List (Char × TrieNode)) (w2 : JStr) (c a : Char)
    (t : TrieNode) (hac : a ≠ c) :
    ((a, t) ∈ cs.map (fun e => if e.1 = c then (e.1, insertW w2 e.2) else e)) ↔
      (a, t) ∈ cs := by
  rw [List.mem_map]
  constructor
  · rintro ⟨e, he, hfe⟩
    by_cases hec : e.1 = c
    · rw [if_pos hec] at hfe
      have h1 : e.1 = a := congrArg Prod.fst hfe
      have : a = c := by
        rw [← h1]
        exact hec
      exact absurd this hac
    · rw [if_neg hec] at hfe
      exact hfe ▸ he
  · intro h
    refine ⟨(a, t), h, ?_⟩
    rw [if_neg hac]

theorem insert_child_mem_eq (cs : List (Char × TrieNode)) (w2 : JStr) (c : Char)
    (t : TrieNode) :
    ((c, t) ∈ cs.map (fun e => if e.1 = c then (e.1, insertW w2 e.2) else e)) ↔
      ∃ t0, (c, t0) ∈ cs ∧ t = insertW w2 t0 := by
  rw [List.mem_map]
  constructor
  · rintro ⟨e, he, hfe⟩
    by_cases hec : e.1 = c
    · rw [if_pos hec] at hfe
      refine ⟨e.2, ?_, (congrArg Prod.snd hfe).symm⟩
      rw [← hec]
      exact he
    · rw [if_neg hec] at hfe
      exact absurd (by rw [hfe]) hec
  · rintro ⟨t0, ht0, rfl⟩
    exact ⟨(c, t0), ht0, by rw [if_pos rfl]⟩

theorem IsWordIn_insertW : ∀ (w u : JStr) (n : TrieNode),
    IsWordIn u (insertW w n) ↔ (u = w ∨ IsWordIn u n) := by
  intro w
  induction w with
  | nil =>
    intro u n
    cases u with
    | nil => simp [insertW, IsWordIn, TrieNode.isWord]
    | cons a u2 => simp [insertW, IsWordIn, TrieNode.children]
  | cons c w2 ih =>
    intro u n
    rw [insertW]
    by_cases hc : c ∈ n.children.map Prod.fst
    · rw [if_pos hc]
      cases u with
      | nil => simp [IsWordIn, TrieNode.isWord]
      | cons a u2 =>
        simp only [IsWordIn, TrieNode.children]
        by_cases hac : a = c
        · subst hac
          constructor
          · rintro ⟨t, htm, hti⟩
            obtain ⟨t0, ht0, rfl⟩ := (insert_child_mem_eq _ _ _ _).mp htm
            rcases (ih u2 t0).mp hti with rfl | h2
            · exact Or.inl rfl
            · exact Or.inr ⟨t0, ht0, h2⟩
          · rintro (h | ⟨t, htm, hti⟩)
            · obtain ⟨t0, ht0⟩ : ∃ t0, (a, t0) ∈ n.children := by
                obtain ⟨e, he, hek⟩ := List.mem_map.mp hc
                refine ⟨e.2, ?_⟩
                rw [← hek]
                exact he
              have hu2 : u2 = w2 := by
                injection h
              refine ⟨insertW w2 t0, (insert_child_mem_eq _ _ _ _).mpr ⟨t0, ht0, rfl⟩, ?_⟩
              exact (ih u2 t0).mpr (Or.inl hu2)
            · exact ⟨insertW w2 t, (insert_child_mem_eq _ _ _ _).mpr ⟨t, htm, rfl⟩,
                (ih u2 t).mpr (Or.inr hti)⟩
        · constructor
          · rintro ⟨t, htm, hti⟩
            exact Or.inr ⟨t, (insert_child_mem_ne _ _ _ _ _ hac).mp htm, hti⟩
          · rintro (h | ⟨t, htm, hti⟩)
            · exact absurd (by injection h) hac
            · exact ⟨t, (insert_child_mem_ne _ _ _ _ _ hac).mpr htm, hti⟩
    · rw [if_neg hc]
      cases u with
      | nil => simp [IsWordIn, TrieNode.isWord]
      | cons a u2 =>
        simp only [IsWordIn, TrieNode.children]
        by_cases hac : a = c
        · subst hac
          constructor
          · rintro ⟨t, htm, hti⟩
            rcases List.mem_append.mp htm with hold | hnew
            · exact absurd (List.mem_map.mpr ⟨(a, t), hold, rfl⟩) hc
            · have ht : t = insertW w2 (.mk false []) := by
                have := List.mem_singleton.mp hnew
                exact congrArg Prod.snd this
              rw [ht] at hti
              rcases (ih u2 _).mp hti with rfl | h2
              · exact Or.inl rfl
              · exact absurd h2 (IsWordIn_empty u2)
          · rintro (h | ⟨t, htm, hti⟩)
            · have hu2 : u2 = w2 := by
                injection h
              refine ⟨insertW w2 (.mk false []),
                List.mem_append.mpr (Or.inr (List.mem_singleton.mpr rfl)), ?_⟩
              exact (ih u2 _).mpr (Or.inl hu2)
            · exact absurd (List.mem_map.mpr ⟨(a, t), htm, rfl⟩) hc
        · constructor
          · rintro ⟨t, htm, hti⟩
            rcases List.mem_append.mp htm with hold | hnew
            · exact Or.inr ⟨t, hold, hti⟩
            · have := List.mem_singleton.mp hnew
              exact absurd (congrArg Prod.fst this) hac
          · rintro (h | ⟨t, htm, hti⟩)
            · exact absurd (by injection h) hac
            · exact ⟨t, List.mem_append.mpr (Or.inl htm), hti⟩

theorem insertW_WF : ∀ (w : JStr) (n : TrieNode), TrieWF n → TrieWF (insertW w n) := by
  intro w
  induction w with
  | nil =>
    intro n hn
    cases n with
    | mk b cs =>
      cases hn with
      | mk _ _ hnd hch => exact TrieWF.mk true cs hnd hch
  | cons c w2 ih =>
    intro n hn
    cases n with
    | mk b cs =>
      have hnd : (cs.map Prod.fst).Nodup := by
        cases hn
        assumption
      have hch : ∀ e ∈ cs, TrieWF e.2 := by
        cases hn
        assumption
      rw [insertW]
      simp only [TrieNode.children, TrieNode.isWord]
      by_cases hc : c ∈ cs.map Prod.fst
      · rw [if_pos hc]
        refine TrieWF.mk _ _ ?_ ?_
        · have hkeys : (cs.map (fun e => if e.1 = c then (e.1, insertW w2 e.2) else e)).map
              Prod.fst = cs.map Prod.fst := by
            rw [List.map_map]
            apply List.map_congr_left
            intro e he
            by_cases h2 : e.1 = c <;> simp [h2]
          rw [hkeys]
          exact hnd
        · intro e2 he2
          obtain ⟨e, he, hfe⟩ := List.mem_map.mp he2
          by_cases h2 : e.1 = c
          · rw [if_pos h2] at hfe
            rw [← hfe]
            exact ih e.2 (hch e he)
          · rw [if_neg h2] at hfe
            rw [← hfe]
            exact hch e he
      · rw [if_neg hc]
        refine TrieWF.mk _ _ ?_ ?_
        · rw [List.map_append]
          exact (List.perm_append_singleton _ _).nodup_iff.mpr
            (List.nodup_cons.mpr ⟨hc, hnd⟩)
        · intro e2 he2
          rcases List.mem_append.mp he2 with hold | hnew
          · exact hch e2 hold
          · rw [List.mem_singleton.mp hnew]
            exact ih (.mk false []) (TrieWF.mk false [] (by simp) (by simp))

theorem nodup_key_unique {cs : List (Char × TrieNode)} (hnd : (cs.map Prod.fst).Nodup)
    {c : Char} {t t2 : TrieNode} (h1 : (c, t) ∈ cs) (h2 : (c, t2) ∈ cs) : t = t2 := by
  induction cs with
  | nil => simp at h1
  | cons e rest ih =>
    rw [List.map_cons, List.nodup_cons] at hnd
    rcases List.mem_cons.mp h1 with h1e | hr1
    · rcases List.mem_cons.mp h2 with h2e | hr2
      · exact congrArg Prod.snd (h1e.trans h2e.symm)
      · exfalso
        apply hnd.1
        rw [← h1e]
        exact List.mem_map.mpr ⟨(c, t2), hr2, rfl⟩
    · rcases List.mem_cons.mp h2 with h2e | hr2
      · exfalso
        apply hnd.1
        rw [← h2e]
        exact List.mem_map.mpr ⟨(c, t), hr1, rfl⟩
      · exact ih hnd.2 hr1 hr2

theorem descend_none : ∀ (pfx : JStr) (n : TrieNode), TrieWF n → descend pfx n = none →
    ∀ s, ¬ IsWordIn (pfx ++ s) n := by
  intro pfx
  induction pfx with
  | nil =>
    intro n _ h
    simp [descend] at h
  | cons c p ih =>
    intro n hWF h s hcontra
    rw [descend] at h
    rw [List.cons_append] at hcontra
    obtain ⟨t, htm, hti⟩ := hcontra
    cases hf : n.children.find? (fun e => e.1 = c) with
    | none =>
      have h2 := List.find?_eq_none.mp hf (c, t) htm
      simp at h2
    | some e =>
      rw [hf] at h
      have he_mem := List.mem_of_find?_eq_some hf
      have he_key : e.1 = c := by
        have := List.find?_some hf
        simpa using this
      have hte : t = e.2 := by
        apply nodup_key_unique hWF.nodupKeys htm
        rw [← he_key]
        exact he_mem
      rw [hte] at hti
      exact ih e.2 (hWF.childWF e he_mem) h s hti

theorem descend_some : ∀ (pfx : JStr) (n m : TrieNode), TrieWF n →
    descend pfx n = some m →
    TrieWF m ∧ (∀ s, IsWordIn (pfx ++ s) n ↔ IsWordIn s m) := by
  intro pfx
  induction pfx with
  | nil =>
    intro n m hWF h
    simp only [descend, Option.some.injEq] at h
    subst h
    exact ⟨hWF, fun s => by simp⟩
  | cons c p ih =>
    intro n m hWF h
    rw [descend] at h
    cases hf : n.children.find? (fun e => e.1 = c) with
    | none =>
      rw [hf] at h
      cases h
    | some e =>
      rw [hf] at h
      have he_mem := List.mem_of_find?_eq_some hf
      have he_key : e.1 = c := by
        have := List.find?_some hf
        simpa using this
      have hWFe : TrieWF e.2 := hWF.childWF e he_mem
      obtain ⟨hm, hiff⟩ := ih e.2 m hWFe h
      refine ⟨hm, fun s => ?_⟩
      rw [List.cons_append]
      constructor
      · rintro ⟨t, htm, hti⟩
        have hte : t = e.2 := by
          apply nodup_key_unique hWF.nodupKeys htm
          rw [← he_key]
          exact he_mem
        rw [hte] at hti
        exact (hiff s).mp hti
      · intro hs
        refine ⟨e.2, ?_, (hiff s).mpr hs⟩
        rw [← he_key]
        exact he_mem

theorem buildTrie_props (ws : List JStr) :
    TrieWF (buildTrie ws) ∧ ∀ u, (IsWordIn u (buildTrie ws) ↔ u ∈ ws) := by
  unfold buildTrie
  have hgen : ∀ (l : List JStr) (t : TrieNode), TrieWF t →
      TrieWF (l.foldl (fun t w => insertW w t) t) ∧
      ∀ u, (IsWordIn u (l.foldl (fun t w => insertW w t) t) ↔ (u ∈ l ∨ IsWordIn u t)) := by
    intro l
    induction l with
    | nil =>
      intro t ht
      exact ⟨ht, fun u => by simp⟩
    | cons w rest ih =>
      intro t ht
      rw [List.foldl_cons]
      obtain ⟨h1, h2⟩ := ih (insertW w t) (insertW_WF w t ht)
      refine ⟨h1, fun u => ?_⟩
      rw [h2 u, IsWordIn_insertW]
      simp only [List.mem_cons]
      tauto
  have hempty : TrieWF (.mk false []) := TrieWF.mk false [] (by simp) (by simp)
  obtain ⟨h1, h2⟩ := hgen ws _ hempty
  refine ⟨h1, fun u => ?_⟩
  rw [h2 u]
  constructor
  · rintro (h | h)
    · exact h
    · exact absurd h (IsWordIn_empty u)
  · exact Or.inl

end PT

namespace PT

theorem child_sizeOf_le {b : Bool} {cs : List (Char × TrieNode)} {N : Nat}
    (hN : sizeOf (TrieNode.mk b cs) ≤ N + 1) :
    ∀ e ∈ cs, sizeOf e.2 ≤ N := by
  intro e he
  have h1 := List.sizeOf_lt_of_mem he
  obtain ⟨c, t⟩ := e
  simp only [Prod.mk.sizeOf_spec] at h1
  simp only [TrieNode.mk.sizeOf_spec] at hN
  show sizeOf t ≤ N
  omega

theorem mem_dfsAll : ∀ (N : Nat) (n : TrieNode), sizeOf n ≤ N → ∀ (p w : JStr),
    (w ∈ dfsAll [(n, p)] ↔ ∃ s, w = p ++ s ∧ IsWordIn s n) := by
  intro N
  induction N with
  | zero =>
    intro n h
    have := trieNode_sizeOf_pos n
    omega
  | succ N ih =>
    intro n hN p w
    cases n with
    | mk b cs =>
      have hsz := child_sizeOf_le hN
      have hperm : List.Perm (((TrieNode.mk b cs).children.insertionSort childDesc).reverse)
          (TrieNode.mk b cs).children :=
        (List.reverse_perm _).trans (List.perm_insertionSort _ _)
      rw [dfsAll_cons, List.append_nil, List.mem_append, mem_dfsAll_stack]
      constructor
      · rintro (hopt | ⟨en, hen, hwen⟩)
        · by_cases hw : (TrieNode.mk b cs).isWord = true
          · rw [if_pos hw] at hopt
            have hwp : w = p := List.mem_singleton.mp hopt
            refine ⟨[], by simp [hwp], ?_⟩
            simp only [IsWordIn]
            exact hw
          · rw [if_neg hw] at hopt
            simp at hopt
        · obtain ⟨e, hesort, rfl⟩ := List.mem_map.mp hen
          have he : e ∈ (TrieNode.mk b cs).children := hperm.mem_iff.mp hesort
          obtain ⟨s2, hws, hs2⟩ := (ih e.2 (hsz e he) (p ++ [e.1]) w).mp hwen
          refine ⟨e.1 :: s2, ?_, ?_⟩
          · rw [hws]
            simp
          · exact ⟨e.2, he, hs2⟩
      · rintro ⟨s, rfl, hs⟩
        cases s with
        | nil =>
          left
          simp only [IsWordIn] at hs
          rw [if_pos hs]
          simp
        | cons c s2 =>
          right
          obtain ⟨t, htm, hti⟩ := hs
          refine ⟨(t, p ++ [c]), ?_, ?_⟩
          · exact List.mem_map.mpr ⟨(c, t), hperm.mem_iff.mpr htm, rfl⟩
          · rw [ih t (hsz (c, t) htm) (p ++ [c]) (p ++ c :: s2)]
            exact ⟨s2, by simp, hti⟩

theorem sorted_dfsAll : ∀ (N : Nat) (n : TrieNode), sizeOf n ≤ N → TrieWF n →
    ∀ p, List.Pairwise wordLt (dfsAll [(n, p)]) := by
  intro N
  induction N with
  | zero =>
    intro n h
    have := trieNode_sizeOf_pos n
    omega
  | succ N ih =>
    intro n hN hWF p
    cases n with
    | mk b cs =>
      have hsz := child_sizeOf_le hN
      have hperm : List.Perm (((TrieNode.mk b cs).children.insertionSort childDesc).reverse)
          (TrieNode.mk b cs).children :=
        (List.reverse_perm _).trans (List.perm_insertionSort _ _)
      have hle : (((TrieNode.mk b cs).children.insertionSort childDesc).reverse).Pairwise
          (fun a b : Char × TrieNode => a.1 ≤ b.1) := by
        rw [List.pairwise_reverse]
        exact List.sorted_insertionSort childDesc _
      have hndmap : ((((TrieNode.mk b cs).children.insertionSort childDesc).reverse).map
          Prod.fst).Nodup :=
        (hperm.map Prod.fst).nodup_iff.mpr hWF.nodupKeys
      have hne : (((TrieNode.mk b cs).children.insertionSort childDesc).reverse).Pairwise
          (fun a b : Char × TrieNode => a.1 ≠ b.1) :=
        List.pairwise_map.mp hndmap
      have hkeys : (((TrieNode.mk b cs).children.insertionSort childDesc).reverse).Pairwise
          (fun a b : Char × TrieNode => a.1 < b.1) :=
        List.Pairwise.imp (fun h => lt_of_le_of_ne h.1 h.2) (hle.and hne)
      rw [dfsAll_cons, List.append_nil, List.pairwise_append]
      refine ⟨?_, ?_, ?_⟩
      · split <;> simp
      · have hsub : ∀ (L : List (Char × TrieNode)),
            (∀ e ∈ L, e ∈ (TrieNode.mk b cs).children) →
            List.Pairwise (fun a b : Char × TrieNode => a.1 < b.1) L →
            List.Pairwise wordLt (dfsAll (L.map (fun e => (e.2, p ++ [e.1])))) := by
          intro L
          induction L with
          | nil =>
            intro _ _
            rw [List.map_nil, dfsAll_nil]
            exact List.Pairwise.nil
          | cons e L2 ihL =>
            intro hmem hpw
            rw [List.map_cons, dfsAll_cons_eq, List.pairwise_append]
            rw [List.pairwise_cons] at hpw
            refine ⟨?_, ?_, ?_⟩
            · exact ih e.2 (hsz e (hmem e (List.mem_cons_self _ _)))
                (hWF.childWF e (hmem e (List.mem_cons_self _ _))) (p ++ [e.1])
            · exact ihL (fun x hx => hmem x (List.mem_cons_of_mem _ hx)) hpw.2
            · intro w1 hw1 w2 hw2
              obtain ⟨s1, rfl, hs1w⟩ := (mem_dfsAll N e.2
                (hsz e (hmem e (List.mem_cons_self _ _))) (p ++ [e.1]) w1).mp hw1
              obtain ⟨en, hen, hwen⟩ := (mem_dfsAll_stack _ w2).mp hw2
              obtain ⟨e2, he2, rfl⟩ := List.mem_map.mp hen
              obtain ⟨s2, rfl, hs2w⟩ := (mem_dfsAll N e2.2
                (hsz e2 (hmem e2 (List.mem_cons_of_mem _ he2))) (p ++ [e2.1]) _).mp hwen
              have hlt : e.1 < e2.1 := hpw.1 e2 he2
              have h1 : (p ++ [e.1]) ++ s1 = p ++ e.1 :: s1 := by simp
              have h2 : (p ++ [e2.1]) ++ s2 = p ++ e2.1 :: s2 := by simp
              rw [h1, h2]
              exact wordLt_append_lt p hlt s1 s2
        exact hsub _ (fun e he => hperm.mem_iff.mp he) hkeys
      · intro w1 hw1 w2 hw2
        have hw1p : w1 = p := by
          by_cases hw : (TrieNode.mk b cs).isWord = true
          · rw [if_pos hw] at hw1
            exact List.mem_singleton.mp hw1
          · rw [if_neg hw] at hw1
            simp at hw1
        rw [hw1p]
        obtain ⟨en, hen, hwen⟩ := (mem_dfsAll_stack _ w2).mp hw2
        obtain ⟨e2, he2, rfl⟩ := List.mem_map.mp hen
        obtain ⟨s2, rfl, hs2w⟩ := (mem_dfsAll N e2.2 (hsz e2 (hperm.mem_iff.mp he2))
          (p ++ [e2.1]) _).mp hwen
        have h2 : (p ++ [e2.1]) ++ s2 = p ++ e2.1 :: s2 := by simp
        rw [h2]
        exact wordLt_append_cons p e2.1 s2

end PT

/-- C4: collect on a trie built by any sequence of inserts returns only
inserted words that start with the given prefix string, in strictly
ascending lexicographic (code point) order, with at most limit entries;
when no inserted word extends the prefix the result is empty. -/
theorem claim_C4_collect (ws : List JStr) (pfx : JStr) (limit : Nat) :
    (∀ w ∈ PT.collect (PT.buildTrie ws) pfx limit,
       w ∈ ws ∧ ∃ s, w = pfx ++ s) ∧
    List.Pairwise PT.wordLt (PT.collect (PT.buildTrie ws) pfx limit) ∧
    (PT.collect (PT.buildTrie ws) pfx limit).length ≤ limit ∧
    ((∀ w ∈ ws, ∀ s, w ≠ pfx ++ s) → PT.collect (PT.buildTrie ws) pfx limit = []) := by
  obtain ⟨hWF, hmemT⟩ := PT.buildTrie_props ws
  cases hd : PT.descend pfx (PT.buildTrie ws) with
  | none =>
    have hcc : PT.collect (PT.buildTrie ws) pfx limit = [] := by
      unfold PT.collect
      rw [hd]
    rw [hcc]
    refine ⟨?_, ?_, ?_, ?_⟩
    · intro w hw
      simp at hw
    · exact List.Pairwise.nil
    · simp
    · intro _
      rfl
  | some n =>
    obtain ⟨hWFn, hiff⟩ := PT.descend_some pfx _ n hWF hd
    have hloop := PT.collectLoop_dfs ((([(n, pfx)] : List (PT.TrieNode × JStr)).map
      (fun e => sizeOf e.1)).sum) limit [(n, pfx)] [] le_rfl
    have hcc : PT.collect (PT.buildTrie ws) pfx limit =
        (PT.dfsAll [(n, pfx)]).take limit := by
      unfold PT.collect
      rw [hd]
      show PT.collectLoop limit [(n, pfx)] [] = (PT.dfsAll [(n, pfx)]).take limit
      rw [hloop]
      simp
    rw [hcc]
    have hsound : ∀ w ∈ (PT.dfsAll [(n, pfx)]).take limit, w ∈ ws ∧ ∃ s, w = pfx ++ s := by
      intro w hw
      have hw2 := List.take_subset _ _ hw
      obtain ⟨s, rfl, hsi⟩ := (PT.mem_dfsAll (sizeOf n) n le_rfl pfx _).mp hw2
      have hword : PT.IsWordIn (pfx ++ s) (PT.buildTrie ws) := (hiff s).mpr hsi
      exact ⟨(hmemT _).mp hword, s, rfl⟩
    refine ⟨hsound, ?_, ?_, ?_⟩
    · exact List.Pairwise.sublist (List.take_sublist _ _)
        (PT.sorted_dfsAll (sizeOf n) n le_rfl hWFn pfx)
    · exact List.length_take_le _ _
    · intro hnone
      cases hres2 : (PT.dfsAll [(n, pfx)]).take limit with
      | nil => rfl
      | cons w rest =>
        have hw : w ∈ (PT.dfsAll [(n, pfx)]).take limit := by
          rw [hres2]
          simp
        obtain ⟨hmem, s, hws⟩ := hsound w hw
        exact absurd hws (hnone w hmem s)

/-! ### BK-tree (approximate string matching)

Shallow embedding of bk-tree.js, parameterised by the distance function
(a natural-valued metric; the default Levenshtein distance is one): a
node is a term plus a children map keyed by exact distance. -/

namespace BK

inductive BKNode where
  | mk : JStr → List (Nat × BKNode) → BKNode

def BKNode.term : BKNode → JStr
  | .mk t _ => t

def BKNode.children : BKNode → List (Nat × BKNode)
  | .mk _ cs => cs

mutual

/-- All terms stored in a subtree, root first. -/
def termsOf : BKNode → List JStr
  | .mk t cs => t :: termsOfList cs

def termsOfList : List (Nat × BKNode) → List JStr
  | [] => []
  | e :: rest => termsOf e.2 ++ termsOfList rest

end

mutual

/-- BKTree.insert descent: at each node compute the distance; stop on 0
(term already present), descend into the child at that exact distance,
or create a new leaf child keyed by the distance. -/
def insertGo (d : JStr → JStr → Nat) (term : JStr) : BKNode → BKNode
  | .mk t cs =>
    if d term t = 0 then .mk t cs
    else if d term t ∈ cs.map Prod.fst then
      .mk t (insertChildren d term (d term t) cs)
    else
      .mk t (cs ++ [(d term t, .mk term [])])

def insertChildren (d : JStr → JStr → Nat) (term : JStr) (dist : Nat) :
    List (Nat × BKNode) → List (Nat × BKNode)
  | [] => []
  | e :: rest =>
    (if e.1 = dist then (e.1, insertGo d term e.2) else e) :: insertChildren d term dist rest

end

/-- BKTree.insert: a falsy (empty) term is skipped; an empty tree gets
the term as its root. -/
def insertT (d : JStr → JStr → Nat) (tree : Option BKNode) (term : JStr) : Option BKNode :=
  if term = [] then tree
  else
    match tree with
    | none => some (.mk term [])
    | some root => some (insertGo d term root)

/-- A tree built from a fresh BKTree by inserting the given terms. -/
def buildBK (d : JStr → JStr → Nat) (ts : List JStr) : Option BKNode :=
  ts.foldl (insertT d) none

/-- BK-tree well-formedness: distinct edge keys (a JS Map), and under
the edge at distance k every stored term is at distance exactly k from
the node's term — the invariant insertion maintains. -/
inductive BKWF (d : JStr → JStr → Nat) : BKNode → Prop where
  | mk : ∀ (t : JStr) (cs : List (Nat × BKNode)),
      (cs.map Prod.fst).Nodup →
      (∀ e ∈ cs, ∀ u ∈ termsOf e.2, d u t = e.1) →
      (∀ e ∈ cs, BKWF d e.2) →
      BKWF d (.mk t cs)

theorem BKWF.keysNodup {d : JStr → JStr → Nat} {n : BKNode} (h : BKWF d n) :
    (n.children.map Prod.fst).Nodup := by
  cases h
  exact (by assumption)

theorem BKWF.edgeDist {d : JStr → JStr → Nat} {n : BKNode} (h : BKWF d n) :
    ∀ e ∈ n.children, ∀ u ∈ termsOf e.2, d u n.term = e.1 := by
  cases h
  exact (by assumption)

theorem BKWF.subWF {d : JStr → JStr → Nat} {n : BKNode} (h : BKWF d n) :
    ∀ e ∈ n.children, BKWF d e.2 := by
  cases h
  exact (by assumption)

theorem bkNode_sizeOf_pos (n : BKNode) : 1 ≤ sizeOf n := by
  cases n with
  | mk t cs =>
    simp only [BKNode.mk.sizeOf_spec]
    omega

theorem bk_children_sum_lt (t : JStr) (cs : List (Nat × BKNode)) :
    (cs.map (fun e => sizeOf e.2)).sum < sizeOf (BKNode.mk t cs) := by
  have h : (cs.map (fun e => sizeOf e.2)).sum < sizeOf cs := by
    induction cs with
    | nil => simp
    | cons e l ih =>
      cases e with
      | mk k u =>
        simp only [List.map_cons, List.sum_cons, List.cons.sizeOf_spec, Prod.mk.sizeOf_spec]
        omega
  simp only [BKNode.mk.sizeOf_spec]
  omega

theorem bk_filter_sum_le (cs : List (Nat × BKNode)) (p : Nat × BKNode → Bool) :
    ((cs.filter p).map (fun e => sizeOf e.2)).sum ≤ (cs.map (fun e => sizeOf e.2)).sum := by
  induction cs with
  | nil => simp
  | cons e l ih =>
    rw [List.filter_cons]
    by_cases hp : p e = true
    · rw [if_pos hp]
      simp only [List.map_cons, List.sum_cons]
      omega
    · rw [if_neg hp]
      simp only [List.map_cons, List.sum_cons]
      omega

theorem bk_stack_step_lt (n : BKNode) (p : Nat × BKNode → Bool) :
    ((((n.children.filter p).map (fun e => e.2)).reverse).map sizeOf).sum < sizeOf n := by
  have hperm : List.Perm (((n.children.filter p).map (fun e => e.2)).reverse)
      ((n.children.filter p).map (fun e => e.2)) := List.reverse_perm _
  rw [(hperm.map sizeOf).sum_eq, List.map_map]
  have h1 : ((n.children.filter p).map (sizeOf ∘ fun e => e.2)).sum =
      ((n.children.filter p).map (fun e => sizeOf e.2)).sum := rfl
  rw [h1]
  have h2 := bk_filter_sum_le n.children p
  have h3 := bk_children_sum_lt n.term n.children
  have h4 : BKNode.mk n.term n.children = n := by
    cases n
    rfl
  rw [h4] at h3
  omega

/-- BKTree.search DFS loop: pop a node, record its term when within the
threshold, push the children whose edge distance lies in
[dist − maxDistance, dist + maxDistance]. -/
def searchGo (d : JStr → JStr → Nat) (q : JStr) (maxD : Nat) :
    List BKNode → List (JStr × Nat) → List (JStr × Nat)
  | [], results => results
  | node :: rest, results =>
    searchGo d q maxD
      (((((node.children.filter
            (fun e => d q node.term - maxD ≤ e.1 ∧ e.1 ≤ d q node.term + maxD)).map
          (fun e => e.2)).reverse)) ++ rest)
      (if d q node.term ≤ maxD then results ++ [(node.term, d q node.term)] else results)
termination_by st _ => (st.map sizeOf).sum
decreasing_by
  simp only [List.map_append, List.sum_append, List.map_cons, List.sum_cons]
  have h := bk_stack_step_lt node
    (fun e => decide (d q node.term - maxD ≤ e.1 ∧ e.1 ≤ d q node.term + maxD))
  omega

/-- BKTree.search: empty tree or negative threshold yields []; the JS
number maxDistance is an integer here, non-negative thresholds continue
as naturals. -/
def searchT (d : JStr → JStr → Nat) (tree : Option BKNode) (q : JStr) (maxD : Int) :
    List (JStr × Nat) :=
  match tree with
  | none => []
  | some root => if maxD < 0 then [] else searchGo d q maxD.toNat [root] []

/-- All terms of an optional tree. -/
def optTerms : Option BKNode → List JStr
  | none => []
  | some n => termsOf n

end BK

namespace BK

theorem termsOf_mk (t : JStr) (cs : List (Nat × BKNode)) :
    termsOf (.mk t cs) = t :: termsOfList cs := by
  rw [termsOf]

theorem mem_termsOfList (cs : List (Nat × BKNode)) (u : JStr) :
    u ∈ termsOfList cs ↔ ∃ e ∈ cs, u ∈ termsOf e.2 := by
  induction cs with
  | nil =>
    rw [termsOfList]
    simp
  | cons e rest ih =>
    rw [termsOfList, List.mem_append, ih]
    constructor
    · rintro (h | ⟨e2, he2, hu⟩)
      · exact ⟨e, List.mem_cons_self _ _, h⟩
      · exact ⟨e2, List.mem_cons_of_mem _ he2, hu⟩
    · rintro ⟨e2, he2, hu⟩
      rcases List.mem_cons.mp he2 with rfl | h2
      · exact Or.inl hu
      · exact Or.inr ⟨e2, h2, hu⟩

theorem termsOfList_append (l1 l2 : List (Nat × BKNode)) :
    termsOfList (l1 ++ l2) = termsOfList l1 ++ termsOfList l2 := by
  induction l1 with
  | nil =>
    rw [termsOfList]
    simp
  | cons e rest ih =>
    rw [List.cons_append, termsOfList, termsOfList, ih, List.append_assoc]

theorem term_mem_termsOf (n : BKNode) : n.term ∈ termsOf n := by
  cases n with
  | mk t cs =>
    rw [termsOf_mk]
    exact List.mem_cons_self _ _

theorem insertChildren_eq_map (d : JStr → JStr → Nat) (term : JStr) (dist : Nat) :
    ∀ cs : List (Nat × BKNode),
    insertChildren d term dist cs =
      cs.map (fun e => if e.1 = dist then (e.1, insertGo d term e.2) else e) := by
  intro cs
  induction cs with
  | nil => rw [insertChildren, List.map_nil]
  | cons e rest ih =>
    rw [insertChildren, List.map_cons, ih]

theorem bk_child_sizeOf_le {t : JStr} {cs : List (Nat × BKNode)} {N : Nat}
    (hN : sizeOf (BKNode.mk t cs) ≤ N + 1) :
    ∀ e ∈ cs, sizeOf e.2 ≤ N := by
  intro e he
  have h1 := List.sizeOf_lt_of_mem he
  obtain ⟨k, u⟩ := e
  simp only [Prod.mk.sizeOf_spec] at h1
  simp only [BKNode.mk.sizeOf_spec] at hN
  show sizeOf u ≤ N
  omega

/-- Inserting a term preserves the BK invariant and adds exactly that
term to the stored set (when the distance hits 0 the term is already
stored, by the separation property of the metric). -/
theorem insert_props (d : JStr → JStr → Nat) (hsep : ∀ x y, d x y = 0 → x = y)
    (term : JStr) :
    ∀ (N : Nat) (n : BKNode), sizeOf n ≤ N → BKWF d n →
    BKWF d (insertGo d term n) ∧
    (∀ u, u ∈ termsOf (insertGo d term n) ↔ (u = term ∨ u ∈ termsOf n)) := by
  intro N
  induction N with
  | zero =>
    intro n h
    have := bkNode_sizeOf_pos n
    omega
  | succ N ih =>
    intro n hN hWF
    cases n with
    | mk t cs =>
      have hsz := bk_child_sizeOf_le hN
      have hnd : (cs.map Prod.fst).Nodup := hWF.keysNodup
      have hedge := hWF.edgeDist
      have hch := hWF.subWF
      rw [insertGo]
      by_cases h0 : d term t = 0
      · rw [if_pos h0]
        have hterm : term = t := hsep term t h0
        refine ⟨hWF, fun u => ?_⟩
        constructor
        · exact Or.inr
        · rintro (rfl | h)
          · rw [hterm, termsOf_mk]
            exact List.mem_cons_self _ _
          · exact h
      · rw [if_neg h0]
        by_cases hmem : d term t ∈ cs.map Prod.fst
        · rw [if_pos hmem, insertChildren_eq_map]
          have hupd : ∀ e ∈ cs, e.1 = d term t →
              BKWF d (insertGo d term e.2) ∧
              (∀ u, u ∈ termsOf (insertGo d term e.2) ↔ (u = term ∨ u ∈ termsOf e.2)) :=
            fun e he _ => ih e.2 (hsz e he) (hch e he)
          constructor
          · refine BKWF.mk t _ ?_ ?_ ?_
            · have hkeys : (cs.map (fun e => if e.1 = d term t then
                  (e.1, insertGo d term e.2) else e)).map Prod.fst = cs.map Prod.fst := by
                rw [List.map_map]
                apply List.map_congr_left
                intro e he
                by_cases h2 : e.1 = d term t <;> simp [h2]
              rw [hkeys]
              exact hnd
            · intro e2 he2 u hu
              obtain ⟨e, he, hfe⟩ := List.mem_map.mp he2
              by_cases h2 : e.1 = d term t
              · rw [if_pos h2] at hfe
                rw [← hfe] at hu ⊢
                rcases ((hupd e he h2).2 u).mp hu with rfl | hold
                · show d u t = e.1
                  rw [h2]
                · show d u t = e.1
                  exact hedge e he u hold
              · rw [if_neg h2] at hfe
                rw [← hfe] at hu ⊢
                exact hedge e he u hu
            · intro e2 he2
              obtain ⟨e, he, hfe⟩ := List.mem_map.mp he2
              by_cases h2 : e.1 = d term t
              · rw [if_pos h2] at hfe
                rw [← hfe]
                exact (hupd e he h2).1
              · rw [if_neg h2] at hfe
                rw [← hfe]
                exact hch e he
          · intro u
            rw [termsOf_mk, termsOf_mk, List.mem_cons, List.mem_cons,
              mem_termsOfList, mem_termsOfList]
            constructor
            · rintro (rfl | ⟨e2, he2, hu⟩)
              · exact Or.inr (Or.inl rfl)
              · obtain ⟨e, he, hfe⟩ := List.mem_map.mp he2
                by_cases h2 : e.1 = d term t
                · rw [if_pos h2] at hfe
                  rw [← hfe] at hu
                  rcases ((hupd e he h2).2 u).mp hu with rfl | hold
                  · exact Or.inl rfl
                  · exact Or.inr (Or.inr ⟨e, he, hold⟩)
                · rw [if_neg h2] at hfe
                  rw [← hfe] at hu
                  exact Or.inr (Or.inr ⟨e, he, hu⟩)
            · rintro (rfl | rfl | ⟨e, he, hu⟩)
              · obtain ⟨e, he, hek⟩ : ∃ e ∈ cs, e.1 = d u t := by
                  obtain ⟨e, he, hek⟩ := List.mem_map.mp hmem
                  exact ⟨e, he, hek⟩
                refine Or.inr ⟨(e.1, insertGo d u e.2), ?_, ?_⟩
                · apply List.mem_map.mpr
                  exact ⟨e, he, by rw [if_pos hek]⟩
                · exact ((hupd e he hek).2 u).mpr (Or.inl rfl)
              · exact Or.inl rfl
              · by_cases h2 : e.1 = d term t
                · refine Or.inr ⟨(e.1, insertGo d term e.2), ?_, ?_⟩
                  · exact List.mem_map.mpr ⟨e, he, by rw [if_pos h2]⟩
                  · exact ((hupd e he h2).2 u).mpr (Or.inr hu)
                · refine Or.inr ⟨e, ?_, hu⟩
                  exact List.mem_map.mpr ⟨e, he, by rw [if_neg h2]⟩
        · rw [if_neg hmem]
          constructor
          · refine BKWF.mk t _ ?_ ?_ ?_
            · rw [List.map_append]
              exact (List.perm_append_singleton _ _).nodup_iff.mpr
                (List.nodup_cons.mpr ⟨hmem, hnd⟩)
            · intro e2 he2 u hu
              rcases List.mem_append.mp he2 with hold | hnew
              · exact hedge e2 hold u hu
              · rw [List.mem_singleton.mp hnew] at hu ⊢
                rw [termsOf_mk] at hu
                rcases List.mem_cons.mp hu with rfl | h2
                · rfl
                · rw [termsOfList] at h2
                  simp at h2
            · intro e2 he2
              rcases List.mem_append.mp he2 with hold | hnew
              · exact hch e2 hold
              · rw [List.mem_singleton.mp hnew]
                exact BKWF.mk term [] (by simp) (by simp) (by simp)
          · intro u
            rw [termsOf_mk, termsOf_mk, List.mem_cons, List.mem_cons,
              termsOfList_append, List.mem_append, termsOfList, termsOfList,
              termsOf_mk, termsOfList]
            simp only [List.append_nil, List.mem_singleton, List.mem_cons,
              List.not_mem_nil, or_false]
            tauto

end BK

namespace BK

theorem searchGo_nil (d : JStr → JStr → Nat) (q : JStr) (maxD : Nat)
    (res : List (JStr × Nat)) : searchGo d q maxD [] res = res := by
  rw [searchGo]

theorem searchGo_cons (d : JStr → JStr → Nat) (q : JStr) (maxD : Nat) (node : BKNode)
    (rest : List BKNode) (res : List (JStr × Nat)) :
    searchGo d q maxD (node :: rest) res =
      searchGo d q maxD
        ((((node.children.filter
              (fun e => d q node.term - maxD ≤ e.1 ∧ e.1 ≤ d q node.term + maxD)).map
            (fun e => e.2)).reverse) ++ rest)
        (if d q node.term ≤ maxD then res ++ [(node.term, d q node.term)] else res) := by
  rw [searchGo]

/-- Full characterisation of the search loop: an entry is returned iff
it was already collected or is a term of some stacked subtree at
distance at most the threshold; pruned edges cannot hold such terms by
the BK invariant with the triangle inequality and symmetry. -/
theorem searchGo_spec (d : JStr → JStr → Nat) (q : JStr) (maxD : Nat)
    (htri : ∀ x y z, d x z ≤ d x y + d y z) (hsym : ∀ x y, d x y = d y x) :
    ∀ (N : Nat) (st : List BKNode) (res : List (JStr × Nat)),
    (st.map sizeOf).sum ≤ N → (∀ n ∈ st, BKWF d n) →
    ∀ e, e ∈ searchGo d q maxD st res ↔
      (e ∈ res ∨ ∃ n ∈ st, e.1 ∈ termsOf n ∧ e.2 = d q e.1 ∧ e.2 ≤ maxD) := by
  intro N
  induction N with
  | zero =>
    intro st res h hWFs e
    have h0 : st = [] := by
      cases st with
      | nil => rfl
      | cons n rest =>
        simp only [List.map_cons, List.sum_cons] at h
        have := bkNode_sizeOf_pos n
        omega
    subst h0
    rw [searchGo_nil]
    simp
  | succ N ih =>
    intro st res h hWFs e
    cases st with
    | nil =>
      rw [searchGo_nil]
      simp
    | cons node rest =>
      have hWFn : BKWF d node := hWFs node (List.mem_cons_self _ _)
      rw [searchGo_cons]
      have hb : (((((node.children.filter
            (fun e => d q node.term - maxD ≤ e.1 ∧ e.1 ≤ d q node.term + maxD)).map
          (fun e => e.2)).reverse) ++ rest).map sizeOf).sum ≤ N := by
        simp only [List.map_cons, List.sum_cons] at h
        simp only [List.map_append, List.sum_append]
        have h1 := bk_stack_step_lt node
          (fun e => decide (d q node.term - maxD ≤ e.1 ∧ e.1 ≤ d q node.term + maxD))
        omega
      have hWF2 : ∀ n2 ∈ ((((node.children.filter
            (fun e => d q node.term - maxD ≤ e.1 ∧ e.1 ≤ d q node.term + maxD)).map
          (fun e => e.2)).reverse) ++ rest), BKWF d n2 := by
        intro n2 hn2
        rcases List.mem_append.mp hn2 with hfil | hrest
        · rw [List.mem_reverse] at hfil
          obtain ⟨e2, he2, rfl⟩ := List.mem_map.mp hfil
          exact hWFn.subWF e2 (List.mem_of_mem_filter he2)
        · exact hWFs n2 (List.mem_cons_of_mem _ hrest)
      rw [ih _ _ hb hWF2 e]
      constructor
      · rintro (hres2 | ⟨n2, hn2, hterm, hdist, hle⟩)
        · by_cases hd0 : d q node.term ≤ maxD
          · rw [if_pos hd0] at hres2
            rcases List.mem_append.mp hres2 with h1 | h1
            · exact Or.inl h1
            · have he : e = (node.term, d q node.term) := List.mem_singleton.mp h1
              refine Or.inr ⟨node, List.mem_cons_self _ _, ?_, ?_, ?_⟩
              · rw [he]
                exact term_mem_termsOf node
              · rw [he]
              · rw [he]
                exact hd0
          · rw [if_neg hd0] at hres2
            exact Or.inl hres2
        · rcases List.mem_append.mp hn2 with hfil | hrest
          · rw [List.mem_reverse] at hfil
            obtain ⟨e2, he2, rfl⟩ := List.mem_map.mp hfil
            have he2c : e2 ∈ node.children := List.mem_of_mem_filter he2
            refine Or.inr ⟨node, List.mem_cons_self _ _, ?_, hdist, hle⟩
            cases node with
            | mk t cs =>
              rw [termsOf_mk]
              exact List.mem_cons_of_mem _ ((mem_termsOfList cs e.1).mpr ⟨e2, he2c, hterm⟩)
          · exact Or.inr ⟨n2, List.mem_cons_of_mem _ hrest, hterm, hdist, hle⟩
      · rintro (hres | ⟨n2, hn2, hterm, hdist, hle⟩)
        · left
          by_cases hd0 : d q node.term ≤ maxD
          · rw [if_pos hd0]
            exact List.mem_append.mpr (Or.inl hres)
          · rw [if_neg hd0]
            exact hres
        · rcases List.mem_cons.mp hn2 with heq | hrest
          · rw [heq] at hterm
            cases node with
            | mk t cs =>
              rw [termsOf_mk] at hterm
              rcases List.mem_cons.mp hterm with h1 | h1
              · left
                have hle2 : d q (BKNode.mk t cs).term ≤ maxD := by
                  show d q t ≤ maxD
                  rw [← h1, ← hdist]
                  exact hle
                rw [if_pos hle2]
                refine List.mem_append.mpr (Or.inr (List.mem_singleton.mpr ?_))
                apply Prod.ext_iff.mpr
                refine ⟨h1, ?_⟩
                show e.2 = d q t
                rw [hdist, h1]
              · obtain ⟨e2, he2, hu⟩ := (mem_termsOfList cs e.1).mp h1
                have hd_ut : d e.1 t = e2.1 := hWFn.edgeDist e2 he2 e.1 hu
                have hA := htri e.1 q t
                have hB := htri q e.1 t
                have hC := hsym e.1 q
                have hD : d q e.1 ≤ maxD := by
                  rw [← hdist]
                  exact hle
                have hkeep : d q (BKNode.mk t cs).term - maxD ≤ e2.1 ∧
                    e2.1 ≤ d q (BKNode.mk t cs).term + maxD := by
                  show d q t - maxD ≤ e2.1 ∧ e2.1 ≤ d q t + maxD
                  omega
                right
                refine ⟨e2.2, ?_, hu, hdist, hle⟩
                refine List.mem_append.mpr (Or.inl ?_)
                rw [List.mem_reverse]
                refine List.mem_map.mpr ⟨e2, List.mem_filter.mpr ⟨he2, ?_⟩, rfl⟩
                simpa using hkeep
          · right
            exact ⟨n2, List.mem_append.mpr (Or.inr hrest), hterm, hdist, hle⟩

/-- Well-formedness of an optional tree root. -/
def optWF (d : JStr → JStr → Nat) : Option BKNode → Prop
  | none => True
  | some n => BKWF d n

theorem buildBK_props (d : JStr → JStr → Nat) (hsep : ∀ x y, d x y = 0 → x = y)
    (ts : List JStr) :
    optWF d (buildBK d ts) ∧ (∀ u, u ∈ optTerms (buildBK d ts) ↔ (u ∈ ts ∧ u ≠ [])) := by
  have hgen : ∀ (l : List JStr) (acc : Option BKNode), optWF d acc →
      optWF d (l.foldl (insertT d) acc) ∧
      (∀ u, u ∈ optTerms (l.foldl (insertT d) acc) ↔
        ((u ∈ l ∧ u ≠ []) ∨ u ∈ optTerms acc)) := by
    intro l
    induction l with
    | nil =>
      intro acc h
      refine ⟨h, fun u => ?_⟩
      simp
    | cons w restl ihl =>
      intro acc hacc
      rw [List.foldl_cons]
      have hstep : optWF d (insertT d acc w) ∧
          (∀ u, u ∈ optTerms (insertT d acc w) ↔ ((u = w ∧ w ≠ []) ∨ u ∈ optTerms acc)) := by
        unfold insertT
        by_cases hw : w = []
        · rw [if_pos hw]
          refine ⟨hacc, fun u => ?_⟩
          constructor
          · exact Or.inr
          · rintro (⟨rfl, hne⟩ | h)
            · exact absurd hw hne
            · exact h
        · rw [if_neg hw]
          cases acc with
          | none =>
            constructor
            · exact BKWF.mk w [] (by simp) (by simp) (by simp)
            · intro u
              show u ∈ termsOf (.mk w []) ↔ _
              rw [termsOf_mk, termsOfList]
              constructor
              · intro h
                have : u = w := by simpa using h
                exact Or.inl ⟨this, hw⟩
              · rintro (⟨rfl, _⟩ | h)
                · exact List.mem_cons_self _ _
                · simp [optTerms] at h
          | some root =>
            have hroot : BKWF d root := hacc
            obtain ⟨h1, h2⟩ := insert_props d hsep w (sizeOf root) root le_rfl hroot
            refine ⟨h1, fun u => ?_⟩
            show u ∈ termsOf (insertGo d w root) ↔ _
            rw [h2 u]
            constructor
            · rintro (rfl | h)
              · exact Or.inl ⟨rfl, hw⟩
              · exact Or.inr h
            · rintro (⟨rfl, _⟩ | h)
              · exact Or.inl rfl
              · exact Or.inr h
      obtain ⟨hs1, hs2⟩ := hstep
      obtain ⟨hf1, hf2⟩ := ihl (insertT d acc w) hs1
      refine ⟨hf1, fun u => ?_⟩
      rw [hf2 u, hs2 u]
      simp only [List.mem_cons]
      constructor
      · rintro (⟨hm, hne⟩ | ⟨⟨rfl, hwne⟩ | hacc2⟩)
        · exact Or.inl ⟨Or.inr hm, hne⟩
        · exact Or.inl ⟨Or.inl rfl, hwne⟩
        · exact Or.inr hacc2
      · rintro (⟨hm | hm, hne⟩ | hacc2)
        · exact Or.inr (Or.inl ⟨hm, fun hcon => hne (hm.trans hcon)⟩)
        · exact Or.inl ⟨hm, hne⟩
        · exact Or.inr (Or.inr hacc2)
  have h0 : optWF d (none : Option BKNode) := trivial
  obtain ⟨h1, h2⟩ := hgen ts none h0
  refine ⟨h1, fun u => ?_⟩
  show u ∈ optTerms (ts.foldl (insertT d) none) ↔ _
  rw [h2 u]
  simp [optTerms]

end BK

/-- C3: for a BK-tree built by any insert sequence with a metric (the
triangle inequality, symmetry and separation hold for the default
Levenshtein distance), search returns entries whose term is an inserted
term paired with its true distance to the query, all within the
threshold; an empty tree or a negative threshold yields []; and for a
non-negative threshold the returned term set is exactly what a
brute-force scan of the inserted (non-empty, per the falsy-term insert
guard) terms with the same distance function finds. -/
theorem claim_C3_bk_search (d : JStr → JStr → Nat)
    (htri : ∀ x y z, d x z ≤ d x y + d y z)
    (hsym : ∀ x y, d x y = d y x)
    (hsep : ∀ x y, d x y = 0 → x = y)
    (ts : List JStr) (q : JStr) (maxD : Int) :
    (∀ e ∈ BK.searchT d (BK.buildBK d ts) q maxD,
       e.1 ∈ ts ∧ e.2 = d q e.1 ∧ (e.2 : Int) ≤ maxD) ∧
    BK.searchT d none q maxD = [] ∧
    (maxD < 0 → BK.searchT d (BK.buildBK d ts) q maxD = []) ∧
    (0 ≤ maxD → ∀ u, ((u, d q u) ∈ BK.searchT d (BK.buildBK d ts) q maxD ↔
       u ∈ ts.filter (fun t => ¬t = [] ∧ d q t ≤ maxD.toNat))) := by
  obtain ⟨hWFo, hterms⟩ := BK.buildBK_props d hsep ts
  cases hbt : BK.buildBK d ts with
  | none =>
    rw [hbt] at hterms
    have hempty : ∀ mx : Int, BK.searchT d none q mx = [] := fun _ => rfl
    refine ⟨?_, hempty maxD, fun _ => hempty maxD, ?_⟩
    · intro e he
      rw [hempty maxD] at he
      simp at he
    · intro h0 u
      rw [hempty maxD]
      constructor
      · intro h
        simp at h
      · intro h
        have h2 := List.mem_filter.mp h
        have h3 : u ∈ BK.optTerms none := (hterms u).mpr
          ⟨h2.1, by simpa using (of_decide_eq_true h2.2).1⟩
        simp [BK.optTerms] at h3
  | some root =>
    rw [hbt] at hterms hWFo
    have hWF : BK.BKWF d root := hWFo
    by_cases hneg : maxD < 0
    · have hres : BK.searchT d (some root) q maxD = [] := by
        show (if maxD < 0 then [] else BK.searchGo d q maxD.toNat [root] []) = []
        rw [if_pos hneg]
      refine ⟨?_, rfl, fun _ => hres, ?_⟩
      · intro e he
        rw [hres] at he
        simp at he
      · intro h0
        omega
    · have hres : BK.searchT d (some root) q maxD =
          BK.searchGo d q maxD.toNat [root] [] := by
        show (if maxD < 0 then [] else BK.searchGo d q maxD.toNat [root] []) = _
        rw [if_neg hneg]
      have hspec := BK.searchGo_spec d q maxD.toNat htri hsym
        (([root].map sizeOf).sum) [root] [] le_rfl
        (fun n hn => by
          rw [List.mem_singleton.mp hn]
          exact hWF)
      have hmem : ∀ e, e ∈ BK.searchT d (some root) q maxD ↔
          (e.1 ∈ BK.termsOf root ∧ e.2 = d q e.1 ∧ e.2 ≤ maxD.toNat) := by
        intro e
        rw [hres, hspec e]
        constructor
        · rintro (h | ⟨n, hn, hp⟩)
          · simp at h
          · rw [List.mem_singleton.mp hn] at hp
            exact hp
        · intro h
          exact Or.inr ⟨root, List.mem_singleton.mpr rfl, h⟩
      have hterms2 : ∀ u, u ∈ BK.termsOf root ↔ (u ∈ ts ∧ u ≠ []) := hterms
      refine ⟨?_, rfl, fun hcon => absurd hcon hneg, ?_⟩
      · intro e he
        obtain ⟨h1, h2, h3⟩ := (hmem e).mp he
        refine ⟨((hterms2 e.1).mp h1).1, h2, ?_⟩
        omega
      · intro h0 u
        rw [hmem (u, d q u)]
        rw [List.mem_filter]
        constructor
        · rintro ⟨h1, _, h3⟩
          obtain ⟨hu1, hu2⟩ := (hterms2 u).mp h1
          refine ⟨hu1, ?_⟩
          simp only [decide_eq_true_eq]
          exact ⟨hu2, h3⟩
        · rintro ⟨h1, h2⟩
          simp only [decide_eq_true_eq] at h2
          exact ⟨(hterms2 u).mpr ⟨h1, h2.1⟩, rfl, h2.2⟩

namespace BK

/-- The discrete metric on strings, used to exercise the search theorem
at concrete inputs. -/
def discreteDist (x y : JStr) : Nat := if x = y then 0 else 1

theorem discreteDist_tri : ∀ x y z, discreteDist x z ≤ discreteDist x y + discreteDist y z := by
  intro x y z
  unfold discreteDist
  by_cases hxz : x = z
  · rw [if_pos hxz]
    exact Nat.zero_le _
  · rw [if_neg hxz]
    by_cases hxy : x = y
    · rw [if_pos hxy]
      have hyz : ¬y = z := fun h => hxz (hxy.trans h)
      rw [if_neg hyz]
    · rw [if_neg hxy]
      exact Nat.le_add_right 1 _

theorem discreteDist_symm : ∀ x y, discreteDist x y = discreteDist y x := by
  intro x y
  unfold discreteDist
  by_cases h : x = y
  · rw [if_pos h, if_pos h.symm]
  · rw [if_neg h, if_neg (fun h2 => h h2.symm)]

theorem discreteDist_sep : ∀ x y, discreteDist x y = 0 → x = y := by
  intro x y h
  unfold discreteDist at h
  by_cases hxy : x = y
  · exact hxy
  · rw [if_neg hxy] at h
    omega

end BK

theorem claim_C3_witness : BK.searchT BK.discreteDist none ['a'] 1 = [] :=
  (claim_C3_bk_search BK.discreteDist BK.discreteDist_tri BK.discreteDist_symm
    BK.discreteDist_sep [['a'], ['b']] ['a'] 1).2.1
